import Mathlib

/-!
Verification of the ghospel batch-transcription pipeline.

Strings are modelled as `List Char`.  Two character classes are needed:
`rxSpace` is the class matched by the Go regexp `\s` (used by the
`\s+`-collapsing regexes in `formatter.go`), and `goSpace` is the class
used by `strings.TrimSpace` / `strings.Fields` (`unicode.IsSpace`,
embedded here on its Latin-1 part, which is the part the transcription
pipeline can produce).
-/

/-- The Go regexp class `\s` = `[\t\n\f\r ]`. -/
def rxSpace (c : Char) : Bool :=
  c = ' ' || c = '\t' || c = '\n' || c = '\x0c' || c = '\r'

/-- `unicode.IsSpace` on the Latin-1 range: `\t \n \v \f \r space NEL NBSP`. -/
def goSpace (c : Char) : Bool :=
  c = ' ' || c = '\t' || c = '\n' || c = '\x0b' || c = '\x0c' || c = '\r' ||
  c = '\x85' || c = '\xa0'

/-- Terminal punctuation recognised by the sentence regex `[.!?]+`. -/
def isTerm (c : Char) : Bool :=
  c = '.' || c = '!' || c = '?'

/-- The class `[A-Z]` of the sentence-boundary regex. -/
def isUpperAZ (c : Char) : Bool :=
  'A' ≤ c && c ≤ 'Z'

/-- `strings.TrimSpace`: drop `unicode.IsSpace` characters from both ends. -/
def goTrim (l : List Char) : List Char :=
  ((l.dropWhile goSpace).reverse.dropWhile goSpace).reverse

/-- Helper for `goFields`: `cur` is the (reversed) word currently being read. -/
def goFieldsAux (cur : List Char) : List Char → List (List Char)
  | [] => if cur = [] then [] else [cur.reverse]
  | c :: t =>
    if goSpace c then
      if cur = [] then goFieldsAux [] t else cur.reverse :: goFieldsAux [] t
    else goFieldsAux (c :: cur) t

/-- `strings.Fields`: the maximal runs of non-space characters. -/
def goFields (l : List Char) : List (List Char) :=
  goFieldsAux [] l

/-- Helper for `collapseWS`; `ps` records whether the previous character was
a (regexp) space that has already been emitted as `' '`. -/
def collapseAux (ps : Bool) : List Char → List Char
  | [] => []
  | c :: t =>
    if rxSpace c then
      if ps then collapseAux true t else ' ' :: collapseAux true t
    else c :: collapseAux false t

/-- The regex replacement `\s+` → `" "` used by `splitIntoSentences` and
`cleanText`. -/
def collapseWS (l : List Char) : List Char :=
  collapseAux false l

/-- `strings.ReplaceAll (" " ++ [x]) [x]`: delete a space standing right
before the character `x`, scanning left to right, non-overlapping. -/
def replSpaceBefore (x : Char) : List Char → List Char
  | [] => []
  | c :: t =>
    if c = ' ' then
      match t with
      | [] => [c]
      | d :: t' =>
        if d = x then d :: replSpaceBefore x t'
        else c :: replSpaceBefore x (d :: t')
    else c :: replSpaceBefore x t

/-- The regex replacement `[p]{2,}` → `[p]`, via the state `prevP` = "the
previous character was `p`" (so every `p` directly after another `p` is
dropped). -/
def collapseRun (p : Char) (prevP : Bool) : List Char → List Char
  | [] => []
  | c :: t =>
    if c = p then
      if prevP then collapseRun p true t else c :: collapseRun p true t
    else c :: collapseRun p false t

/-- `TextFormatter.cleanText`: collapse whitespace, remove spaces before
`, . ! ?`, collapse repeated terminal punctuation, trim. -/
def cleanText (text : List Char) : List Char :=
  let t := collapseWS text
  let t := replSpaceBefore ',' t
  let t := replSpaceBefore '.' t
  let t := replSpaceBefore '!' t
  let t := replSpaceBefore '?' t
  let t := collapseRun '.' false t
  let t := collapseRun '!' false t
  let t := collapseRun '?' false t
  goTrim t

/-- The regex replacement `([.!?]+)\s+([A-Z])` → `$1\n$2` as a left-to-right
scanner.  `pb` holds the terminal-punctuation run read so far (reversed) and
`wb` the whitespace run following it (reversed); a following `[A-Z]`
completes a match, whose whitespace is replaced by a single `'\n'`. -/
def scanBound (pb wb : List Char) : List Char → List Char
  | [] => pb.reverse ++ wb.reverse
  | c :: t =>
    if isTerm c then
      if wb = [] then scanBound (c :: pb) [] t
      else pb.reverse ++ wb.reverse ++ scanBound [c] [] t
    else if rxSpace c && pb ≠ [] then scanBound pb (c :: wb) t
    else if isUpperAZ c && pb ≠ [] && wb ≠ [] then
      pb.reverse ++ '\n' :: c :: scanBound [] [] t
    else pb.reverse ++ wb.reverse ++ c :: scanBound [] [] t

/-- `strings.Split text "\n"` (always at least one piece). -/
def splitNl : List Char → List (List Char)
  | [] => [[]]
  | c :: t =>
    if c = '\n' then [] :: splitNl t
    else
      match splitNl t with
      | [] => [[c]]
      | p :: ps => (c :: p) :: ps

/-- `TextFormatter.splitIntoSentences`. -/
def splitIntoSentences (text : List Char) : List (List Char) :=
  let t := collapseWS (goTrim text)
  let replaced := scanBound [] [] t
  let rawSentences := splitNl replaced
  let sentences := (rawSentences.map goTrim).filter (· ≠ [])
  if sentences.length ≤ 1 ∧ rawSentences.length = 1 then [t] else sentences

/-- `TextFormatter.countWords`: trim, split on whitespace, count. -/
def countWords (sentence : List Char) : Nat :=
  (goFields (goTrim sentence)).length

/-- The `TextFormatter` configuration struct. -/
structure TextFormatter where
  targetWordCount : Nat
  maxSentencesPerChunk : Nat
  minWordsForSignificantSentence : Nat

/-- `NewTextFormatter`: target 50 words, max 4 sentences, significance at
4 words. -/
def NewTextFormatter : TextFormatter := ⟨50, 4, 4⟩

/-- The inner loop of `Format` that greedily accumulates sentences into the
tentative chunk until the cumulative word count reaches the target. -/
def tentativeChunk (f : TextFormatter) (wc : Nat) : List (List Char) → List (List Char)
  | [] => []
  | s :: rest =>
    if f.targetWordCount ≤ wc + countWords s then [s]
    else s :: tentativeChunk f (wc + countWords s) rest

/-- The truncation loop of `Format`: keep sentences until the
`maxSentencesPerChunk`-th significant sentence (inclusive). -/
def truncateChunk (f : TextFormatter) (cnt : Nat) : List (List Char) → List (List Char)
  | [] => []
  | s :: rest =>
    if f.minWordsForSignificantSentence ≤ countWords s then
      if f.maxSentencesPerChunk ≤ cnt + 1 then [s]
      else s :: truncateChunk f (cnt + 1) rest
    else s :: truncateChunk f cnt rest

/-- The number of significant sentences of a chunk (counted inside the
greedy loop of `Format`). -/
def sigCount (f : TextFormatter) (chunk : List (List Char)) : Nat :=
  (chunk.filter fun s => f.minWordsForSignificantSentence ≤ countWords s).length

/-- The outer loop of `Format`, producing the list of chunks (as sentence
lists).  The fuel argument is the number of unconsumed sentences, which
bounds the iteration count because every iteration consumes at least one
sentence; running out of fuel (never reached) and the `final = []` safety
break of the source both yield `[]`. -/
def chunkLoop (f : TextFormatter) : Nat → List (List Char) → List (List (List Char))
  | 0, _ => []
  | _ + 1, [] => []
  | fuel + 1, sentences =>
    let tentative := tentativeChunk f 0 sentences
    let final :=
      if f.maxSentencesPerChunk < sigCount f tentative
      then truncateChunk f 0 tentative else tentative
    if final.length = 0 then []
    else final :: chunkLoop f fuel (sentences.drop final.length)

/-- `strings.Join chunk " "`. -/
def joinSpace : List (List Char) → List Char
  | [] => []
  | [s] => s
  | s :: rest => s ++ ' ' :: joinSpace rest

/-- The builder of `Format`: chunks are appended, separated by a blank line
once the builder is non-empty. -/
def joinChunksGo (chunks : List (List Char)) : List Char :=
  chunks.foldl (fun acc c => if acc.length ≠ 0 then acc ++ '\n' :: '\n' :: c else acc ++ c) []

/-- `TextFormatter.Format`. -/
def formatText (f : TextFormatter) (text : List Char) : List Char :=
  if goTrim text = [] then []
  else
    let sentences := splitIntoSentences text
    if sentences = [] then text
    else
      goTrim (joinChunksGo
        ((chunkLoop f sentences.length sentences).map fun c => cleanText (joinSpace c)))

/-- The paragraphs of an output string: the non-empty lines (paragraph
texts contain no newline and are separated by blank lines). -/
def paragraphsOf (s : List Char) : List (List Char) :=
  (splitNl s).filter (· ≠ [])

/-! ### Whisper output parsing (`whisper.Client.Transcribe`) -/

/-- `strings.HasPrefix` on lists. -/
def startsList : List Char → List Char → Bool
  | _, [] => true
  | [], _ :: _ => false
  | c :: t, p :: ps => c = p && startsList t ps

/-- `strings.Contains l pat`. -/
def containsSub (l pat : List Char) : Bool :=
  match l with
  | [] => pat = []
  | _ :: t => startsList l pat || containsSub t pat

/-- The part of `l` after the first occurrence of the character `x`
(`strings.SplitN l [x] 2` second piece), or `none`. -/
def afterChar (x : Char) : List Char → Option (List Char)
  | [] => none
  | c :: t => if c = x then some t else afterChar x t

/-- The line loop of `Client.Transcribe`: once a line containing `"[00:"`
is seen, every following line with a `]` contributes the trimmed text after
its first `]` (followed by one space) to the transcription builder. -/
def whisperLines (inT : Bool) : List (List Char) → List Char
  | [] => []
  | line :: rest =>
    let tl := goTrim line
    if containsSub tl ('[' :: '0' :: '0' :: [':']) || inT then
      match afterChar ']' tl with
      | some afterBr =>
        let text := goTrim afterBr
        if text ≠ [] then text ++ ' ' :: whisperLines true rest
        else whisperLines true rest
      | none => whisperLines true rest
    else whisperLines inT rest

/-- The parse of the engine's raw combined output performed by
`Client.Transcribe`. -/
def whisperParse (raw : List Char) : List Char :=
  goTrim (whisperLines false (splitNl raw))

/-- `Client.Transcribe` given the engine-invocation outcome: an engine
error is propagated; otherwise the output is parsed, falling back to the
raw output verbatim when the parse is empty. -/
def clientTranscribe (engine : Except (List Char) (List Char)) :
    Except (List Char) (List Char) :=
  match engine with
  | .error e => .error e
  | .ok out =>
    let result := whisperParse out
    .ok (if result = [] then out else result)

/-! ### Path handling (`path/filepath`, simplified to slash-separated
paths without trailing separators) -/

/-- `filepath.Ext`: the suffix starting at the last dot of the last path
element, scanning from the end (empty when the last element has no dot). -/
def extScan (acc : List Char) : List Char → List Char
  | [] => []
  | c :: t =>
    if c = '/' then []
    else if c = '.' then '.' :: acc
    else extScan (c :: acc) t

/-- `filepath.Ext`. -/
def filepathExt (p : List Char) : List Char :=
  extScan [] p.reverse

/-- `filepath.Base` (for non-empty paths without trailing slash). -/
def filepathBase (p : List Char) : List Char :=
  (p.reverse.takeWhile (· ≠ '/')).reverse

/-- `filepath.Dir` (for paths without trailing slash): everything before
the last separator, `"."` when there is none, `"/"` for a root child. -/
def filepathDir (p : List Char) : List Char :=
  if p.contains '/' then
    let d := (p.reverse.dropWhile (· ≠ '/')).reverse.dropLast
    if d = [] then ['/'] else d
  else ['.']

/-- `filepath.Join dir name` for a non-empty simple name. -/
def joinPath (dir name : List Char) : List Char :=
  dir ++ '/' :: name

/-- `strings.TrimSuffix`. -/
def trimSuffix (l suf : List Char) : List Char :=
  if startsList l.reverse suf.reverse then l.take (l.length - suf.length) else l

/-- ASCII lower-casing, the effective part of `strings.ToLower` on
extensions. -/
def toLowerAscii (c : Char) : Char :=
  if 'A' ≤ c && c ≤ 'Z' then Char.ofNat (c.toNat + 32) else c

/-! ### Audio preparation (`Service.prepareAudioFile`) -/

/-- The actual encoding of an audio file (sample rate, channel count,
16-bit PCM flag); the required Whisper input format is mono 16 kHz PCM. -/
structure AudioEncoding where
  sampleRate : Nat
  channels : Nat
  pcm16 : Bool

/-- Whether an encoding already is the format required by the engine. -/
def isCanonicalEncoding (e : AudioEncoding) : Bool :=
  e.channels = 1 && e.sampleRate = 16000 && e.pcm16

/-- `Service.prepareAudioFile`: the source decides purely on the
(lower-cased) file extension — a `.wav` input is returned unconverted with
`needsCleanup = false` (its actual encoding is never probed; the source
carries a TODO to check 16 kHz mono); any other extension is delegated to
`audioProcessor.ConvertToWav`, whose outcome is `convResult`. -/
def prepareAudioFile (inputPath : List Char)
    (convResult : Except (List Char) (List Char)) :
    Except (List Char) (List Char × Bool) :=
  if (filepathExt inputPath).map toLowerAscii = '.' :: 'w' :: 'a' :: ['v'] then
    .ok (inputPath, false)
  else
    match convResult with
    | .error e => .error e
    | .ok wavPath => .ok (wavPath, true)

/-! ### Model download (`models.Manager.Download`) -/

/-- State of the file at a model's canonical cache path. -/
inductive ModelFileState
  | partialFile
  | completeFile
deriving DecidableEq

/-- Outcome of the HTTP transfer underlying one `Download` call. -/
inductive HttpOutcome
  | connError
  | resp (status : Nat) (createFails : Bool) (copyFails : Bool)

/-- The error cases of `Manager.Download`. -/
inductive DlErr
  | unknownModel
  | httpStart
  | badStatus
  | createFailed
  | copyFailed
deriving DecidableEq

/-- `Manager.Download` for one model: validate the name against the
catalog, return early when the cache path already exists, otherwise fetch;
on a failed `io.Copy` the partially written file is removed
(`os.Remove(targetModel.Path)`) before the error is returned.  The second
component is the resulting state of the model's cache path. -/
def managerDownload (known : Bool) (cache : Option ModelFileState)
    (out : HttpOutcome) : Except DlErr Unit × Option ModelFileState :=
  if known = false then (.error .unknownModel, cache)
  else
    match cache with
    | some st => (.ok (), some st)
    | none =>
      match out with
      | .connError => (.error .httpStart, none)
      | .resp status createFails copyFails =>
        if status ≠ 200 then (.error .badStatus, none)
        else if createFails then (.error .createFailed, none)
        else if copyFails then (.error .copyFailed, none)
        else (.ok (), some .completeFile)

/-! ### Concurrent model acquisition (`Service.ensureModelDownloaded` +
`Manager.Download`): two callers interleaved over the shared cache file -/

/-- Program counter of one caller running `ensureModelDownloaded`:
`os.Stat` in `ensureModelDownloaded`, the `os.Stat` early-return check in
`Download`, then `http.Get`, `os.Create`, `io.Copy`. -/
inductive DlPc
  | checkCache
  | checkDl
  | doGet
  | doCreate
  | doCopy
  | finished
deriving DecidableEq

/-- Shared state of the model's cache file during interleaved execution. -/
inductive SharedFile
  | absent
  | partialFile
  | completeFile
deriving DecidableEq

/-- One atomic step of a caller: the next program counter, the new shared
file state, and how many fetch transfers this step starts. -/
def stepPc : DlPc → SharedFile → DlPc × SharedFile × Nat
  | .checkCache, f => (if f = .absent then .checkDl else .finished, f, 0)
  | .checkDl, f => (if f = .absent then .doGet else .finished, f, 0)
  | .doGet, f => (.doCreate, f, 1)
  | .doCreate, _ => (.doCopy, .partialFile, 0)
  | .doCopy, _ => (.finished, .completeFile, 0)
  | .finished, f => (.finished, f, 0)

/-- Joint state of two callers requesting the same uncached model. -/
structure RaceState where
  pcA : DlPc
  pcB : DlPc
  file : SharedFile
  fetches : Nat
deriving DecidableEq

/-- Run a schedule (`false` steps caller A, `true` steps caller B). -/
def runSched : List Bool → RaceState → RaceState
  | [], s => s
  | who :: rest, s =>
    if who then
      let (pc, f, d) := stepPc s.pcB s.file
      runSched rest ⟨s.pcA, pc, f, s.fetches + d⟩
    else
      let (pc, f, d) := stepPc s.pcA s.file
      runSched rest ⟨pc, s.pcB, f, s.fetches + d⟩

/-- Both callers start at the first stat check with the model uncached. -/
def raceInit : RaceState :=
  ⟨.checkCache, .checkCache, .absent, 0⟩

/-! ### Discovery and batch loop (`Service.findAudioFiles`,
`Service.TranscribeFiles`) -/

/-- A directory tree entry as seen by `filepath.Walk` / `os.ReadDir`. -/
inductive FsEntry
  | file (name : List Char)
  | dir (name : List Char) (entries : List FsEntry)

/-- The `os.Stat` result for one input path. -/
inductive InputStat
  | unreadable
  | fileEntry
  | dirEntry (entries : List FsEntry)

/-- The fixed set of supported audio extensions. -/
def supportedExts : List (List Char) :=
  ['.' :: 'm' :: 'p' :: ['3'], '.' :: 'm' :: '4' :: ['a'],
   '.' :: 'w' :: 'a' :: ['v'], '.' :: 'f' :: 'l' :: 'a' :: ['c'],
   '.' :: 'm' :: 'p' :: ['4'], '.' :: 'a' :: 'a' :: ['c'],
   '.' :: 'o' :: 'g' :: ['g']]

/-- `Service.isAudioFile`: lower-cased extension in the supported set. -/
def isAudioFile (path : List Char) : Bool :=
  supportedExts.contains ((filepathExt path).map toLowerAscii)

/-- `filepath.Walk` restricted to collecting audio files (the recursive
directory case of `findAudioFiles`). -/
def walkEntries (base : List Char) : List FsEntry → List (List Char)
  | [] => []
  | .file n :: rest =>
    let p := joinPath base n
    (if isAudioFile p then [p] else []) ++ walkEntries base rest
  | .dir n sub :: rest =>
    walkEntries (joinPath base n) sub ++ walkEntries base rest

/-- The non-recursive directory case of `findAudioFiles` (`os.ReadDir`,
immediate file children only). -/
def readDirFiles (base : List Char) : List FsEntry → List (List Char)
  | [] => []
  | .file n :: rest =>
    let p := joinPath base n
    (if isAudioFile p then [p] else []) ++ readDirFiles base rest
  | .dir _ _ :: rest => readDirFiles base rest

/-- `Service.findAudioFiles`: the first unreadable input path aborts
discovery with an error; otherwise all discovered audio files accumulate
in input order. -/
def findAudioFiles (recursive : Bool) :
    List (List Char × InputStat) → Except (List Char) (List (List Char))
  | [] => .ok []
  | (p, .unreadable) :: _ =>
    .error ('c' :: 'a' :: 'n' :: 'n' :: 'o' :: 't' :: ' ' :: 'a' :: 'c' :: 'c' :: 'e' :: 's' :: 's' :: ' ' :: p)
  | (p, .fileEntry) :: rest =>
    match findAudioFiles recursive rest with
    | .error e => .error e
    | .ok fs => .ok ((if isAudioFile p then [p] else []) ++ fs)
  | (p, .dirEntry es) :: rest =>
    match findAudioFiles recursive rest with
    | .error e => .error e
    | .ok fs =>
      .ok ((if recursive then walkEntries p es else readDirFiles p es) ++ fs)

/-- Per-file statistics returned by `Service.transcribeFile`. -/
structure FileStats where
  wordCount : Nat
  durationSec : Nat
deriving DecidableEq

/-- The batch counters accumulated by `Service.TranscribeFiles`. -/
structure BatchSummary where
  successCount : Nat
  failedCount : Nat
  totalWords : Nat
  totalDuration : Nat
deriving DecidableEq

/-- The per-file loop of `TranscribeFiles`: a failing job increments the
failure counter and the loop continues; a succeeding job increments the
success counter and the word/duration totals. -/
def batchLoop (jobResult : List Char → Except (List Char) FileStats)
    (acc : BatchSummary) : List (List Char) → BatchSummary
  | [] => acc
  | f :: rest =>
    match jobResult f with
    | .error _ =>
      batchLoop jobResult ⟨acc.successCount, acc.failedCount + 1,
        acc.totalWords, acc.totalDuration⟩ rest
    | .ok st =>
      batchLoop jobResult ⟨acc.successCount + 1, acc.failedCount,
        acc.totalWords + st.wordCount, acc.totalDuration + st.durationSec⟩ rest

/-- `Service.TranscribeFiles`: discovery errors and an empty discovery
abort the run; otherwise every file is handed to `jobResult`
(`Service.transcribeFile`) and the run always returns the summary. -/
def transcribeFiles (recursive : Bool)
    (inputs : List (List Char × InputStat))
    (jobResult : List Char → Except (List Char) FileStats) :
    Except (List Char) BatchSummary :=
  match findAudioFiles recursive inputs with
  | .error e => .error e
  | .ok files =>
    if files.length = 0 then
      .error ('n' :: 'o' :: ' ' :: 'a' :: 'u' :: 'd' :: 'i' :: 'o' :: ' ' :: 'f' :: 'i' :: 'l' :: 'e' :: 's' :: ' ' :: 'f' :: 'o' :: 'u' :: 'n' :: ['d'])
    else .ok (batchLoop jobResult ⟨0, 0, 0, 0⟩ files)

/-! ### Resume filter (output-path rule from `Service.getOutputPath`; the
skip/force classification of the resumable release is not part of this
source snapshot and is modelled from the spec) -/

/-- `Service.getOutputPath`: input basename with the configured extension,
in the configured output directory or the input's own directory. -/
def getOutputPath (outputDir fmt inputPath : List Char) : List Char :=
  let dir := if outputDir ≠ [] then outputDir else filepathDir inputPath
  let base := trimSuffix (filepathBase inputPath) (filepathExt inputPath)
  joinPath dir (base ++ '.' :: fmt)

/-- Classification of a discovered file by the resume filter. -/
inductive JobClass
  | skipJob
  | processJob
deriving DecidableEq

/-- Modelled from the spec: the resume-filter classification — "the filter
computes the expected output path and classifies the file as Skip (output
exists and force=false) or Process".  The skip/force logic itself is
absent from this source snapshot (only its CLI caller, which sets the
`force` option, is present). -/
def classifyFile (force outputExists : Bool) : JobClass :=
  if outputExists && !force then .skipJob else .processJob

/-- Modelled from the spec: the resume filter partitions discovered files
into the ordered to-process list and the already-done count, using the
output-path rule and an output-existence predicate. -/
def resumeFilter (force : Bool) (outExists : List Char → Bool)
    (outPath : List Char → List Char) :
    List (List Char) → List (List Char) × Nat
  | [] => ([], 0)
  | f :: rest =>
    let (toProc, done) := resumeFilter force outExists outPath rest
    match classifyFile force (outExists (outPath f)) with
    | .skipJob => (toProc, done + 1)
    | .processJob => (f :: toProc, done)

/-! ### Structural predicates used by the TextReflow proofs -/

/-- Every regexp-space character of `l` is a plain `' '`. -/
def SpacesArePlain (l : List Char) : Prop :=
  ∀ c ∈ l, rxSpace c = true → c = ' '

/-- No two adjacent regexp-space characters. -/
def NoAdjSpace (l : List Char) : Prop :=
  l.Chain' fun a b => ¬(rxSpace a = true ∧ rxSpace b = true)

/-- The state of strings that have passed through `collapseWS`. -/
def IsCollapsed (l : List Char) : Prop :=
  SpacesArePlain l ∧ NoAdjSpace l

/-- The punctuation characters whose space-prefix `cleanText` removes. -/
def cleanablePunct (c : Char) : Bool :=
  c = ',' || c = '.' || c = '!' || c = '?'

/-- Strings on which the two artifact cleanups of `cleanText` (space
before punctuation, repeated terminal punctuation) find nothing to do. -/
def CleanSafe (l : List Char) : Prop :=
  l.Chain' fun a b =>
    ¬(a = ' ' ∧ cleanablePunct b = true) ∧ ¬(isTerm a = true ∧ b = a)

/-- No contiguous occurrence of terminal punctuation, `' '`, upper-case
letter — i.e. no unconverted sentence boundary (on collapsed text every
regex boundary has this three-character shape). -/
def noSpTripleB : List Char → Bool
  | a :: b :: c :: t =>
    !(isTerm a && decide (b = ' ') && isUpperAZ c) && noSpTripleB (b :: c :: t)
  | _ => true

/-- The four replacement passes and three punctuation-run collapses of
`cleanText`, without the surrounding whitespace collapse and trim. -/
def cleanPasses (t : List Char) : List Char :=
  collapseRun '?' false (collapseRun '!' false (collapseRun '.' false
    (replSpaceBefore '?' (replSpaceBefore '!' (replSpaceBefore '.'
      (replSpaceBefore ',' t))))))

/-- Word-count automaton: the number of maximal non-space runs of the
input, parametrised by whether a run is already open (gives
`goFields`-lengths without building the fields). -/
def wcA : List Char → Bool → Nat
  | [], _ => 0
  | c :: t, inW =>
    if goSpace c then wcA t false
    else (if inW then 0 else 1) + wcA t true

instance instDecCleanSafe : ∀ l : List Char, Decidable (CleanSafe l)
  | [] => isTrue List.chain'_nil
  | [c] => isTrue (List.chain'_singleton c)
  | _ :: b :: t =>
    haveI : Decidable (List.Chain'
        (fun x y => ¬(x = ' ' ∧ cleanablePunct y = true) ∧ ¬(isTerm x = true ∧ y = x))
        (b :: t)) := instDecCleanSafe (b :: t)
    decidable_of_iff _ List.chain'_cons.symm

/-- First and last characters (when present) are not Go spaces. -/
def NoEdgeSpace (l : List Char) : Prop :=
  (∀ c ∈ l.head?, goSpace c = false) ∧ (∀ c ∈ l.getLast?, goSpace c = false)

/-- The tail of the builder output: every further chunk is preceded by a
blank line. -/
def nlJoinTail : List (List Char) → List Char
  | [] => []
  | c :: rest => '\n' :: '\n' :: (c ++ nlJoinTail rest)

/-- Relation between the sentence scanner's input and output: characters
are kept, except that a space standing between a terminal punctuation mark
and an upper-case letter may become a newline. -/
inductive ScanRel : List Char → List Char → Prop
  | nil : ScanRel [] []
  | keep (c : Char) {v v' : List Char} : ScanRel v v' → ScanRel (c :: v) (c :: v')
  | conv (p u : Char) {v v' : List Char} : isTerm p = true → isUpperAZ u = true →
      ScanRel (u :: v) (u :: v') → ScanRel (p :: ' ' :: u :: v) (p :: '\n' :: u :: v')

/-- Pointwise equivalence for `goFields`: same length, same space mask,
same characters at non-space positions. -/
inductive SpEq : List Char → List Char → Prop
  | nil : SpEq [] []
  | cons (a b : Char) {v v' : List Char} : goSpace a = goSpace b →
      (goSpace a = false → a = b) → SpEq v v' → SpEq (a :: v) (b :: v')

/-- Adjacent pieces form sentence junctions: the left piece ends with
terminal punctuation, the right piece starts with an upper-case letter. -/
def SentChain (ps : List (List Char)) : Prop :=
  ps.Chain' fun a b =>
    (∃ c, a.getLast? = some c ∧ isTerm c = true) ∧
    (∃ c, b.head? = some c ∧ isUpperAZ c = true)

/-! ## Helper lemmas -/

/-- The batch loop counts every file exactly once: terminal counters sum to
the file count, and the failure counter counts exactly the failing jobs. -/
theorem batchLoop_counts (jr : List Char → Except (List Char) FileStats)
    (files : List (List Char)) (acc : BatchSummary) :
    (batchLoop jr acc files).successCount + (batchLoop jr acc files).failedCount =
      acc.successCount + acc.failedCount + files.length ∧
    (batchLoop jr acc files).failedCount =
      acc.failedCount +
        files.countP (fun f => match jr f with | .error _ => true | .ok _ => false) := by
  induction files generalizing acc with
  | nil => simp [batchLoop]
  | cons f rest ih =>
    rcases h : jr f with e | st
    · obtain ⟨ih1, ih2⟩ :=
        ih ⟨acc.successCount, acc.failedCount + 1, acc.totalWords, acc.totalDuration⟩
      dsimp only at ih1 ih2
      simp only [batchLoop, h, List.countP_cons, List.length_cons]
      simp
      constructor <;> omega
    · obtain ⟨ih1, ih2⟩ :=
        ih ⟨acc.successCount + 1, acc.failedCount, acc.totalWords + st.wordCount,
          acc.totalDuration + st.durationSec⟩
      dsimp only at ih1 ih2
      simp only [batchLoop, h, List.countP_cons, List.length_cons]
      simp
      constructor <;> omega

/-- An unreadable input path always aborts discovery. -/
theorem findAudioFiles_unreadable (recursive : Bool)
    (inputs : List (List Char × InputStat)) (p : List Char)
    (hp : (p, InputStat.unreadable) ∈ inputs) :
    ∃ e, findAudioFiles recursive inputs = .error e := by
  induction inputs with
  | nil => cases hp
  | cons q rest ih =>
    rcases q with ⟨q, st⟩
    rcases List.mem_cons.1 hp with h | h
    · cases h
      exact ⟨_, rfl⟩
    · rcases st with _ | _ | es
      · exact ⟨_, rfl⟩
      · rcases ih h with ⟨e, he⟩
        exact ⟨e, by simp [findAudioFiles, he]⟩
      · rcases ih h with ⟨e, he⟩
        exact ⟨e, by simp [findAudioFiles, he]⟩

/-! ## Claim theorems (first group) -/

/-- Claim C2 (code bug witness): with the source's check-then-download
(`Service.ensureModelDownloaded` + `Manager.Download`, no per-model lock),
the interleaving in which both callers pass both `os.Stat` checks before
either starts transferring makes both callers fetch: two download
transfers are in flight for the same model, contradicting the claimed
single-flight invariant. -/
theorem ensureModel_race_two_fetches :
    (runSched [false, true, false, true, false, false, false, true, true, true]
      raceInit).fetches = 2 ∧
    (runSched [false, true, false, true, false, false, false, true, true, true]
      raceInit).pcA = .finished ∧
    (runSched [false, true, false, true, false, false, false, true, true, true]
      raceInit).pcB = .finished := by
  decide

/-- Claim C3: when every discovered file's expected output (computed by
`Service.getOutputPath`'s rule) already exists and `force` is false, the
resume filter classifies everything as Skip: `toProcess` is empty and
`alreadyDone` equals the discovered count. -/
theorem resumeFilter_total_skip (outputDir fmt : List Char)
    (outExists : List Char → Bool) (files : List (List Char))
    (h : ∀ f ∈ files, outExists (getOutputPath outputDir fmt f) = true) :
    resumeFilter false outExists (getOutputPath outputDir fmt) files =
      ([], files.length) := by
  induction files with
  | nil => rfl
  | cons f rest ih =>
    have hf := h f (List.mem_cons_self f rest)
    have hrest := ih fun g hg => h g (List.mem_cons_of_mem f hg)
    simp [resumeFilter, hrest, classifyFile, hf]

/-- Witness for C3 at a concrete batch. -/
theorem resumeFilter_total_skip_witness :
    resumeFilter false (fun _ => true)
      (getOutputPath [] ('t' :: 'x' :: ['t']))
      ['a' :: '.' :: 'm' :: 'p' :: ['3'], 'b' :: '.' :: 'w' :: 'a' :: ['v']] =
      ([], 2) :=
  resumeFilter_total_skip [] ('t' :: 'x' :: ['t']) (fun _ => true) _
    (fun _ _ => rfl)

/-- Claim C5 counterexample: a readable directory containing no audio file
makes the whole invocation fail (`"no audio files found"`) even though no
input path is unreadable and no per-job error occurred — so an unreadable
input path is not the only whole-run-aborting error. -/
theorem transcribeFiles_fails_without_unreadable_input :
    transcribeFiles false
      [(['d'], InputStat.dirEntry [FsEntry.file ('x' :: '.' :: 'p' :: 'd' :: ['f'])])]
      (fun _ => .ok ⟨1, 1⟩) =
      .error ('n' :: 'o' :: ' ' :: 'a' :: 'u' :: 'd' :: 'i' :: 'o' :: ' ' :: 'f' :: 'i' :: 'l' :: 'e' :: 's' :: ' ' :: 'f' :: 'o' :: 'u' :: 'n' :: ['d']) := by
  rfl

/-- Claim C5 (amended): an unreadable input path aborts discovery and the
run; the only whole-run-failing errors are a discovery error or a
discovery that finds no audio file; whenever discovery yields a non-empty
file list, the batch returns success for every per-job outcome, with every
file counted exactly once and the failure counter counting exactly the
failing jobs. -/
theorem transcribeFiles_error_policy (recursive : Bool)
    (inputs : List (List Char × InputStat))
    (jr : List Char → Except (List Char) FileStats) :
    (∀ p, (p, InputStat.unreadable) ∈ inputs →
      ∃ e, transcribeFiles recursive inputs jr = .error e) ∧
    (∀ e, findAudioFiles recursive inputs = .error e →
      transcribeFiles recursive inputs jr = .error e) ∧
    (∀ e, transcribeFiles recursive inputs jr = .error e →
      findAudioFiles recursive inputs = .error e ∨
        findAudioFiles recursive inputs = .ok []) ∧
    (∀ files, findAudioFiles recursive inputs = .ok files → files ≠ [] →
      ∃ s, transcribeFiles recursive inputs jr = .ok s ∧
        s.successCount + s.failedCount = files.length ∧
        s.failedCount =
          files.countP (fun f => match jr f with | .error _ => true | .ok _ => false)) := by
  refine ⟨?_, ?_, ?_, ?_⟩
  · intro p hp
    obtain ⟨e, he⟩ := findAudioFiles_unreadable recursive inputs p hp
    exact ⟨e, by simp [transcribeFiles, he]⟩
  · intro e he
    simp [transcribeFiles, he]
  · intro e he
    rcases hd : findAudioFiles recursive inputs with e' | files
    · simp [transcribeFiles, hd] at he
      exact Or.inl (by rw [he])
    · right
      rcases files with _ | ⟨f, fs⟩
      · rfl
      · simp [transcribeFiles, hd] at he
  · intro files hd hne
    refine ⟨batchLoop jr ⟨0, 0, 0, 0⟩ files, ?_, ?_, ?_⟩
    · have : files.length ≠ 0 := fun h => hne (List.length_eq_zero.1 h)
      simp [transcribeFiles, hd, this]
    · have := (batchLoop_counts jr files ⟨0, 0, 0, 0⟩).1
      simpa using this
    · have := (batchLoop_counts jr files ⟨0, 0, 0, 0⟩).2
      simpa using this

/-- Witness for C5 at a concrete batch: one readable `.mp3` input whose
job fails; the run still succeeds and counts the failure. -/
theorem transcribeFiles_error_policy_witness :
    ∃ s, transcribeFiles false [('a' :: '.' :: 'm' :: 'p' :: ['3'], InputStat.fileEntry)]
        (fun _ => .error ['x']) = .ok s ∧
      s.successCount + s.failedCount = 1 ∧ s.failedCount = 1 := by
  obtain ⟨s, h1, h2, h3⟩ :=
    (transcribeFiles_error_policy false
      [('a' :: '.' :: 'm' :: 'p' :: ['3'], InputStat.fileEntry)]
      (fun _ => .error ['x'])).2.2.2
      ['a' :: '.' :: 'm' :: 'p' :: ['3']] rfl (by decide)
  exact ⟨s, h1, h2, by simpa using h3⟩

/-- Claim C6 (code bug witness): `Service.prepareAudioFile` decides purely
on the file extension — a `.wav` input is used directly with no cleanup
and the converter outcome is never consulted, even though an encoding such
as stereo 44.1 kHz non-PCM is not the canonical engine format. -/
theorem prepareAudioFile_ignores_encoding :
    (∀ convResult,
      prepareAudioFile ('s' :: '.' :: 'w' :: 'a' :: ['v']) convResult =
        .ok (('s' :: '.' :: 'w' :: 'a' :: ['v']), false)) ∧
    isCanonicalEncoding ⟨44100, 2, false⟩ = false := by
  exact ⟨fun _ => rfl, rfl⟩

/-- Claim C7: when the engine invocation succeeds, `Client.Transcribe`
never returns an error: it returns the structural parse of the output, or,
when that parse is empty, the raw output verbatim. -/
theorem clientTranscribe_parse_fallback (rawOut : List Char) :
    (∃ s, clientTranscribe (.ok rawOut) = .ok s) ∧
    (whisperParse rawOut = [] → clientTranscribe (.ok rawOut) = .ok rawOut) ∧
    (whisperParse rawOut ≠ [] →
      clientTranscribe (.ok rawOut) = .ok (whisperParse rawOut)) := by
  refine ⟨⟨_, rfl⟩, ?_, ?_⟩ <;> intro h <;> simp [clientTranscribe, h]

/-- Witness for C7: unparseable raw output is returned verbatim. -/
theorem clientTranscribe_parse_fallback_witness :
    clientTranscribe (.ok ('f' :: 'o' :: ['o'])) = .ok ('f' :: 'o' :: ['o']) :=
  (clientTranscribe_parse_fallback ('f' :: 'o' :: ['o'])).2.1 (by decide)

/-- Claim C8 (scenario B): five 5-word sentences with terminal `.` exceed
the significant-sentence bound, so `Format` yields two paragraphs — the
first four sentences, then the fifth. -/
theorem formatText_scenarioB :
    paragraphsOf (formatText NewTextFormatter
      "One two three four five. Two two three four five. Three two three four five. Four two three four five. Five two three four five.".data) =
    ["One two three four five. Two two three four five. Three two three four five. Four two three four five.".data,
     "Five two three four five.".data] := by
  decide

/-- Claim C10: a failed `Manager.Download` never changes the model's
canonical cache path — in particular the partial file of a failed copy is
removed before the error returns. -/
theorem managerDownload_error_cache_unchanged (known : Bool)
    (cache : Option ModelFileState) (out : HttpOutcome) (e : DlErr)
    (h : (managerDownload known cache out).1 = .error e) :
    (managerDownload known cache out).2 = cache := by
  cases known
  · rfl
  · cases cache
    · rcases out with _ | ⟨status, createFails, copyFails⟩
      · rfl
      · by_cases hs : status = 200
        · subst hs
          cases createFails
          · cases copyFails
            · simp [managerDownload] at h
            · rfl
          · rfl
        · simp [managerDownload, hs]
    · simp [managerDownload] at h

/-- Witness for C10: a mid-copy failure leaves the cache path absent. -/
theorem managerDownload_error_cache_unchanged_witness :
    (managerDownload true none (.resp 200 false true)).2 = none :=
  managerDownload_error_cache_unchanged true none (.resp 200 false true)
    .copyFailed rfl

/-- Claim C1 counterexample: on the input `"a , b"` the word sequence of
`Format`'s output (`"a, b"`) differs from the input's word sequence —
`cleanText`'s space-before-punctuation cleanup merges tokens, so word
preservation fails as stated. -/
theorem formatText_not_word_preserving :
    goFields (formatText NewTextFormatter ('a' :: ' ' :: ',' :: ' ' :: ['b'])) ≠
      goFields ('a' :: ' ' :: ',' :: ' ' :: ['b']) := by
  decide

/-- Claim C9 counterexample: on this input the first run produces two
paragraphs, but `cleanText` turns the 4-word sentence `"a , b c."` into
the 3-word `"a, b c."`; re-running `Format` on the rejoined output then
finds only four significant sentences, keeps everything in one paragraph,
and the partition differs. -/
theorem formatText_not_idempotent :
    paragraphsOf (formatText NewTextFormatter
      (joinSpace (paragraphsOf (formatText NewTextFormatter
        "a , b c. Bb cc dd ee. Cc dd ee ff. Dd ee ff gg. Ee ff gg hh.".data)))) ≠
    paragraphsOf (formatText NewTextFormatter
      "a , b c. Bb cc dd ee. Cc dd ee ff. Dd ee ff gg. Ee ff gg hh.".data) := by
  decide

/-! ## TextReflow machinery: character classes, trim, collapse -/

theorem goSpace_of_rxSpace {c : Char} (h : rxSpace c = true) : goSpace c = true := by
  simp only [rxSpace, Bool.or_eq_true, decide_eq_true_eq] at h
  obtain (((h | h) | h) | h) | h := h <;> subst h <;> decide

theorem rxSpace_eq_false_of_goSpace {c : Char} (h : goSpace c = false) :
    rxSpace c = false := by
  by_contra hc
  rw [goSpace_of_rxSpace (Bool.of_not_eq_false hc)] at h
  cases h

theorem isTerm_not_goSpace {c : Char} (h : isTerm c = true) : goSpace c = false := by
  simp only [isTerm, Bool.or_eq_true, decide_eq_true_eq] at h
  obtain (h | h) | h := h <;> subst h <;> decide

theorem isUpperAZ_not_goSpace {c : Char} (h : isUpperAZ c = true) : goSpace c = false := by
  simp only [isUpperAZ, Bool.and_eq_true, decide_eq_true_eq] at h
  obtain ⟨h1, h2⟩ := h
  by_contra hb
  have hg : goSpace c = true := Bool.of_not_eq_false hb
  simp only [goSpace, Bool.or_eq_true, decide_eq_true_eq] at hg
  obtain ((((((hg | hg) | hg) | hg) | hg) | hg) | hg) | hg := hg <;> subst hg <;>
    first
    | exact absurd h1 (by decide)
    | exact absurd h2 (by decide)

theorem isUpperAZ_ne_nl {c : Char} (h : isUpperAZ c = true) : c ≠ '\n' := by
  intro he
  subst he
  cases h

theorem isTerm_ne_nl {c : Char} (h : isTerm c = true) : c ≠ '\n' := by
  intro he
  subst he
  cases h

theorem dropWhile_eq_self_of_head {p : Char → Bool} {l : List Char}
    (h : ∀ c ∈ l.head?, p c = false) : l.dropWhile p = l := by
  cases l with
  | nil => rfl
  | cons a t =>
    have : p a = false := h a rfl
    simp [List.dropWhile_cons, this]

theorem getLast?_dropWhile {p : Char → Bool} {l : List Char}
    (h : l.dropWhile p ≠ []) : (l.dropWhile p).getLast? = l.getLast? := by
  induction l with
  | nil => rfl
  | cons a t ih =>
    by_cases hp : p a
    · rw [List.dropWhile_cons_of_pos hp] at h ⊢
      have ht : t ≠ [] := by
        intro he
        subst he
        exact h rfl
      rw [ih h]
      rcases t with _ | ⟨b, t'⟩
      · exact absurd rfl ht
      · rw [List.getLast?_cons_cons]
    · rw [List.dropWhile_cons_of_neg hp]

theorem head_goTrim_not_space {l : List Char} :
    ∀ c ∈ (goTrim l).head?, goSpace c = false := by
  intro c hc
  unfold goTrim at hc
  rw [List.head?_reverse] at hc
  rcases hne : ((l.dropWhile goSpace).reverse.dropWhile goSpace) with _ | _
  · rw [hne] at hc
    cases hc
  · rw [getLast?_dropWhile (by rw [hne]; exact List.cons_ne_nil _ _),
      List.getLast?_reverse] at hc
    have h2 := List.head?_dropWhile_not goSpace l
    rw [hc] at h2
    exact h2

theorem last_goTrim_not_space {l : List Char} :
    ∀ c ∈ (goTrim l).getLast?, goSpace c = false := by
  intro c hc
  unfold goTrim at hc
  rw [List.getLast?_reverse] at hc
  have h2 := List.head?_dropWhile_not goSpace (l.dropWhile goSpace).reverse
  rw [hc] at h2
  exact h2

theorem noEdgeSpace_goTrim (l : List Char) : NoEdgeSpace (goTrim l) :=
  ⟨head_goTrim_not_space, last_goTrim_not_space⟩

theorem goTrim_eq_self {l : List Char} (h : NoEdgeSpace l) : goTrim l = l := by
  unfold goTrim
  rw [dropWhile_eq_self_of_head h.1, dropWhile_eq_self_of_head ?hr, List.reverse_reverse]
  case hr =>
    intro c hc
    rw [List.head?_reverse] at hc
    exact h.2 c hc

theorem spacesArePlain_collapseAux (l : List Char) (ps : Bool) :
    SpacesArePlain (collapseAux ps l) := by
  induction l generalizing ps with
  | nil => intro c hc; cases hc
  | cons a t ih =>
    intro c hc hrx
    by_cases ha : rxSpace a
    · rcases ps with _ | _
      · simp only [collapseAux, if_pos ha, if_neg Bool.false_ne_true] at hc
        rcases List.mem_cons.1 hc with h | h
        · exact h
        · exact ih true c h hrx
      · simp only [collapseAux, if_pos ha, if_pos rfl] at hc
        exact ih true c hc hrx
    · simp only [collapseAux, if_neg ha] at hc
      rcases List.mem_cons.1 hc with h | h
      · subst h
        exact absurd hrx (by simp [ha])
      · exact ih false c h hrx

theorem collapseAux_true_head (l : List Char) :
    ∀ c ∈ (collapseAux true l).head?, rxSpace c = false := by
  induction l with
  | nil => intro c hc; cases hc
  | cons a t ih =>
    intro c hc
    by_cases ha : rxSpace a
    · simp only [collapseAux, if_pos ha, if_pos rfl] at hc
      exact ih c hc
    · simp only [collapseAux, if_neg ha] at hc
      cases hc
      simpa using ha

theorem noAdjSpace_collapseAux (l : List Char) (ps : Bool) :
    NoAdjSpace (collapseAux ps l) := by
  induction l generalizing ps with
  | nil => exact List.chain'_nil
  | cons a t ih =>
    by_cases ha : rxSpace a
    · rcases ps with _ | _
      · simp only [collapseAux, if_pos ha, if_neg Bool.false_ne_true]
        rw [NoAdjSpace, List.chain'_cons']
        refine ⟨?_, ih true⟩
        intro y hy
        have := collapseAux_true_head t y hy
        simp [this]
      · simp only [collapseAux, if_pos ha, if_pos rfl]
        exact ih true
    · simp only [collapseAux, if_neg ha]
      rw [NoAdjSpace, List.chain'_cons']
      refine ⟨?_, ih false⟩
      intro y _
      simp [ha]

theorem isCollapsed_collapseWS (l : List Char) : IsCollapsed (collapseWS l) :=
  ⟨spacesArePlain_collapseAux l false, noAdjSpace_collapseAux l false⟩

theorem isCollapsed_tail {a : Char} {t : List Char} (h : IsCollapsed (a :: t)) :
    IsCollapsed t :=
  ⟨fun c hc => h.1 c (List.mem_cons_of_mem a hc), h.2.tail⟩

theorem collapseAux_eq_self {l : List Char} (h : IsCollapsed l) :
    ∀ ps, (ps = true → ∀ c ∈ l.head?, rxSpace c = false) → collapseAux ps l = l := by
  induction l with
  | nil => intro ps _; rfl
  | cons a t ih =>
    intro ps hps
    by_cases ha : rxSpace a
    · rcases ps with _ | _
      · have hsp : a = ' ' := h.1 a (List.mem_cons_self a t) ha
        simp only [collapseAux, if_pos ha, if_neg Bool.false_ne_true]
        rw [hsp]
        have hhead : ∀ c ∈ t.head?, rxSpace c = false := by
          intro c hc
          rcases t with _ | ⟨b, t'⟩
          · cases hc
          · cases hc
            have := (List.chain'_cons.1 h.2).1
            by_contra hb
            exact this ⟨ha, Bool.of_not_eq_false hb⟩
        rw [ih (isCollapsed_tail h) true (fun _ => hhead)]
      · exact absurd ha (by simpa using hps rfl a rfl)
    · simp only [collapseAux, if_neg ha]
      rw [ih (isCollapsed_tail h) false (by intro hf; cases hf)]

theorem collapseWS_eq_self {l : List Char} (h : IsCollapsed l) : collapseWS l = l :=
  collapseAux_eq_self h false (by intro hf; cases hf)

theorem collapseAux_true_eq_nil {l : List Char} (h : collapseAux true l = []) :
    ∀ c ∈ l, rxSpace c = true := by
  induction l with
  | nil => intro c hc; cases hc
  | cons a t ih =>
    intro c hc
    by_cases ha : rxSpace a
    · simp only [collapseAux, if_pos ha, if_pos rfl] at h
      rcases List.mem_cons.1 hc with h' | h'
      · subst h'; exact ha
      · exact ih h c h'
    · simp only [collapseAux, if_neg ha] at h
      cases h

theorem collapseWS_ne_nil {l : List Char} (h : l ≠ []) : collapseWS l ≠ [] := by
  rcases l with _ | ⟨a, t⟩
  · exact absurd rfl h
  · by_cases ha : rxSpace a <;>
      simp [collapseWS, collapseAux, ha]

theorem collapseAux_cons_space_false {a : Char} {t : List Char} (ha : rxSpace a = true) :
    collapseAux false (a :: t) = ' ' :: collapseAux true t := by
  simp [collapseAux, ha]

theorem collapseAux_cons_space_true {a : Char} {t : List Char} (ha : rxSpace a = true) :
    collapseAux true (a :: t) = collapseAux true t := by
  simp [collapseAux, ha]

theorem collapseAux_cons_nonspace {a : Char} {t : List Char} (ha : rxSpace a = false)
    (ps : Bool) : collapseAux ps (a :: t) = a :: collapseAux false t := by
  simp [collapseAux, ha]

theorem getLast?_cons_ne {x : Char} {X : List Char} (h : X ≠ []) :
    (x :: X).getLast? = X.getLast? := by
  rcases X with _ | _
  · exact absurd rfl h
  · rw [List.getLast?_cons_cons]

theorem collapseAux_false_cons_ne_nil {a : Char} {t : List Char} :
    collapseAux false (a :: t) ≠ [] := by
  by_cases ha : rxSpace a
  · rw [collapseAux_cons_space_false ha]
    exact List.cons_ne_nil _ _
  · rw [collapseAux_cons_nonspace (Bool.not_eq_true _ ▸ ha) false]
    exact List.cons_ne_nil _ _

theorem collapseAux_getLast {l : List Char}
    (hlast : ∀ c ∈ l.getLast?, rxSpace c = false) :
    ∀ ps, (collapseAux ps l).getLast? = l.getLast? := by
  induction l with
  | nil => intro ps; rfl
  | cons a t ih =>
    intro ps
    rcases t with _ | ⟨b, t'⟩
    · have ha : rxSpace a = false := hlast a rfl
      rw [collapseAux_cons_nonspace ha ps]
      rfl
    · have hlast' : ∀ c ∈ (b :: t').getLast?, rxSpace c = false := by
        intro c hc
        exact hlast c (by rw [List.getLast?_cons_cons]; exact hc)
      have hne : collapseAux true (b :: t') ≠ [] := by
        intro he
        have hmem := collapseAux_true_eq_nil he ((b :: t').getLast (by simp))
          (List.getLast_mem _)
        rw [hlast' _ (List.getLast?_eq_getLast _ _ ▸ rfl)] at hmem
        cases hmem
      rw [getLast?_cons_ne (List.cons_ne_nil b t')]
      by_cases ha : rxSpace a
      · rcases ps with _ | _
        · rw [collapseAux_cons_space_false ha, getLast?_cons_ne hne, ih hlast' true]
        · rw [collapseAux_cons_space_true ha, ih hlast' true]
      · rw [collapseAux_cons_nonspace (Bool.not_eq_true _ ▸ ha) ps,
          getLast?_cons_ne collapseAux_false_cons_ne_nil, ih hlast' false]

theorem collapseWS_head {l : List Char} (hhead : ∀ c ∈ l.head?, rxSpace c = false) :
    (collapseWS l).head? = l.head? := by
  rcases l with _ | ⟨a, t⟩
  · rfl
  · rw [collapseWS, collapseAux_cons_nonspace (hhead a rfl) false]
    rfl

theorem noEdgeSpace_collapseWS {l : List Char} (h : NoEdgeSpace l) :
    NoEdgeSpace (collapseWS l) := by
  constructor
  · intro c hc
    rw [collapseWS_head (fun d hd => rxSpace_eq_false_of_goSpace (h.1 d hd))] at hc
    exact h.1 c hc
  · intro c hc
    rw [collapseWS] at hc
    rw [collapseAux_getLast (fun d hd => rxSpace_eq_false_of_goSpace (h.2 d hd)) false] at hc
    exact h.2 c hc

/-! ## ScanRel machinery -/

theorem scanRel_refl (l : List Char) : ScanRel l l := by
  induction l with
  | nil => exact ScanRel.nil
  | cons a t ih => exact ScanRel.keep a ih

theorem scanRel_append_left (a : List Char) {v v' : List Char} (h : ScanRel v v') :
    ScanRel (a ++ v) (a ++ v') := by
  induction a with
  | nil => exact h
  | cons c t ih => exact ScanRel.keep c ih

theorem scanBound_step_term_nowb {c : Char} {pb t : List Char} (hc : isTerm c = true) :
    scanBound pb [] (c :: t) = scanBound (c :: pb) [] t := by
  simp [scanBound, hc]

theorem scanBound_step_term_wb {c : Char} {pb wb t : List Char} (hc : isTerm c = true)
    (hwb : wb ≠ []) :
    scanBound pb wb (c :: t) = pb.reverse ++ wb.reverse ++ scanBound [c] [] t := by
  simp [scanBound, hc, hwb]

theorem scanBound_step_space {c : Char} {pb wb t : List Char} (hc : isTerm c = false)
    (hsp : rxSpace c = true) (hpb : pb ≠ []) :
    scanBound pb wb (c :: t) = scanBound pb (c :: wb) t := by
  simp [scanBound, hc, hsp, hpb]

theorem scanBound_step_upper {c : Char} {pb wb t : List Char} (hc : isTerm c = false)
    (hsp : rxSpace c = false) (hu : isUpperAZ c = true) (hpb : pb ≠ []) (hwb : wb ≠ []) :
    scanBound pb wb (c :: t) = pb.reverse ++ '\n' :: c :: scanBound [] [] t := by
  simp [scanBound, hc, hsp, hu, hpb, hwb]

theorem scanBound_step_other {c : Char} {pb wb t : List Char} (hc : isTerm c = false)
    (h2 : rxSpace c = false ∨ pb = [])
    (h3 : isUpperAZ c = false ∨ pb = [] ∨ wb = []) :
    scanBound pb wb (c :: t) = pb.reverse ++ wb.reverse ++ c :: scanBound [] [] t := by
  have h2p : ¬(rxSpace c = true ∧ ¬pb = []) := by
    rcases h2 with h | h <;> simp [h]
  have h3p : ¬((isUpperAZ c = true ∧ ¬pb = []) ∧ ¬wb = []) := by
    rcases h3 with h | h | h <;> simp [h]
  simp [scanBound, hc, h2p, h3p]

theorem wb_singleton {wb : List Char} (hall : ∀ c ∈ wb, c = ' ')
    (hlen : wb.length ≤ 1) (hne : wb ≠ []) : wb = [' '] := by
  rcases wb with _ | ⟨w, ws⟩
  · exact absurd rfl hne
  · have hw := hall w (List.mem_cons_self _ _)
    rcases ws with _ | ⟨x, xs⟩
    · rw [hw]
    · simp at hlen

theorem spacesArePlain_tail {a : Char} {t : List Char} (h : SpacesArePlain (a :: t)) :
    SpacesArePlain t :=
  fun c hc => h c (List.mem_cons_of_mem a hc)

theorem scanBound_scanRel (pb wb z : List Char) :
    (∀ c ∈ pb, isTerm c = true) → (∀ c ∈ wb, c = ' ') → wb.length ≤ 1 →
    (wb = [] ∨ pb ≠ []) → SpacesArePlain z → NoAdjSpace (wb.reverse ++ z) →
    ScanRel (pb.reverse ++ (wb.reverse ++ z)) (scanBound pb wb z) := by
  induction pb, wb, z using scanBound.induct with
  | case1 pb wb =>
    intro _ _ _ _ _ _
    rw [List.append_nil]
    exact scanRel_refl _
  | case2 pb c t hterm ih =>
    intro hpb _ _ _ hplain hadj
    rw [scanBound_step_term_nowb hterm]
    have hpb' : ∀ d ∈ c :: pb, isTerm d = true := by
      intro d hd
      rcases List.mem_cons.1 hd with h | h
      · subst h; exact hterm
      · exact hpb d h
    have ihc := ih hpb' (fun d hd => by cases hd) (by simp) (Or.inl rfl)
      (spacesArePlain_tail hplain) (List.Chain'.tail hadj)
    simpa [List.append_assoc] using ihc
  | case3 pb wb c t hterm hwb ih =>
    intro hpb hwbsp hlen himp hplain hadj
    rw [scanBound_step_term_wb hterm hwb]
    have hwbe : wb = [' '] := wb_singleton hwbsp hlen hwb
    subst hwbe
    have ihc := ih (by
        intro d hd
        rcases List.mem_cons.1 hd with h | h
        · subst h; exact hterm
        · cases h)
      (fun d hd => by cases hd) (by simp) (Or.inl rfl)
      (spacesArePlain_tail hplain) (List.Chain'.tail (List.Chain'.tail hadj))
    have hrel : ScanRel (c :: t) (scanBound [c] [] t) := by simpa using ihc
    have := scanRel_append_left (pb.reverse ++ [' ']) hrel
    simpa [List.append_assoc] using this
  | case4 pb wb c t hterm hcond ih =>
    intro hpb hwbsp hlen himp hplain hadj
    obtain ⟨hrx, hpbne⟩ : rxSpace c = true ∧ pb ≠ [] := by simpa using hcond
    have hceq : c = ' ' := hplain c (List.mem_cons_self _ _) hrx
    have hwbnil : wb = [] := by
      rcases wb with _ | ⟨w, ws⟩
      · rfl
      · exfalso
        have hwbe : w :: ws = [' '] := wb_singleton hwbsp hlen (List.cons_ne_nil _ _)
        rw [hwbe] at hadj
        have hchain : NoAdjSpace (' ' :: c :: t) := by simpa using hadj
        exact (List.chain'_cons.1 hchain).1 ⟨by decide, hrx⟩
    subst hwbnil
    have htermf : isTerm c = false := by simpa using hterm
    rw [scanBound_step_space htermf hrx hpbne]
    have ihc := ih hpb
      (by intro d hd; rcases List.mem_cons.1 hd with h | h
          · subst h; exact hceq
          · cases h)
      (by simp) (Or.inr hpbne) (spacesArePlain_tail hplain) hadj
    subst hceq
    simpa using ihc
  | case5 pb wb c t hterm hnot2 hcond3 ih =>
    intro hpb hwbsp hlen himp hplain hadj
    obtain ⟨⟨hu, hpbne⟩, hwbne⟩ : (isUpperAZ c = true ∧ pb ≠ []) ∧ wb ≠ [] := by
      simpa using hcond3
    have hwbe : wb = [' '] := wb_singleton hwbsp hlen hwbne
    subst hwbe
    rcases pb with _ | ⟨q, pbr⟩
    · exact absurd rfl hpbne
    have hq : isTerm q = true := hpb q (List.mem_cons_self _ _)
    have htermf : isTerm c = false := by simpa using hterm
    have hrxf : rxSpace c = false :=
      rxSpace_eq_false_of_goSpace (isUpperAZ_not_goSpace hu)
    rw [scanBound_step_upper htermf hrxf hu hpbne hwbne]
    have ihc := ih (fun d hd => by cases hd) (fun d hd => by cases hd) (by simp)
      (Or.inl rfl) (spacesArePlain_tail hplain)
      (List.Chain'.tail (List.Chain'.tail hadj))
    have hrel : ScanRel (q :: ' ' :: c :: t) (q :: '\n' :: c :: scanBound [] [] t) :=
      ScanRel.conv q c hq hu (ScanRel.keep c (by simpa using ihc))
    have := scanRel_append_left pbr.reverse hrel
    simpa [List.append_assoc] using this
  | case6 pb wb c t hterm hnot2 hnot3 ih =>
    intro hpb hwbsp hlen himp hplain hadj
    have htermf : isTerm c = false := by simpa using hterm
    have h2 : rxSpace c = false ∨ pb = [] := by
      by_cases hr : rxSpace c
      · right
        by_contra hne
        exact hnot2 (by simp [hr, hne])
      · left
        simpa using hr
    have h3 : isUpperAZ c = false ∨ pb = [] ∨ wb = [] := by
      by_cases hup : isUpperAZ c
      · by_cases hp : pb = []
        · exact Or.inr (Or.inl hp)
        · by_cases hw : wb = []
          · exact Or.inr (Or.inr hw)
          · exact absurd (by simp [hup, hp, hw]) hnot3
      · left
        simpa using hup
    rw [scanBound_step_other htermf h2 h3]
    have ihc := ih (fun d hd => by cases hd) (fun d hd => by cases hd) (by simp)
      (Or.inl rfl) (spacesArePlain_tail hplain)
      (List.Chain'.tail ((List.chain'_append.1 hadj).2.1))
    have := scanRel_append_left (pb.reverse ++ wb.reverse) (ScanRel.keep c ihc)
    simpa [List.append_assoc] using this

theorem scanRel_of_collapsed {v : List Char} (h : IsCollapsed v) :
    ScanRel v (scanBound [] [] v) := by
  have := scanBound_scanRel [] [] v (fun c hc => by cases hc) (fun c hc => by cases hc)
    (by simp) (Or.inl rfl) h.1 h.2
  simpa using this

theorem spEq_of_scanRel {v v' : List Char} (h : ScanRel v v') : SpEq v v' := by
  induction h with
  | nil => exact SpEq.nil
  | keep c _ ih => exact SpEq.cons c c rfl (fun _ => rfl) ih
  | conv p u hp hu _ ih =>
    exact SpEq.cons p p rfl (fun _ => rfl)
      (SpEq.cons ' ' '\n' (by decide) (fun hf => absurd hf (by decide)) ih)

theorem goFieldsAux_spEq {v v' : List Char} (h : SpEq v v') :
    ∀ cur, goFieldsAux cur v = goFieldsAux cur v' := by
  induction h with
  | nil => intro cur; rfl
  | cons a b hsp hc _ ih =>
    intro cur
    by_cases hga : goSpace a
    · have hgb : goSpace b = true := hsp ▸ hga
      by_cases hcur : cur = [] <;>
        simp [goFieldsAux, hga, hgb, hcur, ih]
    · have hga' : goSpace a = false := by simpa using hga
      have hgb : goSpace b = false := hsp ▸ hga'
      have hab : a = b := hc hga'
      subst hab
      simp [goFieldsAux, hga', hgb, ih]

theorem goFields_spEq {v v' : List Char} (h : SpEq v v') : goFields v = goFields v' :=
  goFieldsAux_spEq h []

theorem splitNl_shape (t : List Char) : ∃ p ps, splitNl t = p :: ps := by
  induction t with
  | nil => exact ⟨[], [], rfl⟩
  | cons c t ih =>
    obtain ⟨p, ps, he⟩ := ih
    by_cases hc : c = '\n'
    · exact ⟨[], splitNl t, by simp [splitNl, hc]⟩
    · exact ⟨c :: p, ps, by simp [splitNl, hc, he]⟩

theorem splitNl_ne_nil (t : List Char) : splitNl t ≠ [] := by
  obtain ⟨p, ps, he⟩ := splitNl_shape t
  rw [he]
  exact List.cons_ne_nil _ _

theorem splitNl_cons_of_ne {c : Char} {t p : List Char} {ps : List (List Char)}
    (h : c ≠ '\n') (he : splitNl t = p :: ps) :
    splitNl (c :: t) = (c :: p) :: ps := by
  simp [splitNl, h, he]

theorem splitNl_cons_nl (t : List Char) : splitNl ('\n' :: t) = [] :: splitNl t := by
  simp [splitNl]

theorem joinSpace_cons_cons (c : Char) (p : List Char) (ps : List (List Char)) :
    joinSpace ((c :: p) :: ps) = c :: joinSpace (p :: ps) := by
  cases ps <;> rfl

theorem joinSpace_cons_ne {s : List Char} {ps : List (List Char)} (h : ps ≠ []) :
    joinSpace (s :: ps) = s ++ ' ' :: joinSpace ps := by
  cases ps with
  | nil => exact absurd rfl h
  | cons q qs => rfl

theorem joinSpace_splitNl {v v' : List Char} (h : ScanRel v v') (hnl : '\n' ∉ v) :
    joinSpace (splitNl v') = v := by
  induction h with
  | nil => rfl
  | keep c hr ih =>
    have hc : c ≠ '\n' := fun he => hnl (he ▸ List.mem_cons_self _ _)
    obtain ⟨p, ps, he⟩ := splitNl_shape _
    rw [splitNl_cons_of_ne hc he, joinSpace_cons_cons, ← he,
      ih (fun hm => hnl (List.mem_cons_of_mem c hm))]
  | conv p u hp hu hr ih =>
    rename_i w w'
    have hu' : u ≠ '\n' := isUpperAZ_ne_nl hu
    have hp' : p ≠ '\n' := isTerm_ne_nl hp
    have hnl2 : '\n' ∉ u :: w := by
      intro hm
      exact hnl (List.mem_cons_of_mem p (List.mem_cons_of_mem ' ' hm))
    rw [splitNl_cons_of_ne hp' (splitNl_cons_nl _), joinSpace_cons_cons,
      joinSpace_cons_ne (splitNl_ne_nil _), ih hnl2]
    rfl

theorem sentChain_splitNl {v v' : List Char} (h : ScanRel v v') (hnl : '\n' ∉ v) :
    SentChain (splitNl v') := by
  induction h with
  | nil => exact List.chain'_singleton _
  | keep c hr ih =>
    rename_i w w'
    have hc : c ≠ '\n' := fun he => hnl (he ▸ List.mem_cons_self _ _)
    obtain ⟨p, ps, he⟩ := splitNl_shape w'
    rw [splitNl_cons_of_ne hc he]
    have ihc : SentChain (p :: ps) :=
      he ▸ ih (fun hm => hnl (List.mem_cons_of_mem c hm))
    rcases ps with _ | ⟨q, qs⟩
    · exact List.chain'_singleton _
    · rw [SentChain, List.chain'_cons] at ihc ⊢
      obtain ⟨⟨⟨d, hd, hdt⟩, hhead⟩, hrest⟩ := ihc
      refine ⟨⟨⟨d, ?_, hdt⟩, hhead⟩, hrest⟩
      have hp : p ≠ [] := by
        intro he2
        rw [he2] at hd
        cases hd
      rw [getLast?_cons_ne hp]
      exact hd
  | conv p u hp hu hr ih =>
    rename_i w w'
    have hnl2 : '\n' ∉ u :: w :=
      fun hm => hnl (List.mem_cons_of_mem _ (List.mem_cons_of_mem _ hm))
    have ihc := ih hnl2
    rw [splitNl_cons_of_ne (isTerm_ne_nl hp) (splitNl_cons_nl _)]
    obtain ⟨q2, qs2, he2⟩ := splitNl_shape w'
    rw [splitNl_cons_of_ne (isUpperAZ_ne_nl hu) he2] at ihc ⊢
    rw [SentChain, List.chain'_cons]
    exact ⟨⟨⟨p, rfl, hp⟩, ⟨u, rfl, hu⟩⟩, ihc⟩

theorem splitNl_no_nl (x : List Char) : ∀ piece ∈ splitNl x, '\n' ∉ piece := by
  induction x with
  | nil =>
    intro piece hp hm
    simp only [splitNl, List.mem_singleton] at hp
    subst hp
    cases hm
  | cons c t ih =>
    intro piece hp hm
    by_cases hc : c = '\n'
    · subst hc
      rw [splitNl_cons_nl] at hp
      rcases List.mem_cons.1 hp with h | h
      · subst h; cases hm
      · exact ih piece h hm
    · obtain ⟨p, ps, he⟩ := splitNl_shape t
      rw [splitNl_cons_of_ne hc he] at hp
      rcases List.mem_cons.1 hp with h | h
      · subst h
        rcases List.mem_cons.1 hm with h2 | h2
        · exact hc h2.symm
        · exact ih p (he ▸ List.mem_cons_self _ _) h2
      · exact ih piece (he ▸ List.mem_cons_of_mem _ h) hm

theorem joinSpace_head_of_ne {s : List Char} {ps : List (List Char)} (h : s ≠ []) :
    (joinSpace (s :: ps)).head? = s.head? := by
  rcases ps with _ | ⟨q, qs⟩
  · rfl
  · rcases s with _ | ⟨a, t⟩
    · exact absurd rfl h
    · rfl

theorem joinSpace_ne_nil_head {ps : List (List Char)} {s : List Char}
    (hmem : s ∈ ps) (hne : s ≠ []) : joinSpace ps ≠ [] := by
  induction ps with
  | nil => cases hmem
  | cons q qs ih =>
    rcases List.mem_cons.1 hmem with h | h
    · subst h
      rcases qs with _ | _
      · exact hne
      · rcases s with _ | _
        · exact absurd rfl hne
        · exact List.cons_ne_nil _ _
    · rcases qs with _ | ⟨r, rs⟩
      · cases h
      · rcases q with _ | _
        · simp only [joinSpace]
          exact List.cons_ne_nil _ _
        · exact List.cons_ne_nil _ _

theorem spacesArePlain_append_right {a b : List Char} (h : SpacesArePlain (a ++ b)) :
    SpacesArePlain b :=
  fun c hc => h c (List.mem_append_right a hc)

theorem joinSpace_getLast_of_ne {s : List Char} {ps : List (List Char)}
    (h : joinSpace ps ≠ []) :
    (joinSpace (s :: ps)).getLast? = (joinSpace ps).getLast? := by
  rcases ps with _ | ⟨q, qs⟩
  · exact absurd rfl h
  · rw [joinSpace_cons_ne (List.cons_ne_nil q qs), List.getLast?_append,
      getLast?_cons_ne h]
    rcases hx : (joinSpace (q :: qs)).getLast? with _ | ⟨d⟩
    · exact absurd (List.getLast?_eq_none_iff.1 hx) h
    · rfl

theorem no_nl_of_plain {v : List Char} (h : SpacesArePlain v) : '\n' ∉ v := by
  intro hm
  have := h '\n' hm (by decide)
  cases this

theorem pieces_facts {ps : List (List Char)} (hchain : SentChain ps)
    (hv : NoEdgeSpace (joinSpace ps)) (hne : joinSpace ps ≠ []) :
    ∀ s ∈ ps, s ≠ [] ∧ NoEdgeSpace s := by
  induction ps with
  | nil => intro s hs; cases hs
  | cons s rest ih =>
    intro x hx
    rcases rest with _ | ⟨q, qs⟩
    · rcases List.mem_cons.1 hx with h | h
      · subst h
        exact ⟨fun h2 => hne (by rw [h2]; rfl), hv⟩
      · cases h
    · have hlink := (List.chain'_cons.1 hchain).1
      obtain ⟨⟨d, hd, hdt⟩, ⟨u, hu, huu⟩⟩ := hlink
      have hsne : s ≠ [] := by
        intro h2
        rw [h2] at hd
        cases hd
      have hqne : q ≠ [] := by
        intro h2
        rw [h2] at hu
        cases hu
      have hjq : joinSpace (q :: qs) ≠ [] :=
        joinSpace_ne_nil_head (List.mem_cons_self q qs) hqne
      rcases List.mem_cons.1 hx with h | h
      · subst h
        refine ⟨hsne, ?_, ?_⟩
        · intro c hc
          apply hv.1
          rw [joinSpace_head_of_ne hsne]
          exact hc
        · intro c hc
          rw [hd] at hc
          cases hc
          exact isTerm_not_goSpace hdt
      · refine ih (List.Chain'.tail hchain) ⟨?_, ?_⟩ hjq x h
        · intro c hc
          rw [joinSpace_head_of_ne hqne, hu] at hc
          cases hc
          exact isUpperAZ_not_goSpace huu
        · intro c hc
          apply hv.2
          rw [joinSpace_getLast_of_ne hjq]
          exact hc

theorem map_goTrim_eq_self {ps : List (List Char)} (h : ∀ s ∈ ps, NoEdgeSpace s) :
    ps.map goTrim = ps := by
  induction ps with
  | nil => rfl
  | cons s rest ih =>
    rw [List.map_cons, goTrim_eq_self (h s (List.mem_cons_self _ _)),
      ih (fun x hx => h x (List.mem_cons_of_mem s hx))]

theorem filter_ne_nil_eq_self {ps : List (List Char)} (h : ∀ s ∈ ps, s ≠ []) :
    ps.filter (· ≠ []) = ps := by
  rw [List.filter_eq_self]
  intro a ha
  simpa using h a ha

theorem splitIntoSentences_spec (text : List Char) (hne : goTrim text ≠ []) :
    splitIntoSentences text = splitNl (scanBound [] [] (collapseWS (goTrim text))) ∧
    joinSpace (splitIntoSentences text) = collapseWS (goTrim text) ∧
    SentChain (splitIntoSentences text) ∧
    (∀ s ∈ splitIntoSentences text, s ≠ [] ∧ NoEdgeSpace s) ∧
    splitIntoSentences text ≠ [] := by
  have hvne := collapseWS_ne_nil hne
  have hcoll := isCollapsed_collapseWS (goTrim text)
  have hnl : '\n' ∉ collapseWS (goTrim text) := no_nl_of_plain hcoll.1
  have hedge := noEdgeSpace_collapseWS (noEdgeSpace_goTrim text)
  have hrel := scanRel_of_collapsed hcoll
  have hjoin := joinSpace_splitNl hrel hnl
  have hchain := sentChain_splitNl hrel hnl
  have hfacts := pieces_facts hchain (by rw [hjoin]; exact hedge) (by rw [hjoin]; exact hvne)
  have hmap : (splitNl (scanBound [] [] (collapseWS (goTrim text)))).map goTrim =
      splitNl (scanBound [] [] (collapseWS (goTrim text))) :=
    map_goTrim_eq_self (fun s hs => (hfacts s hs).2)
  have hfilt := filter_ne_nil_eq_self (fun s hs => (hfacts s hs).1)
  have heq : splitIntoSentences text =
      splitNl (scanBound [] [] (collapseWS (goTrim text))) := by
    unfold splitIntoSentences
    simp only [hmap, hfilt]
    by_cases hcond : (splitNl (scanBound [] [] (collapseWS (goTrim text)))).length ≤ 1 ∧
        (splitNl (scanBound [] [] (collapseWS (goTrim text)))).length = 1
    · rw [if_pos hcond]
      obtain ⟨p, ps, hp⟩ := splitNl_shape (scanBound [] [] (collapseWS (goTrim text)))
      rw [hp]
      rcases ps with _ | _
      · rw [hp] at hjoin
        rw [← hjoin]
        rfl
      · rw [hp] at hcond
        simp at hcond
    · rw [if_neg hcond]
  refine ⟨heq, ?_, ?_, ?_, ?_⟩
  · rw [heq]; exact hjoin
  · rw [heq]; exact hchain
  · rw [heq]; exact hfacts
  · rw [heq]
    exact splitNl_ne_nil _

/-! ## Chunk partition lemmas -/

theorem tentativeChunk_cons_stop {f : TextFormatter} {wc : Nat} {s : List Char}
    {rest : List (List Char)} (h : f.targetWordCount ≤ wc + countWords s) :
    tentativeChunk f wc (s :: rest) = [s] := by
  simp [tentativeChunk, h]

theorem tentativeChunk_cons_go {f : TextFormatter} {wc : Nat} {s : List Char}
    {rest : List (List Char)} (h : ¬f.targetWordCount ≤ wc + countWords s) :
    tentativeChunk f wc (s :: rest) = s :: tentativeChunk f (wc + countWords s) rest := by
  simp [tentativeChunk, h]

theorem truncateChunk_cons_sig_stop {f : TextFormatter} {cnt : Nat} {s : List Char}
    {rest : List (List Char)} (h1 : f.minWordsForSignificantSentence ≤ countWords s)
    (h2 : f.maxSentencesPerChunk ≤ cnt + 1) :
    truncateChunk f cnt (s :: rest) = [s] := by
  simp [truncateChunk, h1, h2]

theorem truncateChunk_cons_sig_go {f : TextFormatter} {cnt : Nat} {s : List Char}
    {rest : List (List Char)} (h1 : f.minWordsForSignificantSentence ≤ countWords s)
    (h2 : ¬f.maxSentencesPerChunk ≤ cnt + 1) :
    truncateChunk f cnt (s :: rest) = s :: truncateChunk f (cnt + 1) rest := by
  simp [truncateChunk, h1, h2]

theorem truncateChunk_cons_insig {f : TextFormatter} {cnt : Nat} {s : List Char}
    {rest : List (List Char)} (h1 : ¬f.minWordsForSignificantSentence ≤ countWords s) :
    truncateChunk f cnt (s :: rest) = s :: truncateChunk f cnt rest := by
  simp [truncateChunk, h1]

theorem tentativeChunk_take (f : TextFormatter) :
    ∀ (S : List (List Char)) (wc : Nat), S ≠ [] →
      ∃ n, 1 ≤ n ∧ n ≤ S.length ∧ tentativeChunk f wc S = S.take n := by
  intro S
  induction S with
  | nil => intro wc h; exact absurd rfl h
  | cons s rest ih =>
    intro wc _
    by_cases hc : f.targetWordCount ≤ wc + countWords s
    · exact ⟨1, le_refl 1, by simp, by rw [tentativeChunk_cons_stop hc]; rfl⟩
    · rcases rest with _ | ⟨q, qs⟩
      · exact ⟨1, le_refl 1, by simp, by rw [tentativeChunk_cons_go hc]; rfl⟩
      · obtain ⟨n, h1, h2, h3⟩ := ih (wc + countWords s) (List.cons_ne_nil q qs)
        refine ⟨n + 1, by omega, by simpa using h2, ?_⟩
        rw [tentativeChunk_cons_go hc, h3, List.take_succ_cons]

theorem truncateChunk_take (f : TextFormatter) :
    ∀ (C : List (List Char)) (cnt : Nat), C ≠ [] →
      ∃ m, 1 ≤ m ∧ truncateChunk f cnt C = C.take m := by
  intro C
  induction C with
  | nil => intro cnt h; exact absurd rfl h
  | cons s rest ih =>
    intro cnt _
    by_cases hsig : f.minWordsForSignificantSentence ≤ countWords s
    · by_cases hmax : f.maxSentencesPerChunk ≤ cnt + 1
      · exact ⟨1, le_refl 1, by rw [truncateChunk_cons_sig_stop hsig hmax]; rfl⟩
      · rcases rest with _ | ⟨q, qs⟩
        · exact ⟨1, le_refl 1, by rw [truncateChunk_cons_sig_go hsig hmax]; rfl⟩
        · obtain ⟨m, h1, h3⟩ := ih (cnt + 1) (List.cons_ne_nil q qs)
          refine ⟨m + 1, by omega, ?_⟩
          rw [truncateChunk_cons_sig_go hsig hmax, h3, List.take_succ_cons]
    · rcases rest with _ | ⟨q, qs⟩
      · exact ⟨1, le_refl 1, by rw [truncateChunk_cons_insig hsig]; rfl⟩
      · obtain ⟨m, h1, h3⟩ := ih cnt (List.cons_ne_nil q qs)
        refine ⟨m + 1, by omega, ?_⟩
        rw [truncateChunk_cons_insig hsig, h3, List.take_succ_cons]

/-- Each loop iteration consumes a non-empty prefix of the unconsumed
sentences. -/
theorem chunkFinal_take (f : TextFormatter) (S : List (List Char)) (hS : S ≠ []) :
    ∃ k, 1 ≤ k ∧ k ≤ S.length ∧
      (if f.maxSentencesPerChunk < sigCount f (tentativeChunk f 0 S)
       then truncateChunk f 0 (tentativeChunk f 0 S)
       else tentativeChunk f 0 S) = S.take k := by
  obtain ⟨n, hn1, hn2, hn3⟩ := tentativeChunk_take f S 0 hS
  by_cases hb : f.maxSentencesPerChunk < sigCount f (tentativeChunk f 0 S)
  · have htne : tentativeChunk f 0 S ≠ [] := by
      rw [hn3]
      intro he
      rw [List.take_eq_nil_iff] at he
      rcases he with he | he
      · omega
      · exact hS he
    obtain ⟨m, hm1, hm3⟩ := truncateChunk_take f (tentativeChunk f 0 S) 0 htne
    refine ⟨min m n, by omega, by omega, ?_⟩
    rw [if_pos hb, hm3, hn3, List.take_take]
  · exact ⟨n, hn1, hn2, by rw [if_neg hb]; exact hn3⟩

theorem chunkLoop_join (f : TextFormatter) :
    ∀ (fuel : Nat) (S : List (List Char)), S.length ≤ fuel →
      (chunkLoop f fuel S).flatten = S := by
  intro fuel
  induction fuel with
  | zero =>
    intro S hS
    rw [List.length_eq_zero.1 (Nat.le_zero.1 hS)]
    rfl
  | succ fuel ih =>
    intro S hS
    rcases hSe : S with _ | ⟨s, rest⟩
    · rfl
    · rw [← hSe]
      have hSne : S ≠ [] := by rw [hSe]; exact List.cons_ne_nil _ _
      obtain ⟨k, hk1, hk2, hk3⟩ := chunkFinal_take f S hSne
      have hfin_len : (if f.maxSentencesPerChunk < sigCount f (tentativeChunk f 0 S)
          then truncateChunk f 0 (tentativeChunk f 0 S)
          else tentativeChunk f 0 S).length = k := by
        rw [hk3, List.length_take]
        omega
      have hstep : chunkLoop f (fuel + 1) S =
          S.take k :: chunkLoop f fuel (S.drop k) := by
        rw [hSe]
        show (if _ = 0 then _ else _) = _
        rw [← hSe, hfin_len]
        have hk0 : ¬(k = 0) := by omega
        rw [if_neg hk0, hk3]
      rw [hstep]
      have hlen : (S.drop k).length ≤ fuel := by
        rw [List.length_drop]
        omega
      rw [List.flatten_cons, ih (S.drop k) hlen, List.take_append_drop]

/-! ## cleanText identity on artifact-free collapsed text -/

theorem replSpaceBefore_id {x : Char} {l : List Char}
    (h : l.Chain' fun a b => ¬(a = ' ' ∧ b = x)) : replSpaceBefore x l = l := by
  induction l using replSpaceBefore.induct x with
  | case1 => rfl
  | case2 => rfl
  | case3 t ih =>
    exact absurd ⟨rfl, rfl⟩ (List.chain'_cons.1 h).1
  | case4 c t hne ih =>
    have hstep : replSpaceBefore x (' ' :: c :: t) = ' ' :: replSpaceBefore x (c :: t) := by
      simp [replSpaceBefore, hne]
    rw [hstep, ih (List.chain'_cons.1 h).2]
  | case5 c t hc ih =>
    have hstep : replSpaceBefore x (c :: t) = c :: replSpaceBefore x t := by
      rcases t with _ | _ <;> simp [replSpaceBefore, hc]
    rw [hstep, ih (List.Chain'.tail h)]

theorem collapseRun_id {p : Char} {l : List Char}
    (h : l.Chain' fun a b => ¬(a = p ∧ b = p)) :
    ∀ prevP : Bool, (prevP = true → l.head? ≠ some p) → collapseRun p prevP l = l := by
  induction l with
  | nil => intro prevP _; rfl
  | cons c t ih =>
    intro prevP hhead
    by_cases hc : c = p
    · subst hc
      have hprev : prevP = false := by
        rcases prevP with _ | _
        · rfl
        · exact absurd rfl (hhead rfl)
      subst hprev
      have hstep : collapseRun c false (c :: t) = c :: collapseRun c true t := by
        simp [collapseRun]
      rw [hstep, ih (List.Chain'.tail h) true ?_]
      intro _ he
      rcases t with _ | ⟨d, t'⟩
      · cases he
      · have hd : d = c := by
          cases he
          rfl
        exact (List.chain'_cons.1 h).1 ⟨rfl, hd⟩
    · have hstep : collapseRun p prevP (c :: t) = c :: collapseRun p false t := by
        simp [collapseRun, hc]
      rw [hstep, ih (List.Chain'.tail h) false (fun hf => by cases hf)]

theorem cleanText_id {l : List Char} (hcoll : IsCollapsed l) (hsafe : CleanSafe l)
    (hedge : NoEdgeSpace l) : cleanText l = l := by
  have hrsp : ∀ x : Char, cleanablePunct x = true →
      ∀ m : List Char, CleanSafe m → replSpaceBefore x m = m := by
    intro x hx m hm
    refine replSpaceBefore_id (hm.imp ?_)
    intro a b hab ⟨ha, hb⟩
    exact hab.1 ⟨ha, hb ▸ hx⟩
  have hrun : ∀ p : Char, isTerm p = true →
      ∀ m : List Char, CleanSafe m → collapseRun p false m = m := by
    intro p hp m hm
    refine collapseRun_id (hm.imp ?_) false (fun hf => by cases hf)
    intro a b hab ⟨ha, hb⟩
    exact hab.2 ⟨ha ▸ hp, by rw [hb, ha]⟩
  show goTrim (collapseRun '?' false (collapseRun '!' false (collapseRun '.' false
    (replSpaceBefore '?' (replSpaceBefore '!' (replSpaceBefore '.'
      (replSpaceBefore ',' (collapseWS l)))))))) = l
  rw [collapseWS_eq_self hcoll,
    hrsp ',' (by decide) l hsafe, hrsp '.' (by decide) l hsafe,
    hrsp '!' (by decide) l hsafe, hrsp '?' (by decide) l hsafe,
    hrun '.' (by decide) l hsafe, hrun '!' (by decide) l hsafe,
    hrun '?' (by decide) l hsafe, goTrim_eq_self hedge]

theorem chain'_middle {R : Char → Char → Prop} {a x b : List Char}
    (h : List.Chain' R (a ++ x ++ b)) : List.Chain' R x :=
  ((List.chain'_append.1 ((List.chain'_append.1
    (by rwa [List.append_assoc] at h)).2.1)).1)

theorem spacesArePlain_middle {a x b : List Char} (h : SpacesArePlain (a ++ x ++ b)) :
    SpacesArePlain x :=
  fun c hc => h c (by
    rw [List.append_assoc]
    exact List.mem_append_right a (List.mem_append_left b hc))

theorem flatten_mem_decomp {cs : List (List (List Char))} {c : List (List Char)}
    (hmem : c ∈ cs) : ∃ a b, cs.flatten = a ++ c ++ b := by
  induction cs with
  | nil => cases hmem
  | cons q qs ih =>
    rcases List.mem_cons.1 hmem with h | h
    · subst h
      exact ⟨[], qs.flatten, by simp⟩
    · obtain ⟨a, b, hab⟩ := ih h
      exact ⟨q ++ a, b, by simp [hab]⟩

theorem joinSpace_append {xs ys : List (List Char)} (hx : xs ≠ []) (hy : ys ≠ []) :
    joinSpace (xs ++ ys) = joinSpace xs ++ ' ' :: joinSpace ys := by
  induction xs with
  | nil => exact absurd rfl hx
  | cons s rest ih =>
    rcases rest with _ | ⟨q, qs⟩
    · rcases ys with _ | _
      · exact absurd rfl hy
      · rfl
    · rw [List.cons_append, joinSpace_cons_ne (by simp), joinSpace_cons_ne
        (List.cons_ne_nil q qs), ih (List.cons_ne_nil q qs)]
      simp

theorem chunkLoop_ne_nil (f : TextFormatter) :
    ∀ (fuel : Nat) (S : List (List Char)), ∀ c ∈ chunkLoop f fuel S, c ≠ [] := by
  intro fuel
  induction fuel with
  | zero => intro S c hc; cases hc
  | succ fuel ih =>
    intro S c hc
    rcases hSe : S with _ | ⟨s, rest⟩
    · subst hSe
      rw [show chunkLoop f (fuel + 1) ([] : List (List Char)) = [] from rfl] at hc
      cases hc
    · have hSne : S ≠ [] := by rw [hSe]; exact List.cons_ne_nil _ _
      obtain ⟨k, hk1, hk2, hk3⟩ := chunkFinal_take f S hSne
      have hfin_len : (if f.maxSentencesPerChunk < sigCount f (tentativeChunk f 0 S)
          then truncateChunk f 0 (tentativeChunk f 0 S)
          else tentativeChunk f 0 S).length = k := by
        rw [hk3, List.length_take]
        omega
      have hstep : chunkLoop f (fuel + 1) S =
          S.take k :: chunkLoop f fuel (S.drop k) := by
        rw [hSe]
        show (if _ = 0 then _ else _) = _
        rw [← hSe, hfin_len]
        have hk0 : ¬(k = 0) := by omega
        rw [if_neg hk0, hk3]
      rw [hstep] at hc
      rcases List.mem_cons.1 hc with h | h
      · subst h
        intro he
        rw [List.take_eq_nil_iff] at he
        rcases he with he | he
        · omega
        · exact hSne he
      · exact ih (S.drop k) c h

/-! ## Builder output structure -/

theorem joinChunksGo_foldl_ne :
    ∀ (L : List (List Char)) (acc : List Char), acc ≠ [] →
      L.foldl (fun acc c => if acc.length ≠ 0 then acc ++ '\n' :: '\n' :: c
        else acc ++ c) acc = acc ++ nlJoinTail L := by
  intro L
  induction L with
  | nil => intro acc _; simp [nlJoinTail]
  | cons c rest ih =>
    intro acc hacc
    have hlen : acc.length ≠ 0 := fun h => hacc (List.length_eq_zero.1 h)
    rw [List.foldl_cons, if_pos hlen, ih _ (by simp [hacc]), nlJoinTail]
    simp

theorem joinChunksGo_cons {p : List Char} {L : List (List Char)} (hp : p ≠ []) :
    joinChunksGo (p :: L) = p ++ nlJoinTail L := by
  unfold joinChunksGo
  rw [List.foldl_cons]
  simp only [List.length_nil, ne_eq, not_true_eq_false, if_false, List.nil_append]
  exact joinChunksGo_foldl_ne L p hp

theorem splitNl_append_nonl {p r : List Char} (hp : '\n' ∉ p) {h : List Char}
    {t : List (List Char)} (hr : splitNl r = h :: t) :
    splitNl (p ++ r) = (p ++ h) :: t := by
  induction p with
  | nil => simpa using hr
  | cons c p' ih =>
    have hc : c ≠ '\n' := fun he => hp (he ▸ List.mem_cons_self _ _)
    have hp' : '\n' ∉ p' := fun hm => hp (List.mem_cons_of_mem c hm)
    rw [List.cons_append, splitNl_cons_of_ne hc (ih hp'), List.cons_append]

theorem splitNl_of_nonl {p : List Char} (hp : '\n' ∉ p) : splitNl p = [p] := by
  have := splitNl_append_nonl hp (show splitNl [] = [] :: [] from rfl)
  simpa using this

theorem paragraphs_nlJoin :
    ∀ (L : List (List Char)) (p : List Char), '\n' ∉ p → p ≠ [] →
      (∀ q ∈ L, '\n' ∉ q ∧ q ≠ []) →
      (splitNl (p ++ nlJoinTail L)).filter (· ≠ []) = p :: L := by
  intro L
  induction L with
  | nil =>
    intro p hnl hne _
    rw [nlJoinTail, List.append_nil, splitNl_of_nonl hnl]
    simp [hne]
  | cons c rest ih =>
    intro p hnl hne hall
    have hstep := ih c (hall c (List.mem_cons_self _ _)).1
      (hall c (List.mem_cons_self _ _)).2
      (fun q hq => hall q (List.mem_cons_of_mem c hq))
    obtain ⟨h, t, hsp⟩ := splitNl_shape (c ++ nlJoinTail rest)
    rw [nlJoinTail, splitNl_append_nonl hnl
      (show splitNl ('\n' :: '\n' :: (c ++ nlJoinTail rest)) =
        [] :: [] :: h :: t by rw [splitNl_cons_nl, splitNl_cons_nl, hsp])]
    rw [hsp] at hstep
    simp only [List.append_nil]
    rw [List.filter_cons_of_pos (by simp [hne]), List.filter_cons_of_neg (by simp),
      hstep]

theorem nlJoinTail_getLast :
    ∀ (L : List (List Char)) (p : List Char), (∀ q ∈ L, q ≠ []) →
      (p ++ nlJoinTail L).getLast? =
        (match L.getLast? with
         | some q => q.getLast?
         | none => p.getLast?) := by
  intro L
  induction L with
  | nil => intro p _; simp [nlJoinTail]
  | cons c rest ih =>
    intro p hall
    rw [nlJoinTail]
    have := ih (p ++ '\n' :: '\n' :: c) (fun q hq => hall q (List.mem_cons_of_mem c hq))
    rw [show p ++ '\n' :: '\n' :: (c ++ nlJoinTail rest) =
      (p ++ '\n' :: '\n' :: c) ++ nlJoinTail rest by simp, this]
    rcases rest with _ | ⟨d, ds⟩
    · have hc : c ≠ [] := hall c (List.mem_cons_self _ _)
      simp only [List.getLast?_cons, List.getLast?_nil]
      rw [List.getLast?_append]
      rcases hx : c.getLast? with _ | ⟨y⟩
      · exact absurd (List.getLast?_eq_none_iff.1 hx) hc
      · have : ('\n' :: '\n' :: c).getLast? = some y := by
          rw [getLast?_cons_ne (List.cons_ne_nil _ _), getLast?_cons_ne hc, hx]
        rw [this]
        simp [Option.or, hx]
    · rw [show (c :: d :: ds).getLast? = (d :: ds).getLast? from List.getLast?_cons_cons]
      rcases hg : (d :: ds).getLast? with _ | ⟨q⟩
      · exact absurd (List.getLast?_eq_none_iff.1 hg) (List.cons_ne_nil d ds)
      · rfl

theorem chunkLoop_ne_nil_of_sent {f : TextFormatter} {S : List (List Char)}
    (hS : S ≠ []) : chunkLoop f S.length S ≠ [] := by
  intro he
  have := chunkLoop_join f S.length S (le_refl _)
  rw [he] at this
  exact hS this.symm

theorem formatText_eq (f : TextFormatter) (text : List Char)
    (hne : goTrim text ≠ []) (hsne : splitIntoSentences text ≠ []) :
    formatText f text = goTrim (joinChunksGo
      ((chunkLoop f (splitIntoSentences text).length (splitIntoSentences text)).map
        fun c => cleanText (joinSpace c))) := by
  unfold formatText
  rw [if_neg hne, if_neg hsne]

theorem formatText_paragraphs (f : TextFormatter) (text : List Char)
    (hne : goTrim text ≠ [])
    (hok : ∀ c ∈ chunkLoop f (splitIntoSentences text).length (splitIntoSentences text),
      cleanText (joinSpace c) ≠ [] ∧ '\n' ∉ cleanText (joinSpace c) ∧
        NoEdgeSpace (cleanText (joinSpace c))) :
    paragraphsOf (formatText f text) =
      (chunkLoop f (splitIntoSentences text).length (splitIntoSentences text)).map
        (fun c => cleanText (joinSpace c)) := by
  obtain ⟨_, _, _, _, hsne⟩ := splitIntoSentences_spec text hne
  rw [formatText_eq f text hne hsne]
  rcases hL : (chunkLoop f (splitIntoSentences text).length
      (splitIntoSentences text)).map (fun c => cleanText (joinSpace c)) with _ | ⟨p, L'⟩
  · exact absurd (List.map_eq_nil_iff.1 hL) (chunkLoop_ne_nil_of_sent hsne)
  · have hmem : ∀ q ∈ p :: L', q ≠ [] ∧ '\n' ∉ q ∧ NoEdgeSpace q := by
      intro q hq
      rw [← hL] at hq
      obtain ⟨c, hc, hcq⟩ := List.mem_map.1 hq
      obtain ⟨h1, h2, h3⟩ := hok c hc
      exact ⟨hcq ▸ h1, hcq ▸ h2, hcq ▸ h3⟩
    have hp := hmem p (List.mem_cons_self _ _)
    rw [joinChunksGo_cons hp.1]
    have hedge : NoEdgeSpace (p ++ nlJoinTail L') := by
      constructor
      · intro c hc
        rw [List.head?_append] at hc
        rcases hhp : p.head? with _ | ⟨y⟩
        · exact absurd (List.head?_eq_none_iff.1 hhp) hp.1
        · rw [hhp] at hc
          have hcy : c = y := by
            have := hc
            simp [Option.or] at this
            exact this.symm
          subst hcy
          exact hp.2.2.1 c hhp
      · intro c hc
        rw [nlJoinTail_getLast L' p
          (fun q hq => (hmem q (List.mem_cons_of_mem p hq)).1)] at hc
        rcases hg : L'.getLast? with _ | ⟨q⟩
        · rw [hg] at hc
          exact hp.2.2.2 c hc
        · rw [hg] at hc
          have hqm : q ∈ p :: L' :=
            List.mem_cons_of_mem p (List.mem_of_mem_getLast? (hg ▸ rfl))
          exact (hmem q hqm).2.2.2 c hc
    rw [goTrim_eq_self hedge]
    exact paragraphs_nlJoin L' p hp.2.1 hp.1
      (fun q hq => ⟨(hmem q (List.mem_cons_of_mem p hq)).2.1,
        (hmem q (List.mem_cons_of_mem p hq)).1⟩)

theorem joinSpace_segment {S c a b : List (List Char)}
    (hS : S = a ++ c ++ b) (hc : c ≠ []) :
    ∃ x y, joinSpace S = x ++ joinSpace c ++ y := by
  subst hS
  rcases ha : a with _ | ⟨a0, as⟩ <;> rcases hb : b with _ | ⟨b0, bs⟩
  · exact ⟨[], [], by simp⟩
  · refine ⟨[], ' ' :: joinSpace (b0 :: bs), ?_⟩
    rw [List.nil_append, List.nil_append,
      joinSpace_append hc (List.cons_ne_nil b0 bs)]
  · refine ⟨joinSpace (a0 :: as) ++ [' '], [], ?_⟩
    rw [List.append_nil, joinSpace_append (List.cons_ne_nil a0 as) hc]
    simp
  · refine ⟨joinSpace (a0 :: as) ++ [' '], ' ' :: joinSpace (b0 :: bs), ?_⟩
    rw [List.append_assoc, joinSpace_append (List.cons_ne_nil a0 as)
      (by simp [hc]), joinSpace_append hc (List.cons_ne_nil b0 bs)]
    simp

theorem joinSpace_getLast_sent :
    ∀ (ps : List (List Char)), ps ≠ [] → (∀ s ∈ ps, s ≠ []) →
      ∃ s ∈ ps, (joinSpace ps).getLast? = s.getLast? := by
  intro ps
  induction ps with
  | nil => intro h _; exact absurd rfl h
  | cons s rest ih =>
    intro _ hall
    rcases rest with _ | ⟨q, qs⟩
    · exact ⟨s, List.mem_cons_self _ _, rfl⟩
    · have hq : q ≠ [] := hall q (List.mem_cons_of_mem s (List.mem_cons_self _ _))
      have hjne : joinSpace (q :: qs) ≠ [] :=
        joinSpace_ne_nil_head (List.mem_cons_self q qs) hq
      obtain ⟨r, hr, hre⟩ := ih (List.cons_ne_nil q qs)
        (fun x hx => hall x (List.mem_cons_of_mem s hx))
      exact ⟨r, List.mem_cons_of_mem s hr, by
        rw [joinSpace_getLast_of_ne hjne, hre]⟩

theorem joinSpace_map_flatten :
    ∀ (cs : List (List (List Char))), (∀ c ∈ cs, c ≠ []) →
      joinSpace (cs.map joinSpace) = joinSpace cs.flatten := by
  intro cs
  induction cs with
  | nil => intro _; rfl
  | cons c rest ih =>
    intro hall
    have hc : c ≠ [] := hall c (List.mem_cons_self _ _)
    rcases rest with _ | ⟨d, ds⟩
    · simp [joinSpace]
    · have hd : d ≠ [] := hall d (List.mem_cons_of_mem c (List.mem_cons_self _ _))
      have hflat : (List.flatten (d :: ds) : List (List Char)) ≠ [] := by
        intro he
        rcases d with _ | _
        · exact hd rfl
        · rw [List.flatten_cons] at he
          cases he
      rw [List.map_cons, List.flatten_cons,
        joinSpace_cons_ne (by simp), joinSpace_append hc hflat,
        ih (fun x hx => hall x (List.mem_cons_of_mem c hx))]

/-- Under `CleanSafe`, every chunk's paragraph text is its sentences joined
by spaces (cleanText is the identity), and is a well-formed paragraph. -/
theorem chunk_text_id (f : TextFormatter) (text : List Char)
    (hne : goTrim text ≠ []) (hsafe : CleanSafe (collapseWS (goTrim text))) :
    ∀ c ∈ chunkLoop f (splitIntoSentences text).length (splitIntoSentences text),
      cleanText (joinSpace c) = joinSpace c ∧ joinSpace c ≠ [] ∧
        '\n' ∉ joinSpace c ∧ NoEdgeSpace (joinSpace c) := by
  obtain ⟨hsplit, hjoin, hchain, hfacts, hsne⟩ := splitIntoSentences_spec text hne
  intro c hc
  have hcne : c ≠ [] :=
    chunkLoop_ne_nil f (splitIntoSentences text).length (splitIntoSentences text) c hc
  have hflat := chunkLoop_join f (splitIntoSentences text).length
    (splitIntoSentences text) (le_refl _)
  obtain ⟨a, b, hab⟩ := flatten_mem_decomp hc
  rw [hflat] at hab
  have hsub : ∀ s ∈ c, s ∈ splitIntoSentences text := by
    intro s hs
    rw [hab, List.append_assoc]
    exact List.mem_append_right a (List.mem_append_left b hs)
  obtain ⟨x, y, hxy⟩ := joinSpace_segment hab hcne
  rw [hjoin] at hxy
  have hvcoll := isCollapsed_collapseWS (goTrim text)
  have hccoll : IsCollapsed (joinSpace c) := by
    constructor
    · apply spacesArePlain_middle (a := x) (b := y)
      rw [← hxy]
      exact hvcoll.1
    · apply chain'_middle (a := x) (b := y)
      rw [← hxy]
      exact hvcoll.2
  have hcsafe : CleanSafe (joinSpace c) := by
    apply chain'_middle (a := x) (b := y)
    rw [← hxy]
    exact hsafe
  have hnl : '\n' ∉ joinSpace c := by
    intro hm
    apply no_nl_of_plain hvcoll.1
    rw [hxy, List.append_assoc]
    exact List.mem_append_right x (List.mem_append_left y hm)
  obtain ⟨s0, crest, hce⟩ : ∃ s0 crest, c = s0 :: crest := by
    rcases c with _ | ⟨s0, crest⟩
    · exact absurd rfl hcne
    · exact ⟨s0, crest, rfl⟩
  have hs0 : s0 ≠ [] := (hfacts s0 (hsub s0 (hce ▸ List.mem_cons_self _ _))).1
  have hjne : joinSpace c ≠ [] := by
    rw [hce]
    exact joinSpace_ne_nil_head (List.mem_cons_self s0 crest) hs0
  have hedge : NoEdgeSpace (joinSpace c) := by
    constructor
    · intro d hd
      rw [hce, joinSpace_head_of_ne hs0] at hd
      exact (hfacts s0 (hsub s0 (hce ▸ List.mem_cons_self _ _))).2.1 d hd
    · intro d hd
      obtain ⟨r, hr, hre⟩ := joinSpace_getLast_sent c (hce ▸ List.cons_ne_nil _ _)
        (fun s hs => (hfacts s (hsub s hs)).1)
      rw [hre] at hd
      exact (hfacts r (hsub r hr)).2.2 d hd
  exact ⟨cleanText_id hccoll hcsafe hedge, hjne, hnl, hedge⟩

/-- Claim C9 (amended): on inputs whose normalized form contains no
whitespace before `, . ! ?` and no adjacent repeated terminal punctuation,
re-running `Format` on its own output (paragraphs rejoined by spaces)
yields the same paragraph partition. -/
theorem formatText_idempotent_of_cleanSafe (text : List Char)
    (hsafe : CleanSafe (collapseWS (goTrim text))) :
    paragraphsOf (formatText NewTextFormatter
      (joinSpace (paragraphsOf (formatText NewTextFormatter text)))) =
      paragraphsOf (formatText NewTextFormatter text) := by
  by_cases hne : goTrim text = []
  · have h1 : formatText NewTextFormatter text = [] := by
      unfold formatText
      rw [if_pos hne]
    rw [h1]
    rfl
  · obtain ⟨hsplit, hjoin, hchain, hfacts, hsne⟩ := splitIntoSentences_spec text hne
    have hch := chunk_text_id NewTextFormatter text hne hsafe
    have hok : ∀ c ∈ chunkLoop NewTextFormatter (splitIntoSentences text).length
        (splitIntoSentences text),
        cleanText (joinSpace c) ≠ [] ∧ '\n' ∉ cleanText (joinSpace c) ∧
          NoEdgeSpace (cleanText (joinSpace c)) := by
      intro c hc
      obtain ⟨hid, hne2, hnl2, hedge2⟩ := hch c hc
      rw [hid]
      exact ⟨hne2, hnl2, hedge2⟩
    have hpar := formatText_paragraphs NewTextFormatter text hne hok
    have hmapeq : (chunkLoop NewTextFormatter (splitIntoSentences text).length
        (splitIntoSentences text)).map (fun c => cleanText (joinSpace c)) =
        (chunkLoop NewTextFormatter (splitIntoSentences text).length
          (splitIntoSentences text)).map joinSpace :=
      List.map_congr_left (fun c hc => (hch c hc).1)
    have hR : joinSpace ((chunkLoop NewTextFormatter (splitIntoSentences text).length
        (splitIntoSentences text)).map joinSpace) = collapseWS (goTrim text) := by
      rw [joinSpace_map_flatten _
        (fun c hc => chunkLoop_ne_nil NewTextFormatter _ _ c hc),
        chunkLoop_join NewTextFormatter _ _ (le_refl _), hjoin]
    rw [hpar, hmapeq, hR]
    have hvedge : NoEdgeSpace (collapseWS (goTrim text)) :=
      noEdgeSpace_collapseWS (noEdgeSpace_goTrim text)
    have hvtrim : goTrim (collapseWS (goTrim text)) = collapseWS (goTrim text) :=
      goTrim_eq_self hvedge
    have hvne2 : goTrim (collapseWS (goTrim text)) ≠ [] := by
      rw [hvtrim]
      exact collapseWS_ne_nil hne
    have hvred : collapseWS (goTrim (collapseWS (goTrim text))) =
        collapseWS (goTrim text) := by
      rw [hvtrim]
      exact collapseWS_eq_self (isCollapsed_collapseWS _)
    have hsv : splitIntoSentences (collapseWS (goTrim text)) = splitIntoSentences text := by
      obtain ⟨hsplit2, _, _, _, _⟩ :=
        splitIntoSentences_spec (collapseWS (goTrim text)) hvne2
      rw [hsplit2, hvred, ← hsplit]
    have hpar2 := formatText_paragraphs NewTextFormatter (collapseWS (goTrim text)) hvne2
      (by rw [hsv]; exact hok)
    rw [hpar2, hsv, hmapeq]

/-- Witness for C9 at a concrete artifact-free input. -/
theorem formatText_idempotent_of_cleanSafe_witness :
    paragraphsOf (formatText NewTextFormatter
      (joinSpace (paragraphsOf (formatText NewTextFormatter
        ('H' :: 'i' :: ' ' :: 'a' :: 'l' :: 'l' :: '.' :: ' ' :: 'G' :: 'o' :: ' ' :: 'o' :: 'n' :: ' ' :: 'n' :: 'o' :: 'w' :: ['.']))))) =
      paragraphsOf (formatText NewTextFormatter
        ('H' :: 'i' :: ' ' :: 'a' :: 'l' :: 'l' :: '.' :: ' ' :: 'G' :: 'o' :: ' ' :: 'o' :: 'n' :: ' ' :: 'n' :: 'o' :: 'w' :: ['.'])) :=
  formatText_idempotent_of_cleanSafe _ (by decide)

/-! ## goFields machinery -/

theorem goFieldsAux_append_space {s : Char} (hs : goSpace s = true) (b : List Char) :
    ∀ (a cur : List Char), goFieldsAux cur (a ++ s :: b) =
      goFieldsAux cur a ++ goFields b := by
  intro a
  induction a with
  | nil =>
    intro cur
    by_cases hcur : cur = []
    · subst hcur
      simp [goFieldsAux, hs, goFields]
    · simp [goFieldsAux, hs, hcur, goFields]
  | cons c a' ih =>
    intro cur
    by_cases hgc : goSpace c
    · by_cases hcur : cur = []
      · subst hcur
        simp [goFieldsAux, hgc, ih]
      · simp [goFieldsAux, hgc, hcur, ih]
    · simp [goFieldsAux, hgc, ih]

theorem goFields_append_space {s : Char} (hs : goSpace s = true) (a b : List Char) :
    goFields (a ++ s :: b) = goFields a ++ goFields b :=
  goFieldsAux_append_space hs b a []

theorem goFields_cons_space {s : Char} (hs : goSpace s = true) (l : List Char) :
    goFields (s :: l) = goFields l := by
  simp [goFields, goFieldsAux, hs]

theorem goFields_joinSpace :
    ∀ ps : List (List Char), goFields (joinSpace ps) = (ps.map goFields).flatten := by
  intro ps
  induction ps with
  | nil => rfl
  | cons s rest ih =>
    rcases rest with _ | ⟨q, qs⟩
    · simp [joinSpace]
    · rw [joinSpace_cons_ne (List.cons_ne_nil q qs),
        goFields_append_space (by decide), ih, List.map_cons, List.flatten_cons]
      simp

theorem goFields_nlJoin :
    ∀ (L : List (List Char)) (p : List Char),
      goFields (p ++ nlJoinTail L) = goFields p ++ (L.map goFields).flatten := by
  intro L
  induction L with
  | nil => simp [nlJoinTail]
  | cons c rest ih =>
    intro p
    rw [nlJoinTail, goFields_append_space (by decide),
      goFields_cons_space (by decide), ih c, List.map_cons, List.flatten_cons]

theorem goFields_dropWhile (l : List Char) :
    goFields (l.dropWhile goSpace) = goFields l := by
  induction l with
  | nil => rfl
  | cons c t ih =>
    by_cases hgc : goSpace c
    · rw [List.dropWhile_cons_of_pos hgc, ih, goFields_cons_space hgc]
    · rw [List.dropWhile_cons_of_neg (by simp [hgc])]

theorem goFieldsAux_all_space {m : List Char} (hm : ∀ c ∈ m, goSpace c = true) :
    ∀ cur, goFieldsAux cur m = goFieldsAux cur [] := by
  induction m with
  | nil => intro cur; rfl
  | cons c t ih =>
    intro cur
    have hc := hm c (List.mem_cons_self _ _)
    have iht := ih (fun d hd => hm d (List.mem_cons_of_mem c hd))
    by_cases hcur : cur = []
    · subst hcur
      simp [goFieldsAux, hc, iht]
    · simp [goFieldsAux, hc, hcur, iht]

theorem goFieldsAux_append_all_space {m : List Char} (hm : ∀ c ∈ m, goSpace c = true) :
    ∀ (a cur : List Char), goFieldsAux cur (a ++ m) = goFieldsAux cur a := by
  intro a
  induction a with
  | nil =>
    intro cur
    rw [List.nil_append, goFieldsAux_all_space hm]
  | cons c a' ih =>
    intro cur
    by_cases hgc : goSpace c
    · by_cases hcur : cur = [] <;> simp [goFieldsAux, hgc, hcur, ih]
    · simp [goFieldsAux, hgc, ih]

theorem goFields_goTrim (l : List Char) : goFields (goTrim l) = goFields l := by
  have h1 : goFields l = goFields (l.dropWhile goSpace) := (goFields_dropWhile l).symm
  have hdecomp : l.dropWhile goSpace =
      ((l.dropWhile goSpace).reverse.dropWhile goSpace).reverse ++
        ((l.dropWhile goSpace).reverse.takeWhile goSpace).reverse := by
    rw [← List.reverse_append, List.takeWhile_append_dropWhile, List.reverse_reverse]
  have hsp : ∀ c ∈ ((l.dropWhile goSpace).reverse.takeWhile goSpace).reverse,
      goSpace c = true := by
    intro c hc
    rw [List.mem_reverse] at hc
    exact List.mem_takeWhile_imp hc
  rw [h1, hdecomp, goTrim]
  exact (goFieldsAux_append_all_space hsp _ []).symm

theorem goFields_collapseWS (m : List Char) : goFields (collapseWS m) = goFields m := by
  suffices h : ∀ m : List Char,
      (∀ cur, goFieldsAux cur (collapseAux false m) = goFieldsAux cur m) ∧
        goFieldsAux [] (collapseAux true m) = goFieldsAux [] m by
    exact (h m).1 []
  intro m
  induction m with
  | nil => exact ⟨fun cur => rfl, rfl⟩
  | cons c t ih =>
    by_cases hrx : rxSpace c
    · have hgc : goSpace c = true := goSpace_of_rxSpace hrx
      constructor
      · intro cur
        rw [collapseAux_cons_space_false hrx]
        by_cases hcur : cur = []
        · subst hcur
          simp [goFieldsAux, hgc, (show goSpace ' ' = true by decide), ih.2]
        · simp [goFieldsAux, hgc, (show goSpace ' ' = true by decide), hcur, ih.2]
      · rw [collapseAux_cons_space_true hrx]
        simp [goFieldsAux, hgc, (show goSpace ' ' = true by decide), ih.2]
    · have hrx' : rxSpace c = false := by simpa using hrx
      constructor
      · intro cur
        rw [collapseAux_cons_nonspace hrx' false]
        by_cases hgc : goSpace c
        · by_cases hcur : cur = [] <;> simp [goFieldsAux, hgc, hcur, ih.1]
        · simp [goFieldsAux, hgc, ih.1]
      · rw [collapseAux_cons_nonspace hrx' true]
        by_cases hgc : goSpace c
        · simp [goFieldsAux, hgc, ih.1]
        · simp [goFieldsAux, hgc, ih.1]

theorem flatten_map_flatten (cs : List (List (List Char))) :
    (cs.map fun c => (c.map goFields).flatten).flatten =
      ((cs.flatten.map goFields).flatten : List (List Char)) := by
  induction cs with
  | nil => rfl
  | cons c rest ih =>
    simp only [List.map_cons, List.flatten_cons, List.map_append,
      List.flatten_append, ih]

/-- Claim C1 (amended): on inputs whose normalized form contains no
whitespace before `, . ! ?` and no adjacent repeated terminal punctuation,
the concatenation of `Format`'s output paragraphs carries exactly the
input's word sequence. -/
theorem formatText_word_preserving_of_cleanSafe (text : List Char)
    (hsafe : CleanSafe (collapseWS (goTrim text))) :
    goFields (formatText NewTextFormatter text) = goFields text := by
  by_cases hne : goTrim text = []
  · have h1 : formatText NewTextFormatter text = [] := by
      unfold formatText
      rw [if_pos hne]
    rw [h1, ← goFields_goTrim text, hne]
  · obtain ⟨hsplit, hjoin, hchain, hfacts, hsne⟩ := splitIntoSentences_spec text hne
    have hch := chunk_text_id NewTextFormatter text hne hsafe
    rw [formatText_eq NewTextFormatter text hne hsne, goFields_goTrim]
    have hmapeq : (chunkLoop NewTextFormatter (splitIntoSentences text).length
        (splitIntoSentences text)).map (fun c => cleanText (joinSpace c)) =
        (chunkLoop NewTextFormatter (splitIntoSentences text).length
          (splitIntoSentences text)).map joinSpace :=
      List.map_congr_left (fun c hc => (hch c hc).1)
    rw [hmapeq]
    rcases hL : (chunkLoop NewTextFormatter (splitIntoSentences text).length
        (splitIntoSentences text)).map joinSpace with _ | ⟨p, L'⟩
    · exact absurd (List.map_eq_nil_iff.1 hL) (chunkLoop_ne_nil_of_sent hsne)
    · have hpne : p ≠ [] := by
        have hp : p ∈ (chunkLoop NewTextFormatter (splitIntoSentences text).length
            (splitIntoSentences text)).map joinSpace := by
          rw [hL]
          exact List.mem_cons_self _ _
        obtain ⟨c, hc, hcp⟩ := List.mem_map.1 hp
        exact hcp ▸ (hch c hc).2.1
      have hcomp : List.map (goFields ∘ joinSpace)
          (chunkLoop NewTextFormatter (splitIntoSentences text).length
            (splitIntoSentences text)) =
          List.map (fun c => (c.map goFields).flatten)
            (chunkLoop NewTextFormatter (splitIntoSentences text).length
              (splitIntoSentences text)) :=
        List.map_congr_left (fun c _ => goFields_joinSpace c)
      rw [joinChunksGo_cons hpne, goFields_nlJoin L' p,
        show goFields p ++ (L'.map goFields).flatten =
          ((p :: L').map goFields).flatten by simp,
        ← hL, List.map_map, hcomp,
        flatten_map_flatten, chunkLoop_join NewTextFormatter _ _ (le_refl _),
        ← goFields_joinSpace, hjoin, goFields_collapseWS, goFields_goTrim]

/-- Witness for C1 at a concrete artifact-free input. -/
theorem formatText_word_preserving_witness :
    goFields (formatText NewTextFormatter
      ('H' :: 'i' :: ' ' :: 'a' :: 'l' :: 'l' :: '.' :: ' ' :: 'G' :: 'o' :: ' ' :: 'o' :: 'n' :: ' ' :: 'n' :: 'o' :: 'w' :: ['.'])) =
      goFields ('H' :: 'i' :: ' ' :: 'a' :: 'l' :: 'l' :: '.' :: ' ' :: 'G' :: 'o' :: ' ' :: 'o' :: 'n' :: ' ' :: 'n' :: 'o' :: 'w' :: ['.']) :=
  formatText_word_preserving_of_cleanSafe _ (by decide)

/-! ## Scanner completeness: no unconverted boundary in the output -/

theorem noSpTriple_cons3 (a b c : Char) (t : List Char) :
    noSpTripleB (a :: b :: c :: t) =
      (!(isTerm a && decide (b = ' ') && isUpperAZ c) && noSpTripleB (b :: c :: t)) := rfl

theorem noSpTriple_short {l : List Char} (h : l.length ≤ 2) : noSpTripleB l = true := by
  rcases l with _ | ⟨a, _ | ⟨b, _ | ⟨c, t⟩⟩⟩
  · rfl
  · rfl
  · rfl
  · simp at h

theorem noSpTriple_tail {a : Char} {t : List Char} (h : noSpTripleB (a :: t) = true) :
    noSpTripleB t = true := by
  rcases t with _ | ⟨b, _ | ⟨c, t'⟩⟩
  · rfl
  · rfl
  · rw [noSpTriple_cons3, Bool.and_eq_true] at h
    exact h.2

theorem noSpTriple_head {a b c : Char} {t : List Char}
    (h : noSpTripleB (a :: b :: c :: t) = true) :
    ¬(isTerm a = true ∧ b = ' ' ∧ isUpperAZ c = true) := by
  rw [noSpTriple_cons3, Bool.and_eq_true] at h
  have h1 := h.1
  intro hx
  obtain ⟨h2, h3, h4⟩ := hx
  rw [h2, h3, h4] at h1
  simp at h1

theorem noSpTriple_build {a : Char} {t : List Char} (h1 : noSpTripleB t = true)
    (h2 : ∀ y z t', t = y :: z :: t' →
      ¬(isTerm a = true ∧ y = ' ' ∧ isUpperAZ z = true)) :
    noSpTripleB (a :: t) = true := by
  rcases t with _ | ⟨b, _ | ⟨c, t'⟩⟩
  · rfl
  · rfl
  · rw [noSpTriple_cons3, Bool.and_eq_true]
    refine ⟨?_, h1⟩
    rcases hx : (isTerm a && decide (b = ' ') && isUpperAZ c) with _ | _
    · rfl
    · exfalso
      simp only [Bool.and_eq_true, decide_eq_true_eq] at hx
      exact h2 b c t' rfl ⟨hx.1.1, hx.1.2, hx.2⟩

theorem noSpTriple_append_right {x y : List Char}
    (h : noSpTripleB (x ++ y) = true) : noSpTripleB y = true := by
  induction x with
  | nil => exact h
  | cons a x' ih => exact ih (noSpTriple_tail h)

theorem noSpTriple_append_left {x y : List Char}
    (h : noSpTripleB (x ++ y) = true) : noSpTripleB x = true := by
  induction x with
  | nil => rfl
  | cons a x' ih =>
    refine noSpTriple_build (ih (noSpTriple_tail h)) ?_
    intro u z t' ht
    subst ht
    exact noSpTriple_head (by simpa using h)

theorem noSpTriple_middle {a x b : List Char}
    (h : noSpTripleB (a ++ x ++ b) = true) : noSpTripleB x = true :=
  noSpTriple_append_left
    (noSpTriple_append_right (by rwa [List.append_assoc] at h))

theorem isTerm_not_upper {c : Char} (h : isTerm c = true) : isUpperAZ c = false := by
  simp only [isTerm, Bool.or_eq_true, decide_eq_true_eq] at h
  rcases h with (h | h) | h <;> subst h <;> decide

/-- A run of terminal punctuation can be prepended to a boundary-free list
whose head is not a space directly followed by an upper-case letter. -/
theorem noSpTriple_termrun_append {R : List Char}
    (hR : noSpTripleB R = true)
    (hRh : ∀ z R', R = ' ' :: z :: R' → isUpperAZ z = false) :
    ∀ a : List Char, (∀ x ∈ a, isTerm x = true) → noSpTripleB (a ++ R) = true := by
  intro a
  induction a with
  | nil => intro _; exact hR
  | cons x a' ih =>
    intro ha
    refine noSpTriple_build (ih fun d hd => ha d (List.mem_cons_of_mem x hd)) ?_
    rintro y z t' ht ⟨h1, h2, h3⟩
    rcases a' with _ | ⟨w, a''⟩
    · have hR' : R = ' ' :: z :: t' := by rw [← h2]; simpa using ht
      have := hRh z t' hR'
      rw [h3] at this
      simp at this
    · have hw : w = y := by simpa using congrArg List.head? ht
      have hyt : isTerm y = true :=
        hw ▸ ha w (List.mem_cons_of_mem x (List.mem_cons_self _ _))
      rw [h2] at hyt
      exact absurd hyt (by decide)

/-- The scanner's output starts with the same character as the virtual
input it still has to flush. -/
theorem scanBound_head (pb wb z : List Char) :
    (scanBound pb wb z).head? = (pb.reverse ++ wb.reverse ++ z).head? := by
  induction pb, wb, z using scanBound.induct with
  | case1 pb wb =>
    show (pb.reverse ++ wb.reverse).head? = _
    simp
  | case2 pb c t hterm ih =>
    rw [scanBound_step_term_nowb hterm, ih]
    simp
  | case3 pb wb c t hterm hwb ih =>
    rw [scanBound_step_term_wb hterm hwb]
    have ih' : (scanBound [c] [] t).head? = (c :: t).head? := by simpa using ih
    simp [List.head?_append, ih']
  | case4 pb wb c t hterm hcond ih =>
    obtain ⟨hrx, hpbne⟩ : rxSpace c = true ∧ pb ≠ [] := by simpa using hcond
    have htermf : isTerm c = false := by simpa using hterm
    rw [scanBound_step_space htermf hrx hpbne, ih]
    simp
  | case5 pb wb c t hterm hnot2 hcond3 ih =>
    obtain ⟨⟨hu, hpbne⟩, hwbne⟩ : (isUpperAZ c = true ∧ pb ≠ []) ∧ wb ≠ [] := by
      simpa using hcond3
    have htermf : isTerm c = false := by simpa using hterm
    have hrxf : rxSpace c = false :=
      rxSpace_eq_false_of_goSpace (isUpperAZ_not_goSpace hu)
    rw [scanBound_step_upper htermf hrxf hu hpbne hwbne]
    obtain ⟨y, hy⟩ : ∃ y, pb.reverse.head? = some y := by
      rcases hrev : pb.reverse with _ | ⟨y, ys⟩
      · exact absurd (by simpa using congrArg List.reverse hrev) hpbne
      · exact ⟨y, rfl⟩
    simp [List.head?_append, hy]
  | case6 pb wb c t hterm hnot2 hnot3 ih =>
    have htermf : isTerm c = false := by simpa using hterm
    have h2 : rxSpace c = false ∨ pb = [] := by
      by_cases hr : rxSpace c
      · right
        by_contra hne
        exact hnot2 (by simp [hr, hne])
      · left
        simpa using hr
    have h3 : isUpperAZ c = false ∨ pb = [] ∨ wb = [] := by
      by_cases hup : isUpperAZ c
      · by_cases hp : pb = []
        · exact Or.inr (Or.inl hp)
        · by_cases hw : wb = []
          · exact Or.inr (Or.inr hw)
          · exact absurd (by simp [hup, hp, hw]) hnot3
      · left
        simpa using hup
    rw [scanBound_step_other htermf h2 h3]
    simp [List.head?_append]

/-- Completeness of the boundary scanner: its output contains no remaining
punctuation–space–uppercase triple (every boundary was converted). -/
theorem scanBound_noSpTriple (pb wb z : List Char) :
    (∀ c ∈ pb, isTerm c = true) → (∀ c ∈ wb, c = ' ') → wb.length ≤ 1 →
    (wb = [] ∨ pb ≠ []) → SpacesArePlain z → NoAdjSpace (wb.reverse ++ z) →
    noSpTripleB (scanBound pb wb z) = true := by
  induction pb, wb, z using scanBound.induct with
  | case1 pb wb =>
    intro hpb hwb hlen _ _ _
    show noSpTripleB (pb.reverse ++ wb.reverse) = true
    refine noSpTriple_termrun_append ?_ ?_ pb.reverse
      (fun x hx => hpb x (List.mem_reverse.1 hx))
    · exact noSpTriple_short (by simp only [List.length_reverse]; omega)
    · intro z R' hR
      have := congrArg List.length hR
      simp at this
      omega
  | case2 pb c t hterm ih =>
    intro hpb _ _ _ hplain hadj
    rw [scanBound_step_term_nowb hterm]
    refine ih ?_ (fun d hd => by cases hd) (by simp) (Or.inl rfl)
      (spacesArePlain_tail hplain) (List.Chain'.tail hadj)
    intro d hd
    rcases List.mem_cons.1 hd with h | h
    · subst h; exact hterm
    · exact hpb d h
  | case3 pb wb c t hterm hwb ih =>
    intro hpb hwbsp hlen himp hplain hadj
    rw [scanBound_step_term_wb hterm hwb]
    have hwbe : wb = [' '] := wb_singleton hwbsp hlen hwb
    subst hwbe
    have hrec := ih (by
        intro d hd
        rcases List.mem_cons.1 hd with h | h
        · subst h; exact hterm
        · cases h)
      (fun d hd => by cases hd) (by simp) (Or.inl rfl)
      (spacesArePlain_tail hplain) (List.Chain'.tail (List.Chain'.tail hadj))
    have hrh : (scanBound [c] [] t).head? = some c := by
      rw [scanBound_head]
      rfl
    rw [List.append_assoc]
    show noSpTripleB (pb.reverse ++ (' ' :: scanBound [c] [] t)) = true
    refine noSpTriple_termrun_append ?_ ?_ pb.reverse
      (fun x hx => hpb x (List.mem_reverse.1 hx))
    · refine noSpTriple_build hrec ?_
      rintro y z t' _ ⟨h1, _, _⟩
      exact absurd h1 (by decide)
    · rintro z R' hR
      have htl : scanBound [c] [] t = z :: R' := by
        have := congrArg List.tail hR
        simpa using this
      have hz : c = z := by
        have := hrh
        rw [htl] at this
        have h2 := by simpa using this
        exact h2.symm
      subst hz
      exact isTerm_not_upper hterm
  | case4 pb wb c t hterm hcond ih =>
    intro hpb hwbsp hlen himp hplain hadj
    obtain ⟨hrx, hpbne⟩ : rxSpace c = true ∧ pb ≠ [] := by simpa using hcond
    have hceq : c = ' ' := hplain c (List.mem_cons_self _ _) hrx
    have hwbnil : wb = [] := by
      rcases wb with _ | ⟨w, ws⟩
      · rfl
      · exfalso
        have hwbe : w :: ws = [' '] := wb_singleton hwbsp hlen (List.cons_ne_nil _ _)
        rw [hwbe] at hadj
        have hchain : NoAdjSpace (' ' :: c :: t) := by simpa using hadj
        exact (List.chain'_cons.1 hchain).1 ⟨by decide, hrx⟩
    subst hwbnil
    have htermf : isTerm c = false := by simpa using hterm
    rw [scanBound_step_space htermf hrx hpbne]
    exact ih hpb
      (by intro d hd; rcases List.mem_cons.1 hd with h | h
          · subst h; exact hceq
          · cases h)
      (by simp) (Or.inr hpbne) (spacesArePlain_tail hplain)
      (by subst hceq; simpa using hadj)
  | case5 pb wb c t hterm hnot2 hcond3 ih =>
    intro hpb hwbsp hlen himp hplain hadj
    obtain ⟨⟨hu, hpbne⟩, hwbne⟩ : (isUpperAZ c = true ∧ pb ≠ []) ∧ wb ≠ [] := by
      simpa using hcond3
    have hwbe : wb = [' '] := wb_singleton hwbsp hlen hwbne
    subst hwbe
    have htermf : isTerm c = false := by simpa using hterm
    have hrxf : rxSpace c = false :=
      rxSpace_eq_false_of_goSpace (isUpperAZ_not_goSpace hu)
    rw [scanBound_step_upper htermf hrxf hu hpbne hwbne]
    have hrec := ih (fun d hd => by cases hd) (fun d hd => by cases hd) (by simp)
      (Or.inl rfl) (spacesArePlain_tail hplain)
      (List.Chain'.tail (List.Chain'.tail hadj))
    refine noSpTriple_termrun_append ?_ ?_ pb.reverse
      (fun x hx => hpb x (List.mem_reverse.1 hx))
    · refine noSpTriple_build ?_ ?_
      · refine noSpTriple_build hrec ?_
        rintro y z t' _ ⟨h1, _, _⟩
        rw [htermf] at h1
        cases h1
      · rintro y z t' _ ⟨h1, _, _⟩
        exact absurd h1 (by decide)
    · intro z R' hR
      cases hR
  | case6 pb wb c t hterm hnot2 hnot3 ih =>
    intro hpb hwbsp hlen himp hplain hadj
    have htermf : isTerm c = false := by simpa using hterm
    have h2 : rxSpace c = false ∨ pb = [] := by
      by_cases hr : rxSpace c
      · right
        by_contra hne
        exact hnot2 (by simp [hr, hne])
      · left
        simpa using hr
    have h3 : isUpperAZ c = false ∨ pb = [] ∨ wb = [] := by
      by_cases hup : isUpperAZ c
      · by_cases hp : pb = []
        · exact Or.inr (Or.inl hp)
        · by_cases hw : wb = []
          · exact Or.inr (Or.inr hw)
          · exact absurd (by simp [hup, hp, hw]) hnot3
      · left
        simpa using hup
    rw [scanBound_step_other htermf h2 h3]
    have hrec := ih (fun d hd => by cases hd) (fun d hd => by cases hd) (by simp)
      (Or.inl rfl) (spacesArePlain_tail hplain)
      (List.Chain'.tail ((List.chain'_append.1 hadj).2.1))
    have hcR : noSpTripleB (c :: scanBound [] [] t) = true := by
      refine noSpTriple_build hrec ?_
      rintro y z t' _ ⟨h1, _, _⟩
      rw [htermf] at h1
      cases h1
    rw [List.append_assoc]
    by_cases hpe : pb = []
    · subst hpe
      have hwnil : wb = [] := by
        rcases himp with h | h
        · exact h
        · exact absurd rfl h
      subst hwnil
      simpa using hcR
    · have hrxf : rxSpace c = false := by
        rcases h2 with h | h
        · exact h
        · exact absurd h hpe
      refine noSpTriple_termrun_append ?_ ?_ pb.reverse
        (fun x hx => hpb x (List.mem_reverse.1 hx))
      · rcases wb with _ | ⟨w, ws⟩
        · simpa using hcR
        · have hwbe : w :: ws = [' '] := wb_singleton hwbsp hlen (List.cons_ne_nil _ _)
          rw [hwbe]
          show noSpTripleB (' ' :: c :: scanBound [] [] t) = true
          refine noSpTriple_build hcR ?_
          rintro y z t' _ ⟨h1, _, _⟩
          exact absurd h1 (by decide)
      · rintro z R' hR
        rcases wb with _ | ⟨w, ws⟩
        · exfalso
          simp only [List.reverse_nil, List.nil_append, List.cons.injEq] at hR
          rw [hR.1] at hrxf
          exact absurd hrxf (by decide)
        · have hwbe : w :: ws = [' '] := wb_singleton hwbsp hlen (List.cons_ne_nil _ _)
          rw [hwbe] at hR
          have hz : c = z := by
            have := congrArg List.tail hR
            simp only [List.reverse_singleton, List.singleton_append, List.tail_cons] at this
            exact (List.cons.inj this).1
          subst hz
          by_contra hupp
          have hup : isUpperAZ c = true := by simpa using hupp
          rcases h3 with h | h | h
          · rw [hup] at h; cases h
          · exact hpe h
          · rw [hwbe] at h; cases h

theorem splitNl_head_prefix : ∀ (t : List Char) {q : List Char} {qs : List (List Char)},
    splitNl t = q :: qs → ∃ b, t = q ++ b := by
  intro t
  induction t with
  | nil =>
    intro q qs h
    have hq : q = [] := (List.cons.inj h).1.symm
    exact ⟨[], by rw [hq]; rfl⟩
  | cons c t' ih =>
    intro q qs h
    by_cases hc : c = '\n'
    · subst hc
      rw [splitNl_cons_nl] at h
      have hq : q = [] := (List.cons.inj h).1.symm
      exact ⟨'\n' :: t', by rw [hq]; rfl⟩
    · obtain ⟨p, ps, hsp⟩ := splitNl_shape t'
      rw [splitNl_cons_of_ne hc hsp] at h
      have hq : q = c :: p := (List.cons.inj h).1.symm
      obtain ⟨b, hb⟩ := ih hsp
      exact ⟨b, by rw [hq, hb]; rfl⟩

theorem splitNl_segment : ∀ (l : List Char), ∀ p ∈ splitNl l, ∃ a b, l = a ++ p ++ b := by
  intro l
  induction l with
  | nil =>
    intro p hp
    have hp' : p = [] := by simpa [splitNl] using hp
    exact ⟨[], [], by rw [hp']; rfl⟩
  | cons c t ih =>
    intro p hp
    by_cases hc : c = '\n'
    · subst hc
      rw [splitNl_cons_nl] at hp
      rcases List.mem_cons.1 hp with h | h
      · subst h
        exact ⟨[], '\n' :: t, rfl⟩
      · obtain ⟨a, b, hab⟩ := ih p h
        exact ⟨'\n' :: a, b, by rw [hab]; rfl⟩
    · obtain ⟨q, qs, hsp⟩ := splitNl_shape t
      rw [splitNl_cons_of_ne hc hsp] at hp
      rcases List.mem_cons.1 hp with h | h
      · subst h
        obtain ⟨b, hb⟩ := splitNl_head_prefix t hsp
        exact ⟨[], b, by rw [hb]; rfl⟩
      · obtain ⟨a, b, hab⟩ := ih p (by rw [hsp]; exact List.mem_cons_of_mem q h)
        exact ⟨c :: a, b, by rw [hab]; rfl⟩

theorem pieces_noSpTriple {v : List Char} (hv : noSpTripleB v = true) :
    ∀ p ∈ splitNl v, noSpTripleB p = true := by
  intro p hp
  obtain ⟨a, b, hab⟩ := splitNl_segment v p hp
  rw [hab] at hv
  exact noSpTriple_middle hv

/-! ## The cleanText passes preserve sentence structure -/

theorem rsp_cons_nonspace {x c : Char} (hc : c ≠ ' ') (t : List Char) :
    replSpaceBefore x (c :: t) = c :: replSpaceBefore x t := by
  rcases t with _ | _ <;> simp [replSpaceBefore, hc]

theorem rsp_cons_space_hit {x : Char} (t : List Char) :
    replSpaceBefore x (' ' :: x :: t) = x :: replSpaceBefore x t := by
  simp [replSpaceBefore]

theorem rsp_cons_space_miss {x d : Char} (hd : d ≠ x) (t : List Char) :
    replSpaceBefore x (' ' :: d :: t) = ' ' :: replSpaceBefore x (d :: t) := by
  simp [replSpaceBefore, hd]

theorem rsp_ne_nil {x : Char} {l : List Char} (h : l ≠ []) :
    replSpaceBefore x l ≠ [] := by
  rcases l with _ | ⟨c, t⟩
  · exact absurd rfl h
  · by_cases hc : c = ' '
    · subst hc
      rcases t with _ | ⟨d, t'⟩
      · exact List.cons_ne_nil _ _
      · by_cases hd : d = x
        · subst hd
          rw [rsp_cons_space_hit]
          exact List.cons_ne_nil _ _
        · rw [rsp_cons_space_miss hd]
          exact List.cons_ne_nil _ _
    · rw [rsp_cons_nonspace hc]
      exact List.cons_ne_nil _ _

theorem rsp_subset {x : Char} : ∀ (l : List Char), ∀ c ∈ replSpaceBefore x l, c ∈ l := by
  intro l
  induction l using replSpaceBefore.induct x with
  | case1 => intro c hc; cases hc
  | case2 => intro c hc; exact hc
  | case3 t ih =>
    intro c hc
    rw [rsp_cons_space_hit] at hc
    rcases List.mem_cons.1 hc with h | h
    · subst h
      exact List.mem_cons_of_mem _ (List.mem_cons_self _ _)
    · exact List.mem_cons_of_mem _ (List.mem_cons_of_mem _ (ih c h))
  | case4 d t hne ih =>
    intro c hc
    rw [rsp_cons_space_miss hne] at hc
    rcases List.mem_cons.1 hc with h | h
    · subst h
      exact List.mem_cons_self _ _
    · exact List.mem_cons_of_mem _ (ih c h)
  | case5 c' t hc' ih =>
    intro c hc
    rw [rsp_cons_nonspace hc'] at hc
    rcases List.mem_cons.1 hc with h | h
    · subst h
      exact List.mem_cons_self _ _
    · exact List.mem_cons_of_mem _ (ih c h)

theorem getLast?_cons_congr {a b : Char} {X Y : List Char} (h : X.getLast? = Y.getLast?)
    (hX : X ≠ []) (hY : Y ≠ []) : (a :: X).getLast? = (b :: Y).getLast? := by
  rw [getLast?_cons_ne hX, getLast?_cons_ne hY, h]

theorem rsp_getLast {x : Char} : ∀ l : List Char,
    (replSpaceBefore x l).getLast? = l.getLast? := by
  intro l
  induction l using replSpaceBefore.induct x with
  | case1 => rfl
  | case2 => rfl
  | case3 t ih =>
    rw [rsp_cons_space_hit]
    by_cases htne : t = []
    · subst htne; rfl
    · have h1 : (x :: replSpaceBefore x t).getLast? = (x :: t).getLast? :=
        getLast?_cons_congr ih (rsp_ne_nil htne) htne
      have h2 : (' ' :: x :: t).getLast? = (x :: t).getLast? :=
        getLast?_cons_ne (List.cons_ne_nil x t)
      rw [h1, h2]
  | case4 d t hne ih =>
    rw [rsp_cons_space_miss hne]
    have h1 : (' ' :: replSpaceBefore x (d :: t)).getLast? = (' ' :: d :: t).getLast? :=
      getLast?_cons_congr ih (rsp_ne_nil (List.cons_ne_nil d t)) (List.cons_ne_nil d t)
    rw [h1]
  | case5 c t hc ih =>
    rw [rsp_cons_nonspace hc]
    by_cases htne : t = []
    · subst htne; rfl
    · exact getLast?_cons_congr ih (rsp_ne_nil htne) htne

theorem rsp_plain {x : Char} {l : List Char} (h : SpacesArePlain l) :
    SpacesArePlain (replSpaceBefore x l) :=
  fun c hc => h c (rsp_subset l c hc)

theorem rsp_noAdj {x : Char} (hxrx : rxSpace x = false) : ∀ {l : List Char},
    SpacesArePlain l → NoAdjSpace l → NoAdjSpace (replSpaceBefore x l) := by
  intro l
  induction l using replSpaceBefore.induct x with
  | case1 => intro _ _; exact List.chain'_nil
  | case2 => intro _ _; exact List.chain'_singleton _
  | case3 t ih =>
    intro hplain hadj
    rw [rsp_cons_space_hit]
    refine List.chain'_cons'.2 ⟨?_, ih (spacesArePlain_tail (spacesArePlain_tail hplain))
      (List.Chain'.tail (List.Chain'.tail hadj))⟩
    rintro b _ ⟨h1, _⟩
    rw [hxrx] at h1
    cases h1
  | case4 d t hne ih =>
    intro hplain hadj
    rw [rsp_cons_space_miss hne]
    have hlink : ¬(rxSpace ' ' = true ∧ rxSpace d = true) := (List.chain'_cons.1 hadj).1
    have hd : d ≠ ' ' := by
      intro he
      exact hlink ⟨by decide, by rw [he]; decide⟩
    refine List.chain'_cons'.2 ⟨?_, ih (spacesArePlain_tail hplain)
      (List.Chain'.tail hadj)⟩
    intro b hb
    rw [rsp_cons_nonspace hd] at hb
    have hbd : d = b := by simpa using hb
    subst hbd
    exact hlink
  | case5 c t hc ih =>
    intro hplain hadj
    rw [rsp_cons_nonspace hc]
    have hrc : rxSpace c = false := by
      by_cases hr : rxSpace c
      · exact absurd (hplain c (List.mem_cons_self _ _) hr) hc
      · simpa using hr
    refine List.chain'_cons'.2 ⟨?_, ih (spacesArePlain_tail hplain)
      (List.Chain'.tail hadj)⟩
    rintro b _ ⟨h1, _⟩
    rw [hrc] at h1
    cases h1

theorem rsp_window {x : Char} (hxsp : x ≠ ' ') {m : List Char}
    (hadj : NoAdjSpace m) {z : Char} {t₂ : List Char}
    (h : replSpaceBefore x m = ' ' :: z :: t₂) : ∃ m₂, m = ' ' :: z :: m₂ := by
  rcases m with _ | ⟨c, t⟩
  · cases h
  · by_cases hc : c = ' '
    · subst hc
      rcases t with _ | ⟨d, t'⟩
      · cases h
      · by_cases hd : d = x
        · subst hd
          rw [rsp_cons_space_hit] at h
          exact absurd (List.cons.inj h).1 hxsp
        · rw [rsp_cons_space_miss hd] at h
          have hd' : d ≠ ' ' := by
            intro he
            exact (List.chain'_cons.1 hadj).1 ⟨by decide, by rw [he]; decide⟩
          rw [rsp_cons_nonspace hd'] at h
          have := (List.cons.inj (List.cons.inj h).2).1
          exact ⟨t', by rw [← this]⟩
    · rw [rsp_cons_nonspace hc] at h
      exact absurd (List.cons.inj h).1 hc

theorem rsp_noSpTriple {x : Char} (hxsp : x ≠ ' ') : ∀ {l : List Char},
    NoAdjSpace l → noSpTripleB l = true →
    noSpTripleB (replSpaceBefore x l) = true := by
  intro l
  induction l using replSpaceBefore.induct x with
  | case1 => intro _ _; rfl
  | case2 => intro _ _; rfl
  | case3 t ih =>
    intro hadj htrip
    rw [rsp_cons_space_hit]
    have hadjt : NoAdjSpace t := List.Chain'.tail (List.Chain'.tail hadj)
    refine noSpTriple_build (ih hadjt (noSpTriple_tail (noSpTriple_tail htrip))) ?_
    rintro y z t₂ hO ⟨h1, h2, h3⟩
    subst h2
    obtain ⟨m₂, hm⟩ := rsp_window hxsp hadjt hO
    rw [hm] at htrip
    exact noSpTriple_head (noSpTriple_tail htrip) ⟨h1, rfl, h3⟩
  | case4 d t hne ih =>
    intro hadj htrip
    rw [rsp_cons_space_miss hne]
    refine noSpTriple_build (ih (List.Chain'.tail hadj) (noSpTriple_tail htrip)) ?_
    rintro y z t₂ _ ⟨h1, _, _⟩
    exact absurd h1 (by decide)
  | case5 c t hc ih =>
    intro hadj htrip
    rw [rsp_cons_nonspace hc]
    have hadjt : NoAdjSpace t := List.Chain'.tail hadj
    refine noSpTriple_build (ih hadjt (noSpTriple_tail htrip)) ?_
    rintro y z t₂ hO ⟨h1, h2, h3⟩
    subst h2
    obtain ⟨m₂, hm⟩ := rsp_window hxsp hadjt hO
    rw [hm] at htrip
    exact noSpTriple_head htrip ⟨h1, rfl, h3⟩

theorem run_cons_hit_drop {p : Char} (t : List Char) :
    collapseRun p true (p :: t) = collapseRun p true t := by
  simp [collapseRun]

theorem run_cons_hit_emit {p : Char} (t : List Char) :
    collapseRun p false (p :: t) = p :: collapseRun p true t := by
  simp [collapseRun]

theorem run_cons_miss {p c : Char} (hc : c ≠ p) (prev : Bool) (t : List Char) :
    collapseRun p prev (c :: t) = c :: collapseRun p false t := by
  simp [collapseRun, hc]

theorem run_subset {p : Char} : ∀ (l : List Char) (prev : Bool),
    ∀ c ∈ collapseRun p prev l, c ∈ l := by
  intro l
  induction l with
  | nil => intro prev c hc; cases hc
  | cons d t ih =>
    intro prev c hc
    by_cases hd : d = p
    · subst hd
      rcases prev with _ | _
      · rw [run_cons_hit_emit] at hc
        rcases List.mem_cons.1 hc with h | h
        · subst h; exact List.mem_cons_self _ _
        · exact List.mem_cons_of_mem _ (ih true c h)
      · rw [run_cons_hit_drop] at hc
        exact List.mem_cons_of_mem _ (ih true c hc)
    · rw [run_cons_miss hd] at hc
      rcases List.mem_cons.1 hc with h | h
      · subst h; exact List.mem_cons_self _ _
      · exact List.mem_cons_of_mem _ (ih false c h)

theorem run_false_ne_nil {p c : Char} (t : List Char) :
    collapseRun p false (c :: t) ≠ [] := by
  by_cases hc : c = p
  · subst hc
    rw [run_cons_hit_emit]
    exact List.cons_ne_nil _ _
  · rw [run_cons_miss hc]
    exact List.cons_ne_nil _ _

theorem run_false_head {p : Char} (l : List Char) :
    (collapseRun p false l).head? = l.head? := by
  rcases l with _ | ⟨c, t⟩
  · rfl
  · by_cases hc : c = p
    · subst hc
      rw [run_cons_hit_emit]
      rfl
    · rw [run_cons_miss hc]
      rfl

theorem run_getLast {p : Char} : ∀ (l : List Char) (prev : Bool), l ≠ [] →
    collapseRun p prev l = [] ∨
    ∃ d, (collapseRun p prev l).getLast? = some d ∧
      (d = p ∨ l.getLast? = some d) := by
  intro l
  induction l with
  | nil => intro prev h; exact absurd rfl h
  | cons c t ih =>
    intro prev _
    by_cases hc : c = p
    · subst hc
      rcases prev with _ | _
      · rw [run_cons_hit_emit]
        by_cases hrec : collapseRun c true t = []
        · rw [hrec]
          exact Or.inr ⟨c, rfl, Or.inl rfl⟩
        · have htne : t ≠ [] := by
            intro he
            rw [he] at hrec
            exact hrec rfl
          rcases ih true htne with h | ⟨d, hd, hdor⟩
          · exact absurd h hrec
          · refine Or.inr ⟨d, ?_, ?_⟩
            · rw [getLast?_cons_ne hrec]
              exact hd
            · rcases hdor with h | h
              · exact Or.inl h
              · exact Or.inr (by rw [getLast?_cons_ne htne]; exact h)
      · rw [run_cons_hit_drop]
        rcases ht : t with _ | ⟨e, t'⟩
        · exact Or.inl rfl
        · rw [← ht]
          have htne : t ≠ [] := by rw [ht]; exact List.cons_ne_nil _ _
          rcases ih true htne with h | ⟨d, hd, hdor⟩
          · exact Or.inl h
          · refine Or.inr ⟨d, hd, ?_⟩
            rcases hdor with h | h
            · exact Or.inl h
            · exact Or.inr (by rw [getLast?_cons_ne htne]; exact h)
    · rw [run_cons_miss hc]
      rcases ht : t with _ | ⟨e, t'⟩
      · exact Or.inr ⟨c, rfl, Or.inr rfl⟩
      · rw [← ht]
        have htne : t ≠ [] := by rw [ht]; exact List.cons_ne_nil _ _
        have hrne : collapseRun p false t ≠ [] := by
          rw [ht]; exact run_false_ne_nil t'
        rcases ih false htne with h | ⟨d, hd, hdor⟩
        · exact absurd h hrne
        · refine Or.inr ⟨d, ?_, ?_⟩
          · rw [getLast?_cons_ne hrne]
            exact hd
          · rcases hdor with h | h
            · exact Or.inl h
            · exact Or.inr (by rw [getLast?_cons_ne htne]; exact h)

theorem run_noAdj {p : Char} (hp : rxSpace p = false) : ∀ (l : List Char) (prev : Bool),
    NoAdjSpace l → NoAdjSpace (collapseRun p prev l) := by
  intro l
  induction l with
  | nil => intro prev _; exact List.chain'_nil
  | cons c t ih =>
    intro prev hadj
    by_cases hc : c = p
    · subst hc
      rcases prev with _ | _
      · rw [run_cons_hit_emit]
        refine List.chain'_cons'.2 ⟨?_, ih true (List.Chain'.tail hadj)⟩
        rintro b _ ⟨h1, _⟩
        rw [hp] at h1
        cases h1
      · rw [run_cons_hit_drop]
        exact ih true (List.Chain'.tail hadj)
    · rw [run_cons_miss hc]
      refine List.chain'_cons'.2 ⟨?_, ih false (List.Chain'.tail hadj)⟩
      intro b hb
      rw [run_false_head] at hb
      exact (List.chain'_cons'.1 hadj).1 b hb

theorem cons_all_append {p : Char} : ∀ (a : List Char), (∀ q ∈ a, q = p) →
    ∀ r : List Char, ∃ a', p :: (a ++ r) = a' ++ p :: r := by
  intro a
  induction a with
  | nil => intro _ r; exact ⟨[], rfl⟩
  | cons q a'' ih =>
    intro hall r
    have hq : q = p := hall q (List.mem_cons_self _ _)
    subst hq
    obtain ⟨a', ha⟩ := ih (fun d hd => hall d (List.mem_cons_of_mem q hd)) r
    refine ⟨q :: a', ?_⟩
    show q :: (q :: (a'' ++ r)) = q :: (a' ++ q :: r)
    rw [ha]

theorem run_window {p : Char} (hpsp : p ≠ ' ') : ∀ (m : List Char) (prev : Bool)
    {z : Char} {t₂ : List Char},
    collapseRun p prev m = ' ' :: z :: t₂ →
    ∃ a m₂, m = a ++ ' ' :: z :: m₂ ∧ (∀ q ∈ a, q = p) ∧
      (prev = false → a = []) := by
  intro m
  induction m with
  | nil => intro prev z t₂ h; cases h
  | cons c t ih =>
    intro prev z t₂ h
    by_cases hc : c = p
    · subst hc
      rcases prev with _ | _
      · rw [run_cons_hit_emit] at h
        exact absurd (List.cons.inj h).1 hpsp
      · rw [run_cons_hit_drop] at h
        obtain ⟨a, m₂, heq, hall, _⟩ := ih true h
        refine ⟨c :: a, m₂, by rw [List.cons_append, heq], ?_, ?_⟩
        · intro q hq
          rcases List.mem_cons.1 hq with hx | hx
          · exact hx
          · exact hall q hx
        · intro hf
          exact absurd hf (by decide)
    · rw [run_cons_miss hc] at h
      have hcsp : c = ' ' := (List.cons.inj h).1
      have h2 : collapseRun p false t = z :: t₂ := (List.cons.inj h).2
      obtain ⟨d, t₃, ht⟩ : ∃ d t₃, t = d :: t₃ := by
        rcases t with _ | ⟨d, t₃⟩
        · cases h2
        · exact ⟨d, t₃, rfl⟩
      have hdz : d = z := by
        have hhd := run_false_head (p := p) t
        rw [h2, ht] at hhd
        simpa using hhd.symm
      refine ⟨[], t₃, ?_, ?_, ?_⟩
      · rw [ht, hcsp, hdz]
        rfl
      · intro q hq
        cases hq
      · intro _
        rfl

theorem run_noSpTriple {p : Char} (hpsp : p ≠ ' ') : ∀ (l : List Char) (prev : Bool),
    noSpTripleB l = true → noSpTripleB (collapseRun p prev l) = true := by
  intro l
  induction l with
  | nil => intro prev _; rfl
  | cons c t ih =>
    intro prev htrip
    by_cases hc : c = p
    · subst hc
      rcases prev with _ | _
      · rw [run_cons_hit_emit]
        refine noSpTriple_build (ih true (noSpTriple_tail htrip)) ?_
        rintro y z t₂ hO ⟨h1, h2, h3⟩
        subst h2
        obtain ⟨a, m₂, heq, hall, _⟩ := run_window hpsp t true hO
        obtain ⟨a', ha'⟩ := cons_all_append a hall (' ' :: z :: m₂)
        have hl : noSpTripleB (c :: ' ' :: z :: m₂) = true := by
          refine noSpTriple_append_right (x := a') ?_
          rw [← ha', ← heq]
          exact htrip
        exact noSpTriple_head hl ⟨h1, rfl, h3⟩
      · rw [run_cons_hit_drop]
        exact ih true (noSpTriple_tail htrip)
    · rw [run_cons_miss hc]
      refine noSpTriple_build (ih false (noSpTriple_tail htrip)) ?_
      rintro y z t₂ hO ⟨h1, h2, h3⟩
      subst h2
      obtain ⟨a, m₂, heq, hall, hfa⟩ := run_window hpsp t false hO
      have ha : a = [] := hfa rfl
      subst ha
      rw [List.nil_append] at heq
      rw [heq] at htrip
      exact noSpTriple_head htrip ⟨h1, rfl, h3⟩

theorem run_ne_nil {p : Char} {l : List Char} (h : l ≠ []) :
    collapseRun p false l ≠ [] := by
  rcases l with _ | ⟨c, t⟩
  · exact absurd rfl h
  · exact run_false_ne_nil t

theorem head?_shape {l : List Char} {u : Char} (h : l.head? = some u) :
    ∃ tl, l = u :: tl := by
  rcases l with _ | ⟨c, t⟩
  · cases h
  · exact ⟨t, by rw [Option.some.inj h]⟩

theorem rsp_head {x c : Char} (hc : c ≠ ' ') {l : List Char} (h : l.head? = some c) :
    (replSpaceBefore x l).head? = some c := by
  obtain ⟨tl, rfl⟩ := head?_shape h
  rw [rsp_cons_nonspace hc]
  rfl

theorem upper_ne_punct {u q : Char} (hu : isUpperAZ u = true)
    (hq : cleanablePunct q = true) : u ≠ q := by
  intro he
  subst he
  simp only [cleanablePunct, Bool.or_eq_true, decide_eq_true_eq] at hq
  rcases hq with ((h | h) | h) | h <;> rw [h] at hu <;> exact absurd hu (by decide)

theorem rsp_append_junction {x : Char} {B : List Char} {u : Char}
    {B₂ : List Char} (hB : B = u :: B₂) (hu : u ≠ x) (hx : x ≠ ' ') :
    ∀ A : List Char, replSpaceBefore x (A ++ ' ' :: B) =
      replSpaceBefore x A ++ ' ' :: replSpaceBefore x B := by
  intro A
  induction A using replSpaceBefore.induct x with
  | case1 =>
    subst hB
    calc replSpaceBefore x ([] ++ ' ' :: u :: B₂)
        = ' ' :: replSpaceBefore x (u :: B₂) := rsp_cons_space_miss hu _
      _ = replSpaceBefore x [] ++ ' ' :: replSpaceBefore x (u :: B₂) := rfl
  | case2 =>
    subst hB
    calc replSpaceBefore x ([' '] ++ ' ' :: u :: B₂)
        = ' ' :: replSpaceBefore x (' ' :: u :: B₂) := rsp_cons_space_miss (Ne.symm hx) _
      _ = ' ' :: ' ' :: replSpaceBefore x (u :: B₂) := by rw [rsp_cons_space_miss hu]
      _ = replSpaceBefore x [' '] ++ ' ' :: replSpaceBefore x (u :: B₂) := rfl
  | case3 t ih =>
    calc replSpaceBefore x ((' ' :: x :: t) ++ ' ' :: B)
        = x :: replSpaceBefore x (t ++ ' ' :: B) := rsp_cons_space_hit _
      _ = x :: (replSpaceBefore x t ++ ' ' :: replSpaceBefore x B) := by rw [ih]
      _ = replSpaceBefore x (' ' :: x :: t) ++ ' ' :: replSpaceBefore x B := by
          rw [rsp_cons_space_hit]
          rfl
  | case4 d t hne ih =>
    calc replSpaceBefore x ((' ' :: d :: t) ++ ' ' :: B)
        = ' ' :: replSpaceBefore x ((d :: t) ++ ' ' :: B) := rsp_cons_space_miss hne _
      _ = ' ' :: (replSpaceBefore x (d :: t) ++ ' ' :: replSpaceBefore x B) := by rw [ih]
      _ = replSpaceBefore x (' ' :: d :: t) ++ ' ' :: replSpaceBefore x B := by
          rw [rsp_cons_space_miss hne]
          rfl
  | case5 c t hc ih =>
    calc replSpaceBefore x ((c :: t) ++ ' ' :: B)
        = c :: replSpaceBefore x (t ++ ' ' :: B) := rsp_cons_nonspace hc _
      _ = c :: (replSpaceBefore x t ++ ' ' :: replSpaceBefore x B) := by rw [ih]
      _ = replSpaceBefore x (c :: t) ++ ' ' :: replSpaceBefore x B := by
          rw [rsp_cons_nonspace hc]
          rfl

theorem run_append_junction {p : Char} (hp : p ≠ ' ') (B : List Char) :
    ∀ (A : List Char) (prev : Bool),
      collapseRun p prev (A ++ ' ' :: B) =
        collapseRun p prev A ++ ' ' :: collapseRun p false B := by
  intro A
  induction A with
  | nil =>
    intro prev
    calc collapseRun p prev ([] ++ ' ' :: B)
        = ' ' :: collapseRun p false B := run_cons_miss (Ne.symm hp) prev B
      _ = collapseRun p prev [] ++ ' ' :: collapseRun p false B := rfl
  | cons c t ih =>
    intro prev
    by_cases hc : c = p
    · subst hc
      rcases prev with _ | _
      · calc collapseRun c false ((c :: t) ++ ' ' :: B)
            = c :: collapseRun c true (t ++ ' ' :: B) := run_cons_hit_emit _
          _ = c :: (collapseRun c true t ++ ' ' :: collapseRun c false B) := by
              rw [ih]
          _ = collapseRun c false (c :: t) ++ ' ' :: collapseRun c false B := by
              rw [run_cons_hit_emit]
              rfl
      · calc collapseRun c true ((c :: t) ++ ' ' :: B)
            = collapseRun c true (t ++ ' ' :: B) := run_cons_hit_drop _
          _ = collapseRun c true t ++ ' ' :: collapseRun c false B := ih true
          _ = collapseRun c true (c :: t) ++ ' ' :: collapseRun c false B := by
              rw [run_cons_hit_drop]
    · calc collapseRun p prev ((c :: t) ++ ' ' :: B)
          = c :: collapseRun p false (t ++ ' ' :: B) := run_cons_miss hc prev _
        _ = c :: (collapseRun p false t ++ ' ' :: collapseRun p false B) := by
            rw [ih]
        _ = collapseRun p prev (c :: t) ++ ' ' :: collapseRun p false B := by
            rw [run_cons_miss hc]
            rfl

theorem run_getLast_term {p : Char} (hpterm : isTerm p = true) {m : List Char}
    (hm : m ≠ []) (h : ∃ d, m.getLast? = some d ∧ isTerm d = true) :
    ∃ d, (collapseRun p false m).getLast? = some d ∧ isTerm d = true := by
  rcases run_getLast (p := p) m false hm with hnil | ⟨d, hd, hdor⟩
  · exact absurd hnil (run_ne_nil hm)
  · rcases hdor with he | he
    · exact ⟨d, hd, he ▸ hpterm⟩
    · obtain ⟨e, he2, het⟩ := h
      rw [he] at he2
      exact ⟨d, hd, by rw [Option.some.inj he2]; exact het⟩

theorem cleanPasses_subset {l : List Char} : ∀ c ∈ cleanPasses l, c ∈ l := by
  intro c hc
  unfold cleanPasses at hc
  exact rsp_subset _ _ (rsp_subset _ _ (rsp_subset _ _ (rsp_subset _ _
    (run_subset _ _ _ (run_subset _ _ _ (run_subset _ _ _ hc))))))

theorem cleanPasses_ne_nil {l : List Char} (h : l ≠ []) : cleanPasses l ≠ [] := by
  unfold cleanPasses
  exact run_ne_nil (run_ne_nil (run_ne_nil (rsp_ne_nil (rsp_ne_nil (rsp_ne_nil
    (rsp_ne_nil h))))))

theorem cleanPasses_head {c : Char} (hc : c ≠ ' ') {l : List Char}
    (h : l.head? = some c) : (cleanPasses l).head? = some c := by
  unfold cleanPasses
  rw [run_false_head, run_false_head, run_false_head]
  exact rsp_head hc (rsp_head hc (rsp_head hc (rsp_head hc h)))

theorem cleanPasses_plain {l : List Char} (h : SpacesArePlain l) :
    SpacesArePlain (cleanPasses l) :=
  fun c hc => h c (cleanPasses_subset c hc)

theorem cleanPasses_noAdj {l : List Char} (hpl : SpacesArePlain l)
    (hadj : NoAdjSpace l) : NoAdjSpace (cleanPasses l) := by
  have p1 : SpacesArePlain (replSpaceBefore ',' l) := rsp_plain hpl
  have a1 : NoAdjSpace (replSpaceBefore ',' l) := rsp_noAdj (by decide) hpl hadj
  have p2 : SpacesArePlain (replSpaceBefore '.' (replSpaceBefore ',' l)) := rsp_plain p1
  have a2 : NoAdjSpace (replSpaceBefore '.' (replSpaceBefore ',' l)) :=
    rsp_noAdj (by decide) p1 a1
  have p3 : SpacesArePlain (replSpaceBefore '!' (replSpaceBefore '.'
      (replSpaceBefore ',' l))) := rsp_plain p2
  have a3 : NoAdjSpace (replSpaceBefore '!' (replSpaceBefore '.'
      (replSpaceBefore ',' l))) := rsp_noAdj (by decide) p2 a2
  have a4 : NoAdjSpace (replSpaceBefore '?' (replSpaceBefore '!' (replSpaceBefore '.'
      (replSpaceBefore ',' l)))) := rsp_noAdj (by decide) p3 a3
  unfold cleanPasses
  exact run_noAdj (by decide) _ false (run_noAdj (by decide) _ false
    (run_noAdj (by decide) _ false a4))

theorem cleanPasses_noSpTriple {l : List Char} (hpl : SpacesArePlain l)
    (hadj : NoAdjSpace l) (h : noSpTripleB l = true) :
    noSpTripleB (cleanPasses l) = true := by
  have p1 : SpacesArePlain (replSpaceBefore ',' l) := rsp_plain hpl
  have a1 : NoAdjSpace (replSpaceBefore ',' l) := rsp_noAdj (by decide) hpl hadj
  have t1 : noSpTripleB (replSpaceBefore ',' l) = true :=
    rsp_noSpTriple (by decide) hadj h
  have p2 : SpacesArePlain (replSpaceBefore '.' (replSpaceBefore ',' l)) := rsp_plain p1
  have a2 : NoAdjSpace (replSpaceBefore '.' (replSpaceBefore ',' l)) :=
    rsp_noAdj (by decide) p1 a1
  have t2 : noSpTripleB (replSpaceBefore '.' (replSpaceBefore ',' l)) = true :=
    rsp_noSpTriple (by decide) a1 t1
  have a3 : NoAdjSpace (replSpaceBefore '!' (replSpaceBefore '.'
      (replSpaceBefore ',' l))) := rsp_noAdj (by decide) p2 a2
  have t3 : noSpTripleB (replSpaceBefore '!' (replSpaceBefore '.'
      (replSpaceBefore ',' l))) = true := rsp_noSpTriple (by decide) a2 t2
  have t4 : noSpTripleB (replSpaceBefore '?' (replSpaceBefore '!' (replSpaceBefore '.'
      (replSpaceBefore ',' l)))) = true := rsp_noSpTriple (by decide) a3 t3
  unfold cleanPasses
  exact run_noSpTriple (by decide) _ false (run_noSpTriple (by decide) _ false
    (run_noSpTriple (by decide) _ false t4))

theorem cleanPasses_getLast_term {l : List Char} (hne : l ≠ [])
    (h : ∃ d, l.getLast? = some d ∧ isTerm d = true) :
    ∃ d, (cleanPasses l).getLast? = some d ∧ isTerm d = true := by
  have n4 : replSpaceBefore '?' (replSpaceBefore '!' (replSpaceBefore '.'
      (replSpaceBefore ',' l))) ≠ [] :=
    rsp_ne_nil (rsp_ne_nil (rsp_ne_nil (rsp_ne_nil hne)))
  have h4 : ∃ d, (replSpaceBefore '?' (replSpaceBefore '!' (replSpaceBefore '.'
      (replSpaceBefore ',' l)))).getLast? = some d ∧ isTerm d = true := by
    rw [rsp_getLast, rsp_getLast, rsp_getLast, rsp_getLast]
    exact h
  have h5 := run_getLast_term (p := '.') (by decide) n4 h4
  have n5 : collapseRun '.' false (replSpaceBefore '?' (replSpaceBefore '!'
      (replSpaceBefore '.' (replSpaceBefore ',' l)))) ≠ [] := run_ne_nil n4
  have h6 := run_getLast_term (p := '!') (by decide) n5 h5
  have n6 : collapseRun '!' false (collapseRun '.' false (replSpaceBefore '?'
      (replSpaceBefore '!' (replSpaceBefore '.' (replSpaceBefore ',' l))))) ≠ [] :=
    run_ne_nil n5
  have h7 := run_getLast_term (p := '?') (by decide) n6 h6
  exact h7

theorem cleanPasses_junction {A B : List Char} {u : Char}
    (hBh : B.head? = some u) (huu : isUpperAZ u = true) :
    cleanPasses (A ++ ' ' :: B) = cleanPasses A ++ ' ' :: cleanPasses B := by
  have hu_gs : goSpace u = false := isUpperAZ_not_goSpace huu
  have husp : u ≠ ' ' := fun he => by rw [he] at hu_gs; exact absurd hu_gs (by decide)
  obtain ⟨B₂, hB2⟩ := head?_shape hBh
  have h1 := rsp_append_junction (x := ',') hB2 (upper_ne_punct huu (by decide))
    (by decide) A
  have hBh1 : (replSpaceBefore ',' B).head? = some u := rsp_head husp hBh
  obtain ⟨B₃, hB3⟩ := head?_shape hBh1
  have h2 := rsp_append_junction (x := '.') hB3 (upper_ne_punct huu (by decide))
    (by decide) (replSpaceBefore ',' A)
  have hBh2 : (replSpaceBefore '.' (replSpaceBefore ',' B)).head? = some u :=
    rsp_head husp hBh1
  obtain ⟨B₄, hB4⟩ := head?_shape hBh2
  have h3 := rsp_append_junction (x := '!') hB4 (upper_ne_punct huu (by decide))
    (by decide) (replSpaceBefore '.' (replSpaceBefore ',' A))
  have hBh3 : (replSpaceBefore '!' (replSpaceBefore '.'
      (replSpaceBefore ',' B))).head? = some u := rsp_head husp hBh2
  obtain ⟨B₅, hB5⟩ := head?_shape hBh3
  have h4 := rsp_append_junction (x := '?') hB5 (upper_ne_punct huu (by decide))
    (by decide) (replSpaceBefore '!' (replSpaceBefore '.' (replSpaceBefore ',' A)))
  have r1 := run_append_junction (p := '.') (by decide)
    (replSpaceBefore '?' (replSpaceBefore '!' (replSpaceBefore '.'
      (replSpaceBefore ',' B))))
    (replSpaceBefore '?' (replSpaceBefore '!' (replSpaceBefore '.'
      (replSpaceBefore ',' A)))) false
  have r2 := run_append_junction (p := '!') (by decide)
    (collapseRun '.' false (replSpaceBefore '?' (replSpaceBefore '!'
      (replSpaceBefore '.' (replSpaceBefore ',' B)))))
    (collapseRun '.' false (replSpaceBefore '?' (replSpaceBefore '!'
      (replSpaceBefore '.' (replSpaceBefore ',' A))))) false
  have r3 := run_append_junction (p := '?') (by decide)
    (collapseRun '!' false (collapseRun '.' false (replSpaceBefore '?'
      (replSpaceBefore '!' (replSpaceBefore '.' (replSpaceBefore ',' B))))))
    (collapseRun '!' false (collapseRun '.' false (replSpaceBefore '?'
      (replSpaceBefore '!' (replSpaceBefore '.' (replSpaceBefore ',' A)))))) false
  unfold cleanPasses
  rw [h1, h2, h3, h4, r1, r2, r3]

theorem cleanPasses_joinSpace : ∀ (c : List (List Char)),
    (∀ s ∈ c, s ≠ []) → SentChain c →
    cleanPasses (joinSpace c) = joinSpace (c.map cleanPasses) := by
  intro c
  induction c with
  | nil => intro _ _; rfl
  | cons s rest ih =>
    intro hall hchain
    rcases rest with _ | ⟨q, qs⟩
    · rfl
    · have hq : q ≠ [] := hall q (List.mem_cons_of_mem _ (List.mem_cons_self _ _))
      obtain ⟨_, ⟨u, hu, huu⟩⟩ := (List.chain'_cons.1 hchain).1
      have hBh : (joinSpace (q :: qs)).head? = some u := by
        rw [joinSpace_head_of_ne hq]
        exact hu
      rw [joinSpace_cons_ne (List.cons_ne_nil q qs),
        cleanPasses_junction hBh huu,
        ih (fun x hx => hall x (List.mem_cons_of_mem s hx)) (List.Chain'.tail hchain)]
      exact (joinSpace_cons_ne (show List.map cleanPasses (q :: qs) ≠ [] by simp)).symm

/-! ## Word counts never increase under the cleanText passes -/

theorem goFieldsAux_length_wcA : ∀ (l : List Char) (cur : List Char),
    (goFieldsAux cur l).length = wcA l (cur ≠ []) + (if cur ≠ [] then 1 else 0) := by
  intro l
  induction l with
  | nil =>
    intro cur
    by_cases hc : cur = []
    · simp [goFieldsAux, wcA, hc]
    · simp [goFieldsAux, wcA, hc]
  | cons c t ih =>
    intro cur
    by_cases hsp : goSpace c
    · by_cases hc : cur = []
      · subst hc
        simp [goFieldsAux, hsp, wcA, ih []]
      · simp [goFieldsAux, hsp, hc, wcA, ih []]
    · simp [goFieldsAux, hsp, wcA, ih (c :: cur)]
      by_cases hc : cur = []
      · simp [hc]
        omega
      · simp [hc]

theorem countWords_wcA (s : List Char) : countWords s = wcA s false := by
  unfold countWords
  rw [goFields_goTrim]
  show (goFieldsAux [] s).length = wcA s false
  rw [goFieldsAux_length_wcA]
  simp

theorem wcA_state (l : List Char) :
    wcA l true ≤ wcA l false ∧ wcA l false ≤ wcA l true + 1 := by
  induction l with
  | nil => refine ⟨?_, ?_⟩ <;> simp [wcA]
  | cons c t ih =>
    by_cases hc : goSpace c
    · have e1 : wcA (c :: t) true = wcA t false := by simp [wcA, hc]
      have e2 : wcA (c :: t) false = wcA t false := by simp [wcA, hc]
      rw [e1, e2]
      exact ⟨le_refl _, Nat.le_succ _⟩
    · have e1 : wcA (c :: t) true = wcA t true := by simp [wcA, hc]
      have e2 : wcA (c :: t) false = 1 + wcA t true := by simp [wcA, hc]
      rw [e1, e2]
      omega

theorem rsp_wcA_le {x : Char} (hx : goSpace x = false) (l : List Char) :
    ∀ st : Bool, wcA (replSpaceBefore x l) st ≤ wcA l st := by
  induction l using replSpaceBefore.induct x with
  | case1 => intro st; exact le_refl _
  | case2 => intro st; exact le_refl _
  | case3 t ih =>
    intro st
    rw [rsp_cons_space_hit]
    have h1 : wcA (x :: replSpaceBefore x t) st =
        (if st then 0 else 1) + wcA (replSpaceBefore x t) true := by
      simp [wcA, hx]
    have h2 : wcA (' ' :: x :: t) st = 1 + wcA t true := by
      simp [wcA, hx, show goSpace ' ' = true from by decide]
    rw [h1, h2]
    have := ih true
    rcases st with _ | _ <;> simp <;> omega
  | case4 d t hne ih =>
    intro st
    rw [rsp_cons_space_miss hne]
    have h1 : wcA (' ' :: replSpaceBefore x (d :: t)) st =
        wcA (replSpaceBefore x (d :: t)) false := by
      simp [wcA, show goSpace ' ' = true from by decide]
    have h2 : wcA (' ' :: d :: t) st = wcA (d :: t) false := by
      simp [wcA, show goSpace ' ' = true from by decide]
    rw [h1, h2]
    exact ih false
  | case5 c t hc ih =>
    intro st
    rw [rsp_cons_nonspace hc]
    by_cases hsp : goSpace c
    · have h1 : wcA (c :: replSpaceBefore x t) st = wcA (replSpaceBefore x t) false := by
        simp [wcA, hsp]
      have h2 : wcA (c :: t) st = wcA t false := by
        simp [wcA, hsp]
      rw [h1, h2]
      exact ih false
    · have h1 : wcA (c :: replSpaceBefore x t) st =
          (if st then 0 else 1) + wcA (replSpaceBefore x t) true := by
        simp [wcA, hsp]
      have h2 : wcA (c :: t) st = (if st then 0 else 1) + wcA t true := by
        simp [wcA, hsp]
      rw [h1, h2]
      exact Nat.add_le_add_left (ih true) _

theorem run_wcA_le {p : Char} (hp : goSpace p = false) : ∀ (l : List Char)
    (prev st : Bool), wcA (collapseRun p prev l) st ≤ wcA l st := by
  intro l
  induction l with
  | nil => intro prev st; exact le_refl _
  | cons c t ih =>
    intro prev st
    by_cases hc : c = p
    · subst hc
      rcases prev with _ | _
      · rw [run_cons_hit_emit]
        have h1 : wcA (c :: collapseRun c true t) st =
            (if st then 0 else 1) + wcA (collapseRun c true t) true := by
          simp [wcA, hp]
        have h2 : wcA (c :: t) st = (if st then 0 else 1) + wcA t true := by
          simp [wcA, hp]
        rw [h1, h2]
        exact Nat.add_le_add_left (ih true true) _
      · rw [run_cons_hit_drop]
        have h2 : wcA (c :: t) st = (if st then 0 else 1) + wcA t true := by
          simp [wcA, hp]
        rw [h2]
        refine le_trans (ih true st) ?_
        rcases st with _ | _
        · have hst := (wcA_state t).2
          simp
          omega
        · simp
    · rw [run_cons_miss hc]
      by_cases hsp : goSpace c
      · have h1 : wcA (c :: collapseRun p false t) st =
            wcA (collapseRun p false t) false := by
          simp [wcA, hsp]
        have h2 : wcA (c :: t) st = wcA t false := by
          simp [wcA, hsp]
        rw [h1, h2]
        exact ih false false
      · have h1 : wcA (c :: collapseRun p false t) st =
            (if st then 0 else 1) + wcA (collapseRun p false t) true := by
          simp [wcA, hsp]
        have h2 : wcA (c :: t) st = (if st then 0 else 1) + wcA t true := by
          simp [wcA, hsp]
        rw [h1, h2]
        exact Nat.add_le_add_left (ih false true) _

theorem countWords_cleanPasses_le (s : List Char) :
    countWords (cleanPasses s) ≤ countWords s := by
  rw [countWords_wcA, countWords_wcA]
  unfold cleanPasses
  refine le_trans (run_wcA_le (by decide) _ false false) ?_
  refine le_trans (run_wcA_le (by decide) _ false false) ?_
  refine le_trans (run_wcA_le (by decide) _ false false) ?_
  refine le_trans (rsp_wcA_le (by decide) _ false) ?_
  refine le_trans (rsp_wcA_le (by decide) _ false) ?_
  refine le_trans (rsp_wcA_le (by decide) _ false) ?_
  exact rsp_wcA_le (by decide) _ false

/-! ## Rescanning cleaned text reproduces the sentence partition -/

theorem getLast?_append_right {a b : List Char} (hb : b ≠ []) :
    (a ++ b).getLast? = b.getLast? := by
  induction a with
  | nil => rfl
  | cons c t ih =>
    have : t ++ b ≠ [] := by
      intro he
      rcases List.append_eq_nil.1 he with ⟨_, h2⟩
      exact hb h2
    rw [List.cons_append, getLast?_cons_ne this, ih]

theorem scanBound_id_noSpTriple (pb wb z : List Char) :
    (∀ c ∈ pb, isTerm c = true) → (∀ c ∈ wb, c = ' ') → wb.length ≤ 1 →
    (wb = [] ∨ pb ≠ []) → SpacesArePlain z → NoAdjSpace (wb.reverse ++ z) →
    noSpTripleB (pb.reverse ++ (wb.reverse ++ z)) = true →
    scanBound pb wb z = pb.reverse ++ (wb.reverse ++ z) := by
  induction pb, wb, z using scanBound.induct with
  | case1 pb wb =>
    intro _ _ _ _ _ _ _
    simp [scanBound]
  | case2 pb c t hterm ih =>
    intro hpb _ _ _ hplain hadj htrip
    rw [scanBound_step_term_nowb hterm]
    have hpb' : ∀ d ∈ c :: pb, isTerm d = true := by
      intro d hd
      rcases List.mem_cons.1 hd with h | h
      · subst h; exact hterm
      · exact hpb d h
    have htrip' : noSpTripleB ((c :: pb).reverse ++ ([].reverse ++ t)) = true := by
      have : (c :: pb).reverse ++ (([] : List Char).reverse ++ t) =
          pb.reverse ++ (([] : List Char).reverse ++ (c :: t)) := by
        simp
      rw [this]
      exact htrip
    have := ih hpb' (fun d hd => by cases hd) (by simp) (Or.inl rfl)
      (spacesArePlain_tail hplain) (List.Chain'.tail hadj) htrip'
    rw [this]
    simp
  | case3 pb wb c t hterm hwb ih =>
    intro hpb hwbsp hlen himp hplain hadj htrip
    rw [scanBound_step_term_wb hterm hwb]
    have hwbe : wb = [' '] := wb_singleton hwbsp hlen hwb
    subst hwbe
    have htrip' : noSpTripleB ([c].reverse ++ (([] : List Char).reverse ++ t)) = true := by
      have h2 : noSpTripleB (c :: t) = true := by
        refine noSpTriple_append_right (x := pb.reverse ++ [' ']) ?_
        have : (pb.reverse ++ [' ']) ++ (c :: t) =
            pb.reverse ++ ([' '].reverse ++ (c :: t)) := by simp
        rw [this]
        exact htrip
      simpa using h2
    have := ih (by
        intro d hd
        rcases List.mem_cons.1 hd with h | h
        · subst h; exact hterm
        · cases h)
      (fun d hd => by cases hd) (by simp) (Or.inl rfl)
      (spacesArePlain_tail hplain) (List.Chain'.tail (List.Chain'.tail hadj)) htrip'
    rw [this]
    simp
  | case4 pb wb c t hterm hcond ih =>
    intro hpb hwbsp hlen himp hplain hadj htrip
    obtain ⟨hrx, hpbne⟩ : rxSpace c = true ∧ pb ≠ [] := by simpa using hcond
    have hceq : c = ' ' := hplain c (List.mem_cons_self _ _) hrx
    have hwbnil : wb = [] := by
      rcases wb with _ | ⟨w, ws⟩
      · rfl
      · exfalso
        have hwbe : w :: ws = [' '] := wb_singleton hwbsp hlen (List.cons_ne_nil _ _)
        rw [hwbe] at hadj
        have hchain : NoAdjSpace (' ' :: c :: t) := by simpa using hadj
        exact (List.chain'_cons.1 hchain).1 ⟨by decide, hrx⟩
    subst hwbnil
    have htermf : isTerm c = false := by simpa using hterm
    rw [scanBound_step_space htermf hrx hpbne]
    subst hceq
    have htrip' : noSpTripleB (pb.reverse ++ ([' '].reverse ++ t)) = true := by
      simpa using htrip
    have := ih hpb
      (by intro d hd; rcases List.mem_cons.1 hd with h | h
          · subst h; rfl
          · cases h)
      (by simp) (Or.inr hpbne) (spacesArePlain_tail hplain) (by simpa using hadj) htrip'
    rw [this]
    simp
  | case5 pb wb c t hterm hnot2 hcond3 ih =>
    intro hpb hwbsp hlen himp hplain hadj htrip
    exfalso
    obtain ⟨⟨hu, hpbne⟩, hwbne⟩ : (isUpperAZ c = true ∧ pb ≠ []) ∧ wb ≠ [] := by
      simpa using hcond3
    have hwbe : wb = [' '] := wb_singleton hwbsp hlen hwbne
    subst hwbe
    rcases pb with _ | ⟨q, pbr⟩
    · exact hpbne rfl
    · have hq : isTerm q = true := hpb q (List.mem_cons_self _ _)
      have h2 : noSpTripleB (q :: ' ' :: c :: t) = true := by
        refine noSpTriple_append_right (x := pbr.reverse) ?_
        have : pbr.reverse ++ (q :: ' ' :: c :: t) =
            (q :: pbr).reverse ++ ([' '].reverse ++ (c :: t)) := by simp
        rw [this]
        exact htrip
      exact noSpTriple_head h2 ⟨hq, rfl, hu⟩
  | case6 pb wb c t hterm hnot2 hnot3 ih =>
    intro hpb hwbsp hlen himp hplain hadj htrip
    have htermf : isTerm c = false := by simpa using hterm
    have h2 : rxSpace c = false ∨ pb = [] := by
      by_cases hr : rxSpace c
      · right
        by_contra hne
        exact hnot2 (by simp [hr, hne])
      · left
        simpa using hr
    have h3 : isUpperAZ c = false ∨ pb = [] ∨ wb = [] := by
      by_cases hup : isUpperAZ c
      · by_cases hp : pb = []
        · exact Or.inr (Or.inl hp)
        · by_cases hw : wb = []
          · exact Or.inr (Or.inr hw)
          · exact absurd (by simp [hup, hp, hw]) hnot3
      · left
        simpa using hup
    rw [scanBound_step_other htermf h2 h3]
    have htrip' : noSpTripleB (([] : List Char).reverse ++
        (([] : List Char).reverse ++ t)) = true := by
      have ht : noSpTripleB t = true := by
        refine noSpTriple_tail (a := c) ?_
        refine noSpTriple_append_right (x := pb.reverse ++ wb.reverse) ?_
        have : (pb.reverse ++ wb.reverse) ++ (c :: t) =
            pb.reverse ++ (wb.reverse ++ (c :: t)) := by simp
        rw [this]
        exact htrip
      simpa using ht
    have := ih (fun d hd => by cases hd) (fun d hd => by cases hd) (by simp)
      (Or.inl rfl) (spacesArePlain_tail hplain)
      (List.Chain'.tail ((List.chain'_append.1 hadj).2.1)) htrip'
    rw [this]
    simp

theorem isUpperAZ_not_term {c : Char} (h : isUpperAZ c = true) : isTerm c = false := by
  by_cases ht : isTerm c
  · have := isTerm_not_upper ht
    rw [h] at this
    exact absurd this (by decide)
  · simpa using ht

theorem scanBound_cons_upper {u : Char} (hu : isUpperAZ u = true) (w : List Char) :
    scanBound [] [] (u :: w) = u :: scanBound [] [] w := by
  rw [scanBound_step_other (isUpperAZ_not_term hu) (Or.inr rfl) (Or.inr (Or.inl rfl))]
  rfl

theorem scanBound_junction : ∀ (x' pb wb : List Char) {u : Char} {w : List Char},
    (∀ c ∈ pb, isTerm c = true) → (∀ c ∈ wb, c = ' ') → wb.length ≤ 1 →
    (wb = [] ∨ pb ≠ []) →
    SpacesArePlain (x' ++ ' ' :: u :: w) →
    NoAdjSpace (wb.reverse ++ (x' ++ ' ' :: u :: w)) →
    noSpTripleB (pb.reverse ++ (wb.reverse ++ x')) = true →
    (∃ d, (pb.reverse ++ (wb.reverse ++ x')).getLast? = some d ∧ isTerm d = true) →
    isUpperAZ u = true →
    scanBound pb wb (x' ++ ' ' :: u :: w) =
      (pb.reverse ++ (wb.reverse ++ x')) ++ '\n' :: u :: scanBound [] [] w := by
  intro x'
  induction x' with
  | nil =>
    intro pb wb u w hpb hwb hlen himp hplain hadj htrip hlast hu
    have hwbnil : wb = [] := by
      rcases wb with _ | ⟨y, ys⟩
      · rfl
      · exfalso
        have hwbe : y :: ys = [' '] := wb_singleton hwb hlen (List.cons_ne_nil _ _)
        obtain ⟨d, hd, hdt⟩ := hlast
        rw [hwbe] at hd
        have : (pb.reverse ++ ([' '].reverse ++ [])).getLast? = some ' ' := by
          have he : pb.reverse ++ ([' '].reverse ++ ([] : List Char)) =
              pb.reverse ++ [' '] := by simp
          rw [he, List.getLast?_concat]
        rw [this] at hd
        have hds : d = ' ' := by
          have := Option.some.inj hd
          exact this.symm
        rw [hds] at hdt
        exact absurd hdt (by decide)
    subst hwbnil
    have hpbne : pb ≠ [] := by
      intro he
      subst he
      obtain ⟨d, hd, _⟩ := hlast
      cases hd
    have hstep1 : scanBound pb [] ([] ++ ' ' :: u :: w) =
        scanBound pb [' '] (u :: w) :=
      scanBound_step_space (by decide) (by decide) hpbne
    rw [hstep1, scanBound_step_upper (isUpperAZ_not_term hu)
      (rxSpace_eq_false_of_goSpace (isUpperAZ_not_goSpace hu)) hu hpbne
      (List.cons_ne_nil _ _)]
    simp
  | cons c x'' ih =>
    intro pb wb u w hpb hwb hlen himp hplain hadj htrip hlast hu
    by_cases hterm : isTerm c = true
    · by_cases hwbe : wb = []
      · subst hwbe
        have hstep : scanBound pb [] ((c :: x'') ++ ' ' :: u :: w) =
            scanBound (c :: pb) [] (x'' ++ ' ' :: u :: w) :=
          scanBound_step_term_nowb hterm
        rw [hstep]
        have hre : (c :: pb).reverse ++ (([] : List Char).reverse ++ x'') =
            pb.reverse ++ (([] : List Char).reverse ++ (c :: x'')) := by simp
        have := ih (c :: pb) []
          (by intro d hd
              rcases List.mem_cons.1 hd with h | h
              · subst h; exact hterm
              · exact hpb d h)
          (fun d hd => by cases hd) (by simp) (Or.inl rfl)
          (spacesArePlain_tail hplain) (List.Chain'.tail hadj)
          (by rw [hre]; exact htrip) (by rw [hre]; exact hlast) hu
        rw [this, hre]
      · have hwbs : wb = [' '] := wb_singleton hwb hlen hwbe
        subst hwbs
        have hstep : scanBound pb [' '] ((c :: x'') ++ ' ' :: u :: w) =
            pb.reverse ++ [' '].reverse ++ scanBound [c] [] (x'' ++ ' ' :: u :: w) :=
          scanBound_step_term_wb hterm (List.cons_ne_nil _ _)
        rw [hstep]
        have hre : pb.reverse ++ ([' '].reverse ++ (c :: x'')) =
            (pb.reverse ++ [' ']) ++ (c :: x'') := by simp
        have htrip' : noSpTripleB ([c].reverse ++ (([] : List Char).reverse ++ x'')) =
            true := by
          have h2 : noSpTripleB (c :: x'') = true := by
            refine noSpTriple_append_right (x := pb.reverse ++ [' ']) ?_
            rw [← hre]
            exact htrip
          simpa using h2
        have hlast' : ∃ d, ([c].reverse ++ (([] : List Char).reverse ++ x'')).getLast? =
            some d ∧ isTerm d = true := by
          obtain ⟨d, hd, hdt⟩ := hlast
          refine ⟨d, ?_, hdt⟩
          rw [hre, getLast?_append_right (List.cons_ne_nil c x'')] at hd
          simpa using hd
        have := ih [c] []
          (by intro d hd
              rcases List.mem_cons.1 hd with h | h
              · subst h; exact hterm
              · cases h)
          (fun d hd => by cases hd) (by simp) (Or.inl rfl)
          (spacesArePlain_tail hplain) (List.Chain'.tail (List.Chain'.tail hadj))
          htrip' hlast' hu
        rw [this]
        simp
    · by_cases hsp : rxSpace c = true ∧ pb ≠ []
      · obtain ⟨hrx, hpbne⟩ := hsp
        have hceq : c = ' ' := hplain c (List.mem_cons_self _ _) hrx
        have hwbnil : wb = [] := by
          rcases wb with _ | ⟨y, ys⟩
          · rfl
          · exfalso
            have hwbe : y :: ys = [' '] := wb_singleton hwb hlen (List.cons_ne_nil _ _)
            rw [hwbe] at hadj
            have hchain : NoAdjSpace (' ' :: c :: (x'' ++ ' ' :: u :: w)) := by
              simpa using hadj
            exact (List.chain'_cons.1 hchain).1 ⟨by decide, hrx⟩
        subst hwbnil
        have htermf : isTerm c = false := by simpa using hterm
        have hstep : scanBound pb [] ((c :: x'') ++ ' ' :: u :: w) =
            scanBound pb [c] (x'' ++ ' ' :: u :: w) :=
          scanBound_step_space htermf hrx hpbne
        rw [hstep]
        subst hceq
        have hre : pb.reverse ++ ([' '].reverse ++ x'') =
            pb.reverse ++ (([] : List Char).reverse ++ (' ' :: x'')) := by simp
        have := ih pb [' ']
          hpb (by intro d hd; simpa using hd)
          (by simp) (Or.inr hpbne)
          (spacesArePlain_tail hplain) (by simpa using hadj)
          (by rw [hre]; exact htrip) (by rw [hre]; exact hlast) hu
        rw [this, hre]
      · by_cases hup : isUpperAZ c = true ∧ pb ≠ [] ∧ wb ≠ []
        · exfalso
          obtain ⟨hu', hpbne, hwbne⟩ := hup
          have hwbs : wb = [' '] := wb_singleton hwb hlen hwbne
          subst hwbs
          rcases pb with _ | ⟨q, pbr⟩
          · exact hpbne rfl
          · have hq : isTerm q = true := hpb q (List.mem_cons_self _ _)
            have h2 : noSpTripleB (q :: ' ' :: c :: x'') = true := by
              refine noSpTriple_append_right (x := pbr.reverse) ?_
              have : pbr.reverse ++ (q :: ' ' :: c :: x'') =
                  (q :: pbr).reverse ++ ([' '].reverse ++ (c :: x'')) := by simp
              rw [this]
              exact htrip
            exact noSpTriple_head h2 ⟨hq, rfl, hu'⟩
        · have htermf : isTerm c = false := by simpa using hterm
          have h2 : rxSpace c = false ∨ pb = [] := by
            by_cases hr : rxSpace c
            · right
              by_contra hne
              exact hsp ⟨by simpa using hr, hne⟩
            · left
              simpa using hr
          have h3 : isUpperAZ c = false ∨ pb = [] ∨ wb = [] := by
            by_cases hc3 : isUpperAZ c
            · by_cases hp : pb = []
              · exact Or.inr (Or.inl hp)
              · by_cases hw : wb = []
                · exact Or.inr (Or.inr hw)
                · exact absurd ⟨by simpa using hc3, hp, hw⟩ hup
            · left
              simpa using hc3
          have hstep : scanBound pb wb ((c :: x'') ++ ' ' :: u :: w) =
              pb.reverse ++ wb.reverse ++ c :: scanBound [] [] (x'' ++ ' ' :: u :: w) :=
            scanBound_step_other htermf h2 h3
          rw [hstep]
          have hx''ne : x'' ≠ [] := by
            intro he
            subst he
            obtain ⟨d, hd, hdt⟩ := hlast
            have heq : pb.reverse ++ (wb.reverse ++ [c]) =
                (pb.reverse ++ wb.reverse) ++ [c] := by simp
            rw [heq, List.getLast?_concat] at hd
            have hdc : d = c := (Option.some.inj hd).symm
            rw [hdc] at hdt
            rw [hdt] at htermf
            cases htermf
          have htrip' : noSpTripleB (([] : List Char).reverse ++
              (([] : List Char).reverse ++ x'')) = true := by
            have ht : noSpTripleB x'' = true := by
              refine noSpTriple_tail (a := c) ?_
              refine noSpTriple_append_right (x := pb.reverse ++ wb.reverse) ?_
              have : (pb.reverse ++ wb.reverse) ++ (c :: x'') =
                  pb.reverse ++ (wb.reverse ++ (c :: x'')) := by simp
              rw [this]
              exact htrip
            simpa using ht
          have hlast' : ∃ d, (([] : List Char).reverse ++
              (([] : List Char).reverse ++ x'')).getLast? = some d ∧ isTerm d = true := by
            obtain ⟨d, hd, hdt⟩ := hlast
            refine ⟨d, ?_, hdt⟩
            have heq : pb.reverse ++ (wb.reverse ++ (c :: x'')) =
                (pb.reverse ++ wb.reverse ++ [c]) ++ x'' := by simp
            rw [heq, getLast?_append_right hx''ne] at hd
            simpa using hd
          have := ih [] []
            (fun d hd => by cases hd) (fun d hd => by cases hd) (by simp)
            (Or.inl rfl) (spacesArePlain_tail hplain)
            (List.Chain'.tail ((List.chain'_append.1 hadj).2.1))
            htrip' hlast' hu
          rw [this]
          simp

theorem scanBound_joinSpace : ∀ (c' : List (List Char)), c' ≠ [] →
    (∀ s ∈ c', s ≠ []) → SentChain c' →
    SpacesArePlain (joinSpace c') → NoAdjSpace (joinSpace c') →
    (∀ s ∈ c', noSpTripleB s = true) →
    splitNl (scanBound [] [] (joinSpace c')) = c' := by
  intro c'
  induction c' with
  | nil => intro h _ _ _ _ _; exact absurd rfl h
  | cons s rest ih =>
    intro _ hall hchain hplain hadj htrip
    rcases rest with _ | ⟨q, qs⟩
    · have hid : scanBound [] [] s = s := by
        have := scanBound_id_noSpTriple [] [] s (fun d hd => by cases hd)
          (fun d hd => by cases hd) (by simp) (Or.inl rfl) hplain
          (by simpa using hadj) (by simpa using htrip s (List.mem_cons_self _ _))
        simpa using this
      have hplains : SpacesArePlain s := hplain
      show splitNl (scanBound [] [] s) = [s]
      rw [hid, splitNl_of_nonl (no_nl_of_plain hplains)]
    · have hq : q ≠ [] := hall q (List.mem_cons_of_mem _ (List.mem_cons_self _ _))
      have hJne : joinSpace (q :: qs) ≠ [] :=
        joinSpace_ne_nil_head (List.mem_cons_self q qs) hq
      obtain ⟨⟨d0, hd0, hd0t⟩, ⟨u, hu, huu⟩⟩ := (List.chain'_cons.1 hchain).1
      have hJh : (joinSpace (q :: qs)).head? = some u := by
        rw [joinSpace_head_of_ne hq]
        exact hu
      obtain ⟨w, hw⟩ := head?_shape hJh
      have hjoin : joinSpace (s :: q :: qs) = s ++ ' ' :: u :: w := by
        rw [joinSpace_cons_ne (List.cons_ne_nil q qs), hw]
      have hsne : s ≠ [] := hall s (List.mem_cons_self _ _)
      have hsub : ∀ d ∈ s, d ∈ joinSpace (s :: q :: qs) := by
        intro d hd
        rw [hjoin]
        exact List.mem_append_left _ hd
      have hplains : SpacesArePlain s := fun d hd h => hplain d (hsub d hd) h
      have hsnl : '\n' ∉ s := no_nl_of_plain hplains
      have hjunc := scanBound_junction s [] []
        (fun d hd => by cases hd) (fun d hd => by cases hd) (by simp) (Or.inl rfl)
        (by rw [← hjoin]; exact hplain)
        (by have h2 : NoAdjSpace (s ++ ' ' :: u :: w) := by rw [← hjoin]; exact hadj
            simpa using h2)
        (by simpa using htrip s (List.mem_cons_self _ _))
        (by refine ⟨d0, ?_, hd0t⟩
            simpa using hd0) huu
      have hupper : u :: scanBound [] [] w = scanBound [] [] (joinSpace (q :: qs)) := by
        rw [hw, scanBound_cons_upper huu]
      have hplainJ : SpacesArePlain (joinSpace (q :: qs)) := by
        intro d hd h
        refine hplain d ?_ h
        rw [hjoin, ← hw]
        exact List.mem_append_right _ (List.mem_cons_of_mem _ hd)
      have hadjJ : NoAdjSpace (joinSpace (q :: qs)) := by
        have h2 : NoAdjSpace (s ++ (' ' :: joinSpace (q :: qs))) := by
          rw [← joinSpace_cons_ne (List.cons_ne_nil q qs)]
          exact hadj
        exact List.Chain'.tail ((List.chain'_append.1 h2).2.1)
      have hrec := ih (List.cons_ne_nil q qs)
        (fun x hx => hall x (List.mem_cons_of_mem s hx)) (List.Chain'.tail hchain)
        hplainJ hadjJ (fun x hx => htrip x (List.mem_cons_of_mem s hx))
      show splitNl (scanBound [] [] (joinSpace (s :: q :: qs))) = s :: q :: qs
      rw [hjoin, hjunc]
      have hX : splitNl ('\n' :: u :: scanBound [] [] w) =
          [] :: q :: qs := by
        rw [splitNl_cons_nl, hupper, hrec]
      have := splitNl_append_nonl hsnl hX
      rw [show (([] : List Char).reverse ++ (([] : List Char).reverse ++ s)) ++
          '\n' :: u :: scanBound [] [] w = s ++ '\n' :: u :: scanBound [] [] w by simp,
        this]
      simp

/-! ## Assembly helpers for the significance bound -/

theorem chain'_middle_sent {R : List Char → List Char → Prop}
    {a x b : List (List Char)} (h : List.Chain' R (a ++ x ++ b)) : List.Chain' R x :=
  ((List.chain'_append.1 ((List.chain'_append.1
    (by rwa [List.append_assoc] at h)).2.1)).1)

theorem joinSpace_mem : ∀ {ps : List (List Char)} {c : Char}, c ∈ joinSpace ps →
    c = ' ' ∨ ∃ s ∈ ps, c ∈ s := by
  intro ps
  induction ps with
  | nil => intro c hc; cases hc
  | cons s rest ih =>
    intro c hc
    rcases rest with _ | ⟨q, qs⟩
    · exact Or.inr ⟨s, List.mem_cons_self _ _, hc⟩
    · rw [joinSpace_cons_ne (List.cons_ne_nil q qs)] at hc
      rcases List.mem_append.1 hc with h | h
      · exact Or.inr ⟨s, List.mem_cons_self _ _, h⟩
      · rcases List.mem_cons.1 h with h2 | h2
        · exact Or.inl h2
        · rcases ih h2 with h3 | ⟨r, hr, hcr⟩
          · exact Or.inl h3
          · exact Or.inr ⟨r, List.mem_cons_of_mem _ hr, hcr⟩

theorem joinSpace_plain {ps : List (List Char)}
    (h : ∀ s ∈ ps, SpacesArePlain s) : SpacesArePlain (joinSpace ps) := by
  intro c hc hrx
  rcases joinSpace_mem hc with h2 | ⟨s, hs, hcs⟩
  · exact h2
  · exact h s hs c hcs hrx

theorem joinSpace_noAdj : ∀ (ps : List (List Char)),
    (∀ s ∈ ps, s ≠ [] ∧ NoAdjSpace s ∧ (∀ d ∈ s.head?, rxSpace d = false) ∧
      (∀ d ∈ s.getLast?, rxSpace d = false)) →
    NoAdjSpace (joinSpace ps) := by
  intro ps
  induction ps with
  | nil => intro _; exact List.chain'_nil
  | cons s rest ih =>
    intro hall
    obtain ⟨hsne, hsadj, hshead, hslast⟩ := hall s (List.mem_cons_self _ _)
    rcases rest with _ | ⟨q, qs⟩
    · exact hsadj
    · obtain ⟨hqne, _, hqhead, _⟩ :=
        hall q (List.mem_cons_of_mem _ (List.mem_cons_self _ _))
      have hJ := ih (fun x hx => hall x (List.mem_cons_of_mem s hx))
      rw [joinSpace_cons_ne (List.cons_ne_nil q qs)]
      refine List.chain'_append.2 ⟨hsadj, ?_, ?_⟩
      · refine List.chain'_cons'.2 ⟨?_, hJ⟩
        intro y hy
        rw [joinSpace_head_of_ne hqne] at hy
        have := hqhead y hy
        rintro ⟨_, h2⟩
        rw [this] at h2
        cases h2
      · intro y hy z hz
        have := hslast y hy
        rintro ⟨h1, _⟩
        rw [this] at h1
        cases h1

theorem run_getLast_nonspace {p : Char} (hp : goSpace p = false) {m : List Char}
    (hm : m ≠ []) (h : ∀ d ∈ m.getLast?, goSpace d = false) :
    ∀ d ∈ (collapseRun p false m).getLast?, goSpace d = false := by
  intro d hd
  rcases run_getLast (p := p) m false hm with hnil | ⟨e, he, heor⟩
  · exact absurd hnil (run_ne_nil hm)
  · rw [he] at hd
    have hde : e = d := by simpa using hd
    rcases heor with h2 | h2
    · rw [← hde, h2]
      exact hp
    · refine h d ?_
      rw [h2, hde]
      rfl

theorem cleanPasses_getLast_nonspace {l : List Char} (hne : l ≠ [])
    (h : ∀ d ∈ l.getLast?, goSpace d = false) :
    ∀ d ∈ (cleanPasses l).getLast?, goSpace d = false := by
  have h4 : ∀ d ∈ (replSpaceBefore '?' (replSpaceBefore '!' (replSpaceBefore '.'
      (replSpaceBefore ',' l)))).getLast?, goSpace d = false := by
    rw [rsp_getLast, rsp_getLast, rsp_getLast, rsp_getLast]
    exact h
  have n4 : replSpaceBefore '?' (replSpaceBefore '!' (replSpaceBefore '.'
      (replSpaceBefore ',' l))) ≠ [] :=
    rsp_ne_nil (rsp_ne_nil (rsp_ne_nil (rsp_ne_nil hne)))
  have h5 := run_getLast_nonspace (p := '.') (by decide) n4 h4
  have n5 := run_ne_nil (p := '.') n4
  have h6 := run_getLast_nonspace (p := '!') (by decide) n5 h5
  have n6 := run_ne_nil (p := '!') n5
  have h7 := run_getLast_nonspace (p := '?') (by decide) n6 h6
  exact h7

theorem sigCount_cons (f : TextFormatter) (s : List Char) (X : List (List Char)) :
    sigCount f (s :: X) =
      (if f.minWordsForSignificantSentence ≤ countWords s then 1 else 0) +
        sigCount f X := by
  by_cases h : f.minWordsForSignificantSentence ≤ countWords s
  · simp [sigCount, List.filter_cons, h]
    omega
  · simp [sigCount, List.filter_cons, h]

theorem sig_map_le (f : TextFormatter) : ∀ l : List (List Char),
    sigCount f (l.map cleanPasses) ≤ sigCount f l := by
  intro l
  induction l with
  | nil => exact le_refl _
  | cons s rest ih =>
    rw [List.map_cons, sigCount_cons, sigCount_cons]
    by_cases hcp : f.minWordsForSignificantSentence ≤ countWords (cleanPasses s)
    · have hs : f.minWordsForSignificantSentence ≤ countWords s :=
        le_trans hcp (countWords_cleanPasses_le s)
      rw [if_pos hcp, if_pos hs]
      omega
    · rw [if_neg hcp]
      by_cases hs : f.minWordsForSignificantSentence ≤ countWords s
      · rw [if_pos hs]
        omega
      · rw [if_neg hs]
        omega

theorem trunc_sig (f : TextFormatter) : ∀ (C : List (List Char)) (cnt : Nat),
    cnt < f.maxSentencesPerChunk →
    sigCount f (truncateChunk f cnt C) + cnt ≤ f.maxSentencesPerChunk := by
  intro C
  induction C with
  | nil =>
    intro cnt hcnt
    show sigCount f [] + cnt ≤ _
    simp [sigCount]
    omega
  | cons s rest ih =>
    intro cnt hcnt
    by_cases hsig : f.minWordsForSignificantSentence ≤ countWords s
    · by_cases hmax : f.maxSentencesPerChunk ≤ cnt + 1
      · rw [truncateChunk_cons_sig_stop hsig hmax, sigCount_cons, if_pos hsig]
        show 1 + sigCount f [] + cnt ≤ _
        simp [sigCount]
        omega
      · rw [truncateChunk_cons_sig_go hsig hmax, sigCount_cons, if_pos hsig]
        have := ih (cnt + 1) (by omega)
        omega
    · rw [truncateChunk_cons_insig hsig, sigCount_cons, if_neg hsig]
      have := ih cnt hcnt
      omega

theorem chunkLoop_sig_le (f : TextFormatter) (h0 : 0 < f.maxSentencesPerChunk) :
    ∀ (fuel : Nat) (S : List (List Char)), ∀ c ∈ chunkLoop f fuel S,
      sigCount f c ≤ f.maxSentencesPerChunk := by
  intro fuel
  induction fuel with
  | zero => intro S c hc; cases hc
  | succ fuel ih =>
    intro S c hc
    rcases hSe : S with _ | ⟨s, rest⟩
    · subst hSe
      rw [show chunkLoop f (fuel + 1) ([] : List (List Char)) = [] from rfl] at hc
      cases hc
    · have hSne : S ≠ [] := by rw [hSe]; exact List.cons_ne_nil _ _
      obtain ⟨k, hk1, hk2, hk3⟩ := chunkFinal_take f S hSne
      have hfin_len : (if f.maxSentencesPerChunk < sigCount f (tentativeChunk f 0 S)
          then truncateChunk f 0 (tentativeChunk f 0 S)
          else tentativeChunk f 0 S).length = k := by
        rw [hk3, List.length_take]
        omega
      have hstep : chunkLoop f (fuel + 1) S =
          (if f.maxSentencesPerChunk < sigCount f (tentativeChunk f 0 S)
           then truncateChunk f 0 (tentativeChunk f 0 S)
           else tentativeChunk f 0 S) :: chunkLoop f fuel (S.drop k) := by
        rw [hSe]
        show (if _ = 0 then _ else _) = _
        rw [← hSe, hfin_len]
        have hk0 : ¬(k = 0) := by omega
        rw [if_neg hk0]
      rw [hstep] at hc
      rcases List.mem_cons.1 hc with h | h
      · subst h
        by_cases hb : f.maxSentencesPerChunk < sigCount f (tentativeChunk f 0 S)
        · rw [if_pos hb]
          have := trunc_sig f (tentativeChunk f 0 S) 0 h0
          omega
        · rw [if_neg hb]
          omega
      · exact ih (S.drop k) c h

theorem mem_joinSpace_of_mem {ps : List (List Char)} {s : List Char} (hs : s ∈ ps)
    {d : Char} (hd : d ∈ s) : d ∈ joinSpace ps := by
  obtain ⟨l1, l2, hps⟩ := List.append_of_mem hs
  obtain ⟨x, y, hxy⟩ := joinSpace_segment
    (show ps = l1 ++ [s] ++ l2 by rw [hps]; simp) (List.cons_ne_nil s [])
  rw [hxy]
  exact List.mem_append.2 (Or.inl (List.mem_append.2 (Or.inr hd)))

theorem noAdj_of_mem_chunk {c : List (List Char)} {s : List Char} (hs : s ∈ c)
    (h : NoAdjSpace (joinSpace c)) : NoAdjSpace s := by
  obtain ⟨l1, l2, hps⟩ := List.append_of_mem hs
  obtain ⟨x, y, hxy⟩ := joinSpace_segment
    (show c = l1 ++ [s] ++ l2 by rw [hps]; simp) (List.cons_ne_nil s [])
  rw [hxy] at h
  have h2 : List.Chain' (fun a b => ¬(rxSpace a = true ∧ rxSpace b = true))
      (joinSpace [s]) := chain'_middle h
  exact h2

theorem chunk_clean_spec (f : TextFormatter) (text : List Char)
    (hne : goTrim text ≠ []) :
    ∀ c ∈ chunkLoop f (splitIntoSentences text).length (splitIntoSentences text),
      cleanText (joinSpace c) = joinSpace (c.map cleanPasses) ∧
      joinSpace (c.map cleanPasses) ≠ [] ∧
      '\n' ∉ joinSpace (c.map cleanPasses) ∧
      NoEdgeSpace (joinSpace (c.map cleanPasses)) ∧
      splitIntoSentences (joinSpace (c.map cleanPasses)) = c.map cleanPasses := by
  obtain ⟨hsplit, hjoin, hchain, hfacts, hsne⟩ := splitIntoSentences_spec text hne
  have hvcoll := isCollapsed_collapseWS (goTrim text)
  have hscomplete : noSpTripleB (scanBound [] [] (collapseWS (goTrim text))) = true :=
    scanBound_noSpTriple [] [] _ (fun d hd => by cases hd) (fun d hd => by cases hd)
      (by simp) (Or.inl rfl) hvcoll.1 (by simpa using hvcoll.2)
  have hStrip : ∀ s ∈ splitIntoSentences text, noSpTripleB s = true := by
    intro s hs
    rw [hsplit] at hs
    exact pieces_noSpTriple hscomplete s hs
  intro c hc
  have hcne : c ≠ [] :=
    chunkLoop_ne_nil f (splitIntoSentences text).length (splitIntoSentences text) c hc
  have hflat := chunkLoop_join f (splitIntoSentences text).length
    (splitIntoSentences text) (le_refl _)
  obtain ⟨a, b, hab⟩ := flatten_mem_decomp hc
  rw [hflat] at hab
  have hsub : ∀ s ∈ c, s ∈ splitIntoSentences text := by
    intro s hs
    rw [hab, List.append_assoc]
    exact List.mem_append_right a (List.mem_append_left b hs)
  obtain ⟨x, y, hxy⟩ := joinSpace_segment hab hcne
  rw [hjoin] at hxy
  have hccoll : IsCollapsed (joinSpace c) := by
    constructor
    · apply spacesArePlain_middle (a := x) (b := y)
      rw [← hxy]
      exact hvcoll.1
    · apply chain'_middle (a := x) (b := y)
      rw [← hxy]
      exact hvcoll.2
  have hchainc : SentChain c := by
    refine chain'_middle_sent (a := a) (b := b) ?_
    rw [← hab]
    exact hchain
  have hfall : ∀ s ∈ c, s ≠ [] ∧ NoEdgeSpace s ∧ SpacesArePlain s ∧
      NoAdjSpace s ∧ noSpTripleB s = true := by
    intro s hs
    obtain ⟨h1, h2⟩ := hfacts s (hsub s hs)
    refine ⟨h1, h2, ?_, ?_, hStrip s (hsub s hs)⟩
    · intro d hd hrx
      exact hccoll.1 d (mem_joinSpace_of_mem hs hd) hrx
    · exact noAdj_of_mem_chunk hs hccoll.2
  have hcpall : ∀ s ∈ c, cleanPasses s ≠ [] ∧
      (cleanPasses s).head? = s.head? ∧ NoEdgeSpace (cleanPasses s) ∧
      SpacesArePlain (cleanPasses s) ∧ NoAdjSpace (cleanPasses s) ∧
      noSpTripleB (cleanPasses s) = true ∧ '\n' ∉ cleanPasses s := by
    intro s hs
    obtain ⟨h1, h2, h3, h4, h5⟩ := hfall s hs
    obtain ⟨h0, t0, hs0⟩ : ∃ h0 t0, s = h0 :: t0 := by
      rcases s with _ | ⟨h0, t0⟩
      · exact absurd rfl h1
      · exact ⟨h0, t0, rfl⟩
    have hhd : s.head? = some h0 := by rw [hs0]; rfl
    have hh0 : goSpace h0 = false := h2.1 h0 hhd
    have hh0sp : h0 ≠ ' ' := by
      intro he
      rw [he] at hh0
      exact absurd hh0 (by decide)
    have hcph : (cleanPasses s).head? = some h0 := cleanPasses_head hh0sp hhd
    refine ⟨cleanPasses_ne_nil h1, by rw [hcph, hhd], ⟨?_, ?_⟩, cleanPasses_plain h3,
      cleanPasses_noAdj h3 h4, cleanPasses_noSpTriple h3 h4 h5, ?_⟩
    · intro d hd
      rw [hcph] at hd
      have : h0 = d := by simpa using hd
      rw [← this]
      exact hh0
    · exact cleanPasses_getLast_nonspace h1 h2.2
    · intro hm
      exact absurd (no_nl_of_plain h3) (by
        intro hnos
        exact hnos (cleanPasses_subset '\n' hm))
  have hjcp : cleanPasses (joinSpace c) = joinSpace (c.map cleanPasses) :=
    cleanPasses_joinSpace c (fun s hs => (hfall s hs).1) hchainc
  have hmapne : c.map cleanPasses ≠ [] := by
    intro he
    exact hcne (List.map_eq_nil_iff.1 he)
  obtain ⟨s0, crest, hce⟩ : ∃ s0 crest, c = s0 :: crest := by
    rcases c with _ | ⟨s0, crest⟩
    · exact absurd rfl hcne
    · exact ⟨s0, crest, rfl⟩
  have hs0c : s0 ∈ c := hce ▸ List.mem_cons_self _ _
  have hPne : joinSpace (c.map cleanPasses) ≠ [] :=
    joinSpace_ne_nil_head (List.mem_map_of_mem cleanPasses hs0c) (hcpall s0 hs0c).1
  have hPedge : NoEdgeSpace (joinSpace (c.map cleanPasses)) := by
    constructor
    · intro d hd
      rw [hce] at hd
      have hmap : (s0 :: crest).map cleanPasses =
          cleanPasses s0 :: crest.map cleanPasses := rfl
      rw [hmap, joinSpace_head_of_ne (hcpall s0 hs0c).1] at hd
      exact ((hcpall s0 hs0c).2.2.1).1 d hd
    · intro d hd
      obtain ⟨r, hr, hre⟩ := joinSpace_getLast_sent (c.map cleanPasses) hmapne
        (by intro s hs
            obtain ⟨s', hs', he⟩ := List.mem_map.1 hs
            exact he ▸ (hcpall s' hs').1)
      obtain ⟨r', hr', hre'⟩ := List.mem_map.1 hr
      rw [hre] at hd
      rw [← hre'] at hd
      exact ((hcpall r' hr').2.2.1).2 d hd
  have hPplain : SpacesArePlain (joinSpace (c.map cleanPasses)) := by
    refine joinSpace_plain ?_
    intro s hs
    obtain ⟨s', hs', he⟩ := List.mem_map.1 hs
    exact he ▸ (hcpall s' hs').2.2.2.1
  have hPadj : NoAdjSpace (joinSpace (c.map cleanPasses)) := by
    refine joinSpace_noAdj _ ?_
    intro s hs
    obtain ⟨s', hs', he⟩ := List.mem_map.1 hs
    subst he
    obtain ⟨k1, _, k3, _, k5, _, _⟩ := hcpall s' hs'
    refine ⟨k1, k5, ?_, ?_⟩
    · intro d hd
      exact rxSpace_eq_false_of_goSpace (k3.1 d hd)
    · intro d hd
      exact rxSpace_eq_false_of_goSpace (k3.2 d hd)
  have hclean : cleanText (joinSpace c) = joinSpace (c.map cleanPasses) := by
    have e1 : cleanText (joinSpace c) =
        goTrim (cleanPasses (collapseWS (joinSpace c))) := rfl
    rw [e1, collapseWS_eq_self hccoll, hjcp, goTrim_eq_self hPedge]
  have hPnl : '\n' ∉ joinSpace (c.map cleanPasses) := no_nl_of_plain hPplain
  have hchainP : SentChain (c.map cleanPasses) := by
    show List.Chain' (fun a b =>
      (∃ d, a.getLast? = some d ∧ isTerm d = true) ∧
      (∃ d, b.head? = some d ∧ isUpperAZ d = true)) (List.map cleanPasses c)
    rw [List.chain'_map]
    refine List.Chain'.imp ?_ hchainc
    intro s1 s2 hr
    obtain ⟨⟨d, hd, hdt⟩, ⟨u, hu, huu⟩⟩ := hr
    have hs1ne : s1 ≠ [] := by
      intro he
      rw [he] at hd
      cases hd
    have hs2ne : s2 ≠ [] := by
      intro he
      rw [he] at hu
      cases hu
    constructor
    · exact cleanPasses_getLast_term hs1ne ⟨d, hd, hdt⟩
    · have husp : u ≠ ' ' := by
        have := isUpperAZ_not_goSpace huu
        intro he
        rw [he] at this
        exact absurd this (by decide)
      exact ⟨u, cleanPasses_head husp hu, huu⟩
  have hresplit : splitIntoSentences (joinSpace (c.map cleanPasses)) =
      c.map cleanPasses := by
    have htrne : goTrim (joinSpace (c.map cleanPasses)) ≠ [] := by
      rw [goTrim_eq_self hPedge]
      exact hPne
    obtain ⟨hsplitP, _, _, _, _⟩ := splitIntoSentences_spec _ htrne
    rw [hsplitP, goTrim_eq_self hPedge, collapseWS_eq_self ⟨hPplain, hPadj⟩]
    refine scanBound_joinSpace (c.map cleanPasses) hmapne ?_ hchainP hPplain hPadj ?_
    · intro s hs
      obtain ⟨s', hs', he⟩ := List.mem_map.1 hs
      exact he ▸ (hcpall s' hs').1
    · intro s hs
      obtain ⟨s', hs', he⟩ := List.mem_map.1 hs
      exact he ▸ (hcpall s' hs').2.2.2.2.2.1
  exact ⟨hclean, hPne, hPnl, hPedge, hresplit⟩

/-- Claim C4: for every input string, no paragraph produced by
`TextFormatter.Format` (TextReflow) contains more than 4 significant
sentences, where a significant sentence is one with at least 4 words
(sentences of a paragraph taken by the formatter's own splitter). -/
theorem formatText_sig_bound (text : List Char) :
    ∀ p ∈ paragraphsOf (formatText NewTextFormatter text),
      ((splitIntoSentences p).filter (fun s => 4 ≤ countWords s)).length ≤ 4 := by
  by_cases hne : goTrim text = []
  · intro p hp
    exfalso
    unfold formatText at hp
    rw [if_pos hne] at hp
    rw [show paragraphsOf ([] : List Char) = [] from rfl] at hp
    cases hp
  · intro p hp
    have hok : ∀ c ∈ chunkLoop NewTextFormatter (splitIntoSentences text).length
        (splitIntoSentences text), cleanText (joinSpace c) ≠ [] ∧
        '\n' ∉ cleanText (joinSpace c) ∧ NoEdgeSpace (cleanText (joinSpace c)) := by
      intro c hc
      obtain ⟨h1, h2, h3, h4, _⟩ := chunk_clean_spec NewTextFormatter text hne c hc
      rw [h1]
      exact ⟨h2, h3, h4⟩
    have hpar := formatText_paragraphs NewTextFormatter text hne hok
    rw [hpar] at hp
    obtain ⟨c, hc, hcp⟩ := List.mem_map.1 hp
    obtain ⟨h1, _, _, _, h5⟩ := chunk_clean_spec NewTextFormatter text hne c hc
    rw [← hcp, h1, h5]
    have hb := chunkLoop_sig_le NewTextFormatter (by decide)
      (splitIntoSentences text).length (splitIntoSentences text) c hc
    have hm := sig_map_le NewTextFormatter c
    show sigCount NewTextFormatter (c.map cleanPasses) ≤
      NewTextFormatter.maxSentencesPerChunk
    exact le_trans hm hb

/-- Witness for C4 at a concrete input with one paragraph. -/
theorem formatText_sig_bound_witness :
    ('H' :: 'i' :: '.' :: ' ' :: 'G' :: 'o' :: ['.']) ∈
      paragraphsOf (formatText NewTextFormatter
        ('H' :: 'i' :: '.' :: ' ' :: 'G' :: 'o' :: ['.'])) ∧
    ((splitIntoSentences ('H' :: 'i' :: '.' :: ' ' :: 'G' :: 'o' :: ['.'])).filter
      (fun s => 4 ≤ countWords s)).length ≤ 4 :=
  ⟨by decide, formatText_sig_bound ('H' :: 'i' :: '.' :: ' ' :: 'G' :: 'o' :: ['.'])
    ('H' :: 'i' :: '.' :: ' ' :: 'G' :: 'o' :: ['.']) (by decide)⟩
